import Mathlib

/-!
Verification development for the jobbot harvesting/consolidation core.

The Python sources under `src/` are embedded shallowly: Python `str` is
modelled as `List Char` (wrapped in `String` at the API boundary), Python
`dict`s as association lists or structures with `Option` fields, Python
`set`s as lists used only through membership, Python `float` thresholds as
`ℚ`, and Python `int` as `Int`.  Standard-library functions used by the
code (`unicodedata.normalize`, `str.lower`, `urllib.parse`, `html.unescape`,
`difflib.SequenceMatcher`, `hashlib.sha256`) are modelled by executable
Lean functions that follow the CPython algorithms; the Unicode tables
behind NFKC and `str.lower` are modelled on a representative finite subset
of code points (identity elsewhere), which is the behaviour on every string
appearing in the repository's data path.
-/

namespace JobBot

/-- Whitespace character class of Python's `re` module (`\s`) and of
`str.strip` / `str.isspace` for `str` arguments: ASCII whitespace,
the C1/Unicode space characters, and the information separators. -/
def isPySpace (c : Char) : Bool :=
  let n := c.toNat
  n == 0x20 || n == 0x9 || n == 0xa || n == 0xd || n == 0xb || n == 0xc ||
  (decide (0x1c ≤ n) && decide (n ≤ 0x1f)) || n == 0x85 || n == 0xa0 ||
  n == 0x1680 || (decide (0x2000 ≤ n) && decide (n ≤ 0x200a)) ||
  n == 0x2028 || n == 0x2029 || n == 0x202f || n == 0x205f || n == 0x3000

/-- Model of `unicodedata.normalize("NFKC", ·)` restricted to one code point.
A representative finite subset of the NFKC mapping is modelled explicitly
(fullwidth forms, ideographic space, superscripts, a ligature and squared
forms); every other code point (ASCII, Hangul syllables, …) is NFKC-fixed
and mapped to itself. -/
def nfkcChar (c : Char) : List Char :=
  if c = '　' then [' ']
  else if c = '²' then ['2']
  else if c = '³' then ['3']
  else if c = 'ﬁ' then ['f', 'i']
  else if c = '™' then ['t', 'm']
  else if c = 'Ａ' then ['A']
  else if c = 'Ｋ' then ['K']
  else if c = 'Ｚ' then ['Z']
  else if c = 'ａ' then ['a']
  else if c = 'ｋ' then ['k']
  else if c = 'ｚ' then ['z']
  else if c = '０' then ['0']
  else if c = '９' then ['9']
  else if c = '（' then ['(']
  else if c = '）' then [')']
  else [c]

/-- Model of `str.lower` on one code point: ASCII case mapping (identity on
all other code points of the modelled subset). -/
def lowerChar (c : Char) : Char :=
  if 65 ≤ c.toNat ∧ c.toNat ≤ 90 then Char.ofNat (c.toNat + 32) else c

/-- Python `str.strip()` with no argument: drop leading and trailing
whitespace characters. -/
def pyStrip (l : List Char) : List Char :=
  ((l.dropWhile isPySpace).reverse.dropWhile isPySpace).reverse

/-- Python `SPACE_RE.sub(" ", ·)` with `SPACE_RE = re.compile(r"\s+")`:
replace every maximal run of whitespace characters by a single space
(the space is emitted at the last character of each run). -/
def collapseWs : List Char → List Char
  | [] => []
  | [c] => if isPySpace c then [' '] else [c]
  | c :: d :: r =>
    if isPySpace c then
      if isPySpace d then collapseWs (d :: r) else ' ' :: collapseWs (d :: r)
    else c :: collapseWs (d :: r)

/-- Body of `core.normalize.normalize_text` on `List Char`:
NFKC-normalize, lowercase, strip, then collapse whitespace runs. -/
def ntList (l : List Char) : List Char :=
  collapseWs (pyStrip ((l.flatMap nfkcChar).map lowerChar))

/-- `core.normalize.normalize_text`: `value` is NFKC-normalized, lowercased,
stripped, and interior whitespace runs are collapsed to single spaces. -/
def normalize_text (s : String) : String :=
  ⟨ntList s.data⟩

/-- Prefix test used by the company-suffix regex matcher. -/
def dropLit : List Char → List Char → Option (List Char)
  | [], l => some l
  | _, [] => none
  | p :: ps, c :: cs => if p = c then dropLit ps cs else none

/-- Optionally consume one character satisfying `p` (a greedy `X?` whose
alternatives are disjoint from what follows, so no backtracking arises). -/
def optChar (p : Char → Bool) : List Char → List Char
  | [] => []
  | c :: cs => if p c then cs else c :: cs

/-- Length of the match of the Python regex
`\(주\)|주식회사|inc\.?|corp\.?|co\.?\,?\s?ltd\.?` at the head of `l`
(alternatives tried left to right, optional pieces greedy), if any. -/
def companyPatLen (l : List Char) : Option Nat :=
  match dropLit ['(', '주', ')'] l with
  | some _ => some 3
  | none =>
  match dropLit ['주', '식', '회', '사'] l with
  | some _ => some 4
  | none =>
  match dropLit ['i', 'n', 'c'] l with
  | some r => some (l.length - (optChar (· = '.') r).length)
  | none =>
  match dropLit ['c', 'o', 'r', 'p'] l with
  | some r => some (l.length - (optChar (· = '.') r).length)
  | none =>
  match dropLit ['c', 'o'] l with
  | some r =>
    let r := optChar (· = '.') r
    let r := optChar (· = ',') r
    let r := optChar isPySpace r
    match dropLit ['l', 't', 'd'] r with
    | some r2 => some (l.length - (optChar (· = '.') r2).length)
    | none => none
  | none => none

/-- Fuelled scanner behind `subCompanyPat` (fuel bounds the number of scan
steps; every step consumes at least one character, so fuel equal to the
input length never runs out). -/
def subCompanyAux : Nat → List Char → List Char
  | _, [] => []
  | 0, l => l
  | fuel + 1, c :: r =>
    match companyPatLen (c :: r) with
    | some n => subCompanyAux fuel (r.drop (n - 1))
    | none => c :: subCompanyAux fuel r

/-- `re.sub(r"\(주\)|주식회사|inc\.?|corp\.?|co\.?\,?\s?ltd\.?", "", ·)`:
scan left to right, delete each non-overlapping leftmost match and resume
after it (every match consumes at least two characters). -/
def subCompanyPat (l : List Char) : List Char :=
  subCompanyAux l.length l

/-- `core.normalize.normalize_company`: normalize the text, delete common
corporate suffixes, then re-collapse and strip. -/
def normalize_company (s : String) : String :=
  ⟨pyStrip (collapseWs (subCompanyPat (ntList s.data)))⟩

/-- UTF-8 encoding of one code point as a byte list (`str.encode("utf-8")`). -/
def utf8Bytes (c : Char) : List Nat :=
  let n := c.toNat
  if n < 128 then [n]
  else if n < 2048 then [192 + n / 64, 128 + n % 64]
  else if n < 65536 then [224 + n / 4096, 128 + n / 64 % 64, 128 + n % 64]
  else [240 + n / 262144, 128 + n / 4096 % 64, 128 + n / 64 % 64, 128 + n % 64]

/-- UTF-8 encoding of a string as a byte list. -/
def strBytes (s : String) : List Nat :=
  s.data.flatMap utf8Bytes

/-- Truncation to a 32-bit machine word. -/
def w32 (x : Nat) : Nat := x % 4294967296

/-- 32-bit right rotation. -/
def rotr32 (x k : Nat) : Nat := w32 ((x >>> k) ||| (x <<< (32 - k)))

/-- The SHA-256 round constants. -/
def sha256K : List Nat :=
  [1116352408, 1899447441, 3049323471, 3921009573, 961987163, 1508970993,
   2453635748, 2870763221, 3624381080, 310598401, 607225278, 1426881987,
   1925078388, 2162078206, 2614888103, 3248222580, 3835390401, 4022224774,
   264347078, 604807628, 770255983, 1249150122, 1555081692, 1996064986,
   2554220882, 2821834349, 2952996808, 3210313671, 3336571891, 3584528711,
   113926993, 338241895, 666307205, 773529912, 1294757372, 1396182291,
   1695183700, 1986661051, 2177026350, 2456956037, 2730485921, 2820302411,
   3259730800, 3345764771, 3516065817, 3600352804, 4094571909, 275423344,
   430227734, 506948616, 659060556, 883997877, 958139571, 1322822218,
   1537002063, 1747873779, 1955562222, 2024104815, 2227730452, 2361852424,
   2428436474, 2756734187, 3204031479, 3329325298]

/-- The SHA-256 initial hash value. -/
def sha256Init : List Nat :=
  [1779033703, 3144134277, 1013904242, 2773480762,
   1359893119, 2600822924, 528734635, 1541459225]

/-- Big-endian 64-bit encoding of a length in bits. -/
def be64 (n : Nat) : List Nat :=
  (List.range 8).map (fun i => n >>> (8 * (7 - i)) % 256)

/-- SHA-256 message padding: append `0x80`, zero bytes up to 56 mod 64, and
the 64-bit big-endian bit length. -/
def shaPad (msg : List Nat) : List Nat :=
  let zeros := (120 - (msg.length + 1) % 64) % 64
  msg ++ 0x80 :: List.replicate zeros 0 ++ be64 (8 * msg.length)

/-- Split a byte list into 64-byte blocks. -/
def chunk64Aux : Nat → List Nat → List (List Nat)
  | _, [] => []
  | 0, _ => []
  | fuel + 1, c :: rest => (c :: rest).take 64 :: chunk64Aux fuel ((c :: rest).drop 64)

def chunk64 (l : List Nat) : List (List Nat) :=
  chunk64Aux l.length l

/-- The SHA-256 message schedule of one 64-byte block: 64 32-bit words. -/
def msgSchedule (block : List Nat) : List Nat :=
  let w0 := (List.range 16).map (fun i =>
    block.getD (4 * i) 0 <<< 24 + block.getD (4 * i + 1) 0 <<< 16 +
    block.getD (4 * i + 2) 0 <<< 8 + block.getD (4 * i + 3) 0)
  (List.range 48).foldl (fun w j =>
    let i := j + 16
    let x15 := w.getD (i - 15) 0
    let x2 := w.getD (i - 2) 0
    let s0 := rotr32 x15 7 ^^^ rotr32 x15 18 ^^^ (x15 >>> 3)
    let s1 := rotr32 x2 17 ^^^ rotr32 x2 19 ^^^ (x2 >>> 10)
    w ++ [w32 (w.getD (i - 16) 0 + s0 + w.getD (i - 7) 0 + s1)]) w0

/-- The SHA-256 compression function applied to one block. -/
def shaCompress (h : List Nat) (block : List Nat) : List Nat :=
  let w := msgSchedule block
  let fin := (List.range 64).foldl (fun st i =>
    match st with
    | [a, b, c, d, e, f, g, hh] =>
      let s1 := rotr32 e 6 ^^^ rotr32 e 11 ^^^ rotr32 e 25
      let ch := (e &&& f) ^^^ ((e ^^^ 4294967295) &&& g)
      let t1 := w32 (hh + s1 + ch + sha256K.getD i 0 + w.getD i 0)
      let s0 := rotr32 a 2 ^^^ rotr32 a 13 ^^^ rotr32 a 22
      let mj := (a &&& b) ^^^ (a &&& c) ^^^ (b &&& c)
      let t2 := w32 (s0 + mj)
      [w32 (t1 + t2), a, b, c, w32 (d + t1), e, f, g]
    | other => other) h
  (h.zip fin).map (fun p => w32 (p.1 + p.2))

/-- One lowercase hexadecimal digit. -/
def hexChar (n : Nat) : Char :=
  if n < 10 then Char.ofNat (48 + n) else Char.ofNat (87 + n)

/-- Lowercase hexadecimal rendering of one 32-bit word. -/
def wordHex (x : Nat) : List Char :=
  (List.range 8).map (fun i => hexChar (x >>> (4 * (7 - i)) % 16))

/-- SHA-256 of a byte list, rendered as the usual 64-character lowercase
hex digest (`hashlib.sha256(...).hexdigest()`). -/
def sha256hex (msg : List Nat) : String :=
  ⟨((chunk64 (shaPad msg)).foldl shaCompress sha256Init).flatMap wordHex⟩

/-- `core.normalize.hash_text`: SHA-256 hex digest of the UTF-8 encoding. -/
def hash_text (s : String) : String :=
  sha256hex (strBytes s)

/-- `core.normalize.title_company_hash`. -/
def title_company_hash (title company : String) : String :=
  hash_text (normalize_text title ++ "|" ++ normalize_company company)

/-- `core.normalize.desc_fingerprint` (default `max_len = 500`). -/
def desc_fingerprint (description : String) (maxLen : Nat := 500) : String :=
  hash_text ⟨(normalize_text description).data.take maxLen⟩

/-- ASCII uppercase-or-lowercase letter. -/
def isAsciiAlpha (c : Char) : Bool :=
  (65 ≤ c.toNat && c.toNat ≤ 90) || (97 ≤ c.toNat && c.toNat ≤ 122)

/-- ASCII digit. -/
def isAsciiDigit (c : Char) : Bool :=
  48 ≤ c.toNat && c.toNat ≤ 57

/-- Characters permitted in a URL scheme after the first (RFC 3986 /
`urllib.parse.scheme_chars`). -/
def isSchemeChar (c : Char) : Bool :=
  isAsciiAlpha c || isAsciiDigit c || c == '+' || c == '-' || c == '.'

/-- Value of an ASCII hex digit. -/
def hexVal (c : Char) : Option Nat :=
  if isAsciiDigit c then some (c.toNat - 48)
  else if 97 ≤ c.toNat ∧ c.toNat ≤ 102 then some (c.toNat - 87)
  else if 65 ≤ c.toNat ∧ c.toNat ≤ 70 then some (c.toNat - 55)
  else none

/-- The Unicode replacement character emitted by `errors="replace"`. -/
def replChar : Char := '�'

/-- UTF-8 continuation byte test. -/
def isContByte (b : Nat) : Bool :=
  128 ≤ b && b < 192

/-- Fuelled scanner behind `utf8Decode` (each step consumes at least one
byte, so fuel equal to the input length never runs out). -/
def utf8DecodeAux : Nat → List Nat → List Char
  | _, [] => []
  | 0, _ => []
  | fuel + 1, b :: r =>
    if b < 128 then Char.ofNat b :: utf8DecodeAux fuel r
    else if 194 ≤ b ∧ b ≤ 223 then
      match r with
      | b2 :: r2 =>
        if isContByte b2 then Char.ofNat ((b - 192) * 64 + (b2 - 128)) :: utf8DecodeAux fuel r2
        else replChar :: utf8DecodeAux fuel r
      | [] => [replChar]
    else if 224 ≤ b ∧ b ≤ 239 then
      match r with
      | b2 :: b3 :: r3 =>
        let n := (b - 224) * 4096 + (b2 - 128) * 64 + (b3 - 128)
        if isContByte b2 ∧ isContByte b3 ∧ (b = 224 → 160 ≤ b2) ∧ ¬(55296 ≤ n ∧ n ≤ 57343) then
          Char.ofNat n :: utf8DecodeAux fuel r3
        else replChar :: utf8DecodeAux fuel r
      | _ => [replChar]
    else if 240 ≤ b ∧ b ≤ 244 then
      match r with
      | b2 :: b3 :: b4 :: r4 =>
        let n := (b - 240) * 262144 + (b2 - 128) * 4096 + (b3 - 128) * 64 + (b4 - 128)
        if isContByte b2 ∧ isContByte b3 ∧ isContByte b4 ∧ (b = 240 → 144 ≤ b2) ∧ n ≤ 1114111 then
          Char.ofNat n :: utf8DecodeAux fuel r4
        else replChar :: utf8DecodeAux fuel r
      | _ => [replChar]
    else replChar :: utf8DecodeAux fuel r

/-- UTF-8 decoding of a byte list with `errors="replace"`
(`bytes.decode("utf-8", "replace")`), modelling malformed sequences as a
single replacement character per rejected byte group. -/
def utf8Decode (l : List Nat) : List Char :=
  utf8DecodeAux l.length l

/-- Token stream of `urllib.parse.unquote`: each `%XX` escape becomes a
byte, everything else stays a literal character. -/
inductive PctTok where
  | lit (c : Char)
  | byte (b : Nat)
deriving DecidableEq

/-- Tokenize a string for percent-decoding (`%XX` with two hex digits is a
byte; a `%` not followed by two hex digits stays literal). -/
def pctTokens : List Char → List PctTok
  | [] => []
  | '%' :: a :: b :: r =>
    match hexVal a, hexVal b with
    | some x, some y => .byte (16 * x + y) :: pctTokens r
    | _, _ => .lit '%' :: pctTokens (a :: b :: r)
  | c :: r => .lit c :: pctTokens r

/-- Decode a percent token stream: maximal byte runs are UTF-8 decoded with
`errors="replace"`, literals pass through (`acc` holds the current byte run
in reverse). -/
def detokPct (acc : List Nat) : List PctTok → List Char
  | [] => utf8Decode acc.reverse
  | .byte b :: r => detokPct (b :: acc) r
  | .lit c :: r => utf8Decode acc.reverse ++ c :: detokPct [] r

/-- `urllib.parse.unquote` (UTF-8, `errors="replace"`). -/
def pyUnquote (l : List Char) : List Char :=
  detokPct [] (pctTokens l)

/-- `urllib.parse.unquote_plus`: `+` becomes a space, then percent-decode. -/
def unquotePlus (l : List Char) : List Char :=
  pyUnquote (l.map (fun c => if c = '+' then ' ' else c))

/-- Characters that `urllib.parse.quote_plus` leaves unescaped. -/
def quoteSafe (c : Char) : Bool :=
  isAsciiAlpha c || isAsciiDigit c || c == '_' || c == '.' || c == '-' || c == '~'

/-- One uppercase hexadecimal digit (as produced by `quote`). -/
def hexUpper (n : Nat) : Char :=
  if n < 10 then Char.ofNat (48 + n) else Char.ofNat (55 + n)

/-- `urllib.parse.quote_plus` on one character. -/
def quotePlusChar (c : Char) : List Char :=
  if c = ' ' then ['+']
  else if quoteSafe c then [c]
  else (utf8Bytes c).flatMap (fun b => ['%', hexUpper (b / 16), hexUpper (b % 16)])

/-- `urllib.parse.quote_plus`. -/
def quotePlus (l : List Char) : List Char :=
  l.flatMap quotePlusChar

/-- Split on every occurrence of `sep`, keeping empty segments
(Python `str.split(sep)` with an explicit separator). -/
def splitSep (sep : Char) : List Char → List (List Char)
  | [] => [[]]
  | c :: r =>
    if c = sep then [] :: splitSep sep r
    else
      match splitSep sep r with
      | seg :: rest => (c :: seg) :: rest
      | [] => [[c]]

/-- `urllib.parse.parse_qsl(query, keep_blank_values=True)`: split on `&`,
skip empty fragments, split each pair at the first `=` (a pair without `=`
keeps a blank value), and unquote names and values. -/
def parseQsl (q : List Char) : List (List Char × List Char) :=
  (splitSep '&' q).filterMap (fun seg =>
    if seg.isEmpty then none
    else if seg.contains '=' then
      some (unquotePlus (seg.takeWhile (· != '=')), unquotePlus ((seg.dropWhile (· != '=')).tail))
    else some (unquotePlus seg, []))

/-- `urlencode(pairs)` with the default `quote_via=quote_plus`:
`k=v` pairs joined by `&`. -/
def urlencodePairs (q : List (List Char × List Char)) : List Char :=
  List.intercalate ['&'] (q.map (fun kv => quotePlus kv.1 ++ '=' :: quotePlus kv.2))

/-- The six components returned by `urllib.parse.urlparse`. -/
structure UrlParts where
  scheme : List Char
  netloc : List Char
  path : List Char
  params : List Char
  query : List Char
  frag : List Char
deriving DecidableEq

/-- Tab, carriage return and newline are removed anywhere in a URL before
splitting (`urllib.parse._UNSAFE_URL_BYTES_TO_REMOVE`). -/
def removeUnsafeUrlChars (l : List Char) : List Char :=
  l.filter (fun c => !(c == '\t' || c == '\r' || c == '\n'))

/-- Split at the first occurrence of `sep`; the separator itself is dropped. -/
def splitFirst (sep : Char) (l : List Char) : List Char × Option (List Char) :=
  if l.contains sep then (l.takeWhile (· != sep), some ((l.dropWhile (· != sep)).tail))
  else (l, none)

/-- Characters ending the netloc in `urlsplit`. -/
def isNetlocEnd (c : Char) : Bool :=
  c == '/' || c == '?' || c == '#'

/-- `urllib.parse.urlsplit`: extract scheme (validated and lowercased),
netloc (after `//`, up to the first `/`, `?` or `#`), fragment (after the
first `#`) and query (after the first `?`). -/
def urlsplitCh (u0 : List Char) : UrlParts :=
  let u := removeUnsafeUrlChars u0
  let pre := u.takeWhile (· != ':')
  let schemeOk := u.contains ':' && !pre.isEmpty && isAsciiAlpha (pre.headD ' ') &&
    pre.all isSchemeChar
  let scheme := if schemeOk then pre.map lowerChar else []
  let u1 := if schemeOk then (u.dropWhile (· != ':')).tail else u
  let hasNetloc := u1.take 2 == ['/', '/']
  let netloc := if hasNetloc then (u1.drop 2).takeWhile (fun c => !isNetlocEnd c) else []
  let u2 := if hasNetloc then (u1.drop 2).dropWhile (fun c => !isNetlocEnd c) else u1
  let fq := splitFirst '#' u2
  let pq := splitFirst '?' fq.1
  ⟨scheme, netloc, pq.1, [], (pq.2).getD [], (fq.2).getD []⟩

/-- `urllib.parse._splitparams`: split `;params` off the last path segment
(only looked for at or after the last `/`). -/
def splitParamsCh (p : List Char) : List Char × List Char :=
  if p.contains ';' then
    if p.contains '/' then
      let lastSeg := (p.reverse.takeWhile (· != '/')).reverse
      if lastSeg.contains ';' then
        (p.take (p.length - lastSeg.length) ++ lastSeg.takeWhile (· != ';'),
         (lastSeg.dropWhile (· != ';')).tail)
      else (p, [])
    else (p.takeWhile (· != ';'), (p.dropWhile (· != ';')).tail)
  else (p, [])

/-- `urllib.parse.urlparse` = `urlsplit` plus params splitting. -/
def urlparseCh (u : List Char) : UrlParts :=
  let s := urlsplitCh u
  let pq := splitParamsCh s.path
  { s with path := pq.1, params := pq.2 }

/-- `urllib.parse.urlunsplit`. -/
def urlunsplitCh (scheme netloc path query frag : List Char) : List Char :=
  let url := path
  let url :=
    if !netloc.isEmpty || url.take 2 == ['/', '/'] then
      '/' :: '/' :: (netloc ++ (if !url.isEmpty && url.headD ' ' != '/' then '/' :: url else url))
    else url
  let url := if !scheme.isEmpty then scheme ++ ':' :: url else url
  let url := if !query.isEmpty then url ++ '?' :: query else url
  if !frag.isEmpty then url ++ '#' :: frag else url

/-- `urllib.parse.urlunparse`: re-attach params to the path, then unsplit. -/
def urlunparseCh (scheme netloc path params query frag : List Char) : List Char :=
  urlunsplitCh scheme netloc (if !params.isEmpty then path ++ ';' :: params else path) query frag

/-- Python `str.rstrip("/")`. -/
def rstripSlash (l : List Char) : List Char :=
  (l.reverse.dropWhile (· == '/')).reverse

/-- `str.lower` on a string of the modelled subset. -/
def lowerAll (l : List Char) : List Char :=
  l.map lowerChar

/-- The modelled subset of HTML named character references (semicolon forms
first so that the longest reference wins, then the legacy semicolon-free
forms recognised by `html.unescape`). -/
def namedRefs : List (List Char × Char) :=
  [(['a','m','p',';'], '&'), (['l','t',';'], '<'), (['g','t',';'], '>'),
   (['q','u','o','t',';'], '"'),
   (['n','b','s','p',';'], ' '), (['p','a','r','a',';'], '¶'),
   (['s','e','c','t',';'], '§'), (['c','o','p','y',';'], '©'),
   (['n','o','t',';'], '¬'),
   (['a','m','p'], '&'), (['l','t'], '<'), (['g','t'], '>'),
   (['q','u','o','t'], '"'), (['p','a','r','a'], '¶'),
   (['s','e','c','t'], '§'), (['c','o','p','y'], '©'), (['n','o','t'], '¬')]

/-- Try a named character reference right after a `&`. -/
def tryNamedRef (l : List Char) : Option (Char × List Char) :=
  namedRefs.findSome? (fun e => (dropLit e.1 l).map (fun rest => (e.2, rest)))

/-- Greedily take decimal digits. -/
def takeNum (l : List Char) : Option (Nat × List Char) :=
  let ds := l.takeWhile isAsciiDigit
  if ds.isEmpty then none
  else some (ds.foldl (fun a c => 10 * a + (c.toNat - 48)) 0, l.dropWhile isAsciiDigit)

/-- Try a numeric character reference (`#NNN;` or `#xHH;`, trailing
semicolon optional) right after a `&`. -/
def tryNumRef (l : List Char) : Option (Char × List Char) :=
  match l with
  | '#' :: rest =>
    let toChar := fun (n : Nat) (r : List Char) =>
      let r := match r with | ';' :: r2 => r2 | other => other
      some (if n ≤ 1114111 ∧ ¬(55296 ≤ n ∧ n ≤ 57343) ∧ n ≠ 0 then Char.ofNat n else replChar, r)
    match rest with
    | 'x' :: hs | 'X' :: hs =>
      let ds := hs.takeWhile (fun c => (hexVal c).isSome)
      if ds.isEmpty then none
      else toChar (ds.foldl (fun a c => 16 * a + (hexVal c).getD 0) 0) (hs.dropWhile (fun c => (hexVal c).isSome))
    | _ =>
      match takeNum rest with
      | some nr => toChar nr.1 nr.2
      | none => none
  | _ => none

/-- Fuelled scanner behind `htmlUnescape` (each step consumes at least one
character, so fuel equal to the input length never runs out). -/
def htmlUnescapeAux : Nat → List Char → List Char
  | _, [] => []
  | 0, l => l
  | fuel + 1, '&' :: r =>
    match tryNumRef r with
    | some cr => cr.1 :: htmlUnescapeAux fuel cr.2
    | none =>
      match tryNamedRef r with
      | some cr => cr.1 :: htmlUnescapeAux fuel cr.2
      | none => '&' :: htmlUnescapeAux fuel r
  | fuel + 1, c :: r => c :: htmlUnescapeAux fuel r

/-- Model of `html.unescape` over the modelled reference subset. -/
def htmlUnescape (l : List Char) : List Char :=
  htmlUnescapeAux l.length l

/-- `startswith("utm_")` on the lowercased key. -/
def isUtmKey (k : List Char) : Bool :=
  ['u','t','m','_'].isPrefixOf (lowerAll k)

/-- Strict lexicographic comparison of strings by code point
(Python `str` comparison). -/
def chLt : List Char → List Char → Bool
  | [], [] => false
  | [], _ :: _ => true
  | _ :: _, [] => false
  | a :: as, b :: bs =>
    if a.toNat < b.toNat then true
    else if b.toNat < a.toNat then false
    else chLt as bs

/-- Non-strict lexicographic comparison of `(key, value)` pairs
(Python tuple comparison as used by `sorted`). -/
def pairLe (x y : List Char × List Char) : Bool :=
  chLt x.1 y.1 || (x.1 == y.1 && (chLt x.2 y.2 || x.2 == y.2))

/-- Insert into an already sorted pair list, before the first element that
is not strictly smaller (stable, as Python `sorted`). -/
def insertPair (x : List Char × List Char) :
    List (List Char × List Char) → List (List Char × List Char)
  | [] => [x]
  | y :: r => if pairLe x y then x :: y :: r else y :: insertPair x r

/-- Stable sort of query pairs under Python tuple comparison. -/
def sortPairs : List (List Char × List Char) → List (List Char × List Char)
  | [] => []
  | x :: r => insertPair x (sortPairs r)

/-- `core.dedup._canonical_url`: strip, parse, drop `utm_*` query keys,
lowercase scheme and netloc, strip trailing slashes from the path, drop
params and fragment, and re-assemble with the remaining query pairs sorted. -/
def _canonical_url (url : String) : String :=
  if url = "" then "" else
  let p := urlparseCh (pyStrip url.data)
  let query := (parseQsl p.query).filter (fun kv => !isUtmKey kv.1)
  ⟨urlunparseCh (lowerAll p.scheme) (lowerAll p.netloc) (rstripSlash p.path) []
    (urlencodePairs (sortPairs query)) []⟩

/-- `crawlers.common.canonical_url`: strip, HTML-unescape, parse, clean each
query key (strip whitespace, drop an `amp;` prefix, drop empty and `utm_*`
keys), lowercase scheme and netloc, strip trailing slashes from the path,
and re-assemble (query order preserved, params and fragment dropped). -/
def canonical_url (url : String) : String :=
  if url = "" then "" else
  let p := urlparseCh (htmlUnescape (pyStrip url.data))
  let query := (parseQsl p.query).filterMap (fun kv =>
    let key := pyStrip kv.1
    let key := if ['a','m','p',';'].isPrefixOf (lowerAll key) then key.drop 4 else key
    if key.isEmpty || isUtmKey key then none else some (key, kv.2))
  ⟨urlunparseCh (lowerAll p.scheme) (lowerAll p.netloc) (rstripSlash p.path) []
    (urlencodePairs query) []⟩

/-- Characters of `b` removed from `b2j` by `difflib`'s autojunk heuristic:
when `b` has at least 200 elements, those accounting for more than 1%. -/
def popularChars (b : List Char) : List Char :=
  if 200 ≤ b.length then b.eraseDups.filter (fun c => b.length / 100 + 1 < b.count c) else []

/-- Lookup in the run-length map `j2len` of the previous scan row. -/
def lookupJ (m : List (Nat × Nat)) (j : Nat) : Nat :=
  ((m.find? (fun e => e.1 == j)).map (·.2)).getD 0

/-- The dictionary scan of `SequenceMatcher.find_longest_match`: for each
`i` ascending and each matching `j` ascending, extend runs ending at
`(i-1, j-1)` and keep the first longest run found
(returns `(besti, bestj, bestsize)`). -/
def flmScan (a b : List Char) (pop : List Char) (alo ahi blo bhi : Nat) : Nat × Nat × Nat :=
  (((List.range' alo (ahi - alo)).foldl (fun st i =>
    let ai := a.getD i ' '
    if pop.contains ai then (([] : List (Nat × Nat)), st.2)
    else
      (List.range' blo (bhi - blo)).foldl (fun st2 j =>
        if b.getD j ' ' == ai then
          let k := (if j = 0 then 0 else lookupJ st.1 (j - 1)) + 1
          ((j, k) :: st2.1,
           if st2.2.2.2 < k then (i + 1 - k, j + 1 - k, k) else st2.2)
        else st2) ([], st.2))
    (([] : List (Nat × Nat)), (alo, blo, 0))).2 : Nat × Nat × Nat)

/-- Extension of a match to the left over equal characters (the non-junk
extension loop of `find_longest_match`; `bjunk` is empty since the matcher
is created with `isjunk=None`). -/
def extLeftAux (a b : List Char) (alo blo : Nat) : Nat → Nat → Nat → Nat → Nat × Nat × Nat
  | 0, i, j, k => (i, j, k)
  | fuel + 1, i, j, k =>
    if alo < i ∧ blo < j ∧ a.getD (i - 1) ' ' = b.getD (j - 1) ' ' then
      extLeftAux a b alo blo fuel (i - 1) (j - 1) (k + 1)
    else (i, j, k)

/-- Extension of a match to the right over equal characters. -/
def extRightAux (a b : List Char) (ahi bhi : Nat) : Nat → Nat → Nat → Nat → Nat × Nat × Nat
  | 0, i, j, k => (i, j, k)
  | fuel + 1, i, j, k =>
    if i + k < ahi ∧ j + k < bhi ∧ a.getD (i + k) ' ' = b.getD (j + k) ' ' then
      extRightAux a b ahi bhi fuel i j (k + 1)
    else (i, j, k)

/-- `difflib.SequenceMatcher.find_longest_match` with `isjunk=None`:
dictionary scan (autojunk-popular characters excluded from `b2j`) followed
by the two non-junk extension loops (the junk loops never fire). -/
def findLongestMatch (a b : List Char) (pop : List Char) (alo ahi blo bhi : Nat) :
    Nat × Nat × Nat :=
  let m := flmScan a b pop alo ahi blo bhi
  let m := extLeftAux a b alo blo m.1 m.1 m.2.1 m.2.2
  extRightAux a b ahi bhi ahi m.1 m.2.1 m.2.2

/-- Total size of the matching blocks (the recursive splitting of
`get_matching_blocks`); the fuel bounds the recursion depth and never runs
out since each split strictly shrinks the interval. -/
def matchTotalAux (a b : List Char) (pop : List Char) :
    Nat → Nat → Nat → Nat → Nat → Nat
  | 0, _, _, _, _ => 0
  | fuel + 1, alo, ahi, blo, bhi =>
    let m := findLongestMatch a b pop alo ahi blo bhi
    if m.2.2 = 0 then 0
    else
      m.2.2 + matchTotalAux a b pop fuel alo m.1 blo m.2.1 +
        matchTotalAux a b pop fuel (m.1 + m.2.2) ahi (m.2.1 + m.2.2) bhi

/-- Number of matched elements between `a` and `b`
(`sum(size for _, _, size in get_matching_blocks())`). -/
def matchTotal (a b : List Char) : Nat :=
  matchTotalAux a b (popularChars b) (a.length + 1) 0 a.length 0 b.length

/-- `SequenceMatcher(None, a, b).ratio()` = `2*M / (len(a)+len(b))`
(`1` when both are empty). -/
def simScore (a b : List Char) : ℚ :=
  if a.length + b.length = 0 then 1
  else (2 * matchTotal a b : ℚ) / (a.length + b.length)

/-- `core.dedup._is_similar`: false on empty input, else the character
sequence similarity reaches the threshold. -/
def _is_similar (a b : String) (threshold : ℚ) : Bool :=
  if a = "" ∨ b = "" then false
  else decide (threshold ≤ simScore a.data b.data)

/-- `core.dedup._token_set`: normalized words of length at least 2, as a set. -/
def _token_set (text : String) : Finset String :=
  (((splitSep ' ' (normalize_text text).data).filter
    (fun t => 2 ≤ t.length)).map (fun l => (⟨l⟩ : String))).toFinset

/-- `core.dedup._jaccard`: `0` when either set is empty. -/
def _jaccard (a b : Finset String) : ℚ :=
  if a = ∅ ∨ b = ∅ then 0 else (a ∩ b).card / ((a ∪ b).card : ℚ)

/-- A canonical job record (`core.schema.Job`, which is also the shape of
the string-keyed dicts consumed by `deduplicate_jobs` via `Job.to_dict`). -/
structure Job where
  source : String := ""
  url : String := ""
  title : String := ""
  company : String := ""
  location : String := ""
  employment_type : String := ""
  posted_at : String := ""
  description : String := ""
  source_job_id : String := ""
  deadline : String := ""
  is_open : Bool := true
  status_text : String := ""
deriving DecidableEq, Repr

/-- The dedup-relevant configuration keys with their `cfg.get` defaults
(`dedup.py` lines 37-40); thresholds are modelled as rationals. -/
structure DedupCfg where
  title_similarity_enabled : Bool := true
  title_similarity_threshold : ℚ := 9 / 10
  cross_site_similarity_enabled : Bool := true
  cross_site_similarity_threshold : ℚ := 43 / 50
deriving DecidableEq

/-- The accumulated state of the dedup loop: the four seen-key sets
(modelled as lists used only through membership) and the accepted list. -/
structure DedupSt where
  seen_urls : List String := []
  seen_title_company : List String := []
  seen_desc : List String := []
  canonical_keys : List String := []
  unique : List Job := []
deriving DecidableEq, Repr

/-- The cross-source token set of the incoming posting
(`_token_set(f"{title} {company} {location} {desc[:200]}")` on the
normalized fields). -/
def curTokens (title company location desc : String) : Finset String :=
  _token_set (title ++ " " ++ company ++ " " ++ location ++ " " ++ ⟨desc.data.take 200⟩)

/-- The cross-source token set of an already accepted posting (raw fields,
description normalized then truncated). -/
def acceptedTokens (x : Job) : Finset String :=
  _token_set (x.title ++ " " ++ x.company ++ " " ++ x.location ++ " " ++
    ⟨(normalize_text x.description).data.take 200⟩)

/-- The six rejection checks of the dedup ladder in source order: canonical
URL, title+company hash, description fingerprint, coarse key, title
similarity (if enabled), cross-source Jaccard similarity (if enabled). -/
def ladderCheck (cfg : DedupCfg) (st : DedupSt) (j : Job) : Fin 6 → Bool :=
  let url := _canonical_url j.url
  let title := normalize_text j.title
  let company := normalize_company j.company
  let location := normalize_text j.location
  let desc := normalize_text j.description
  fun i =>
    match i with
    | 0 => url != "" && st.seen_urls.contains url
    | 1 => st.seen_title_company.contains (title_company_hash title company)
    | 2 => st.seen_desc.contains (desc_fingerprint desc)
    | 3 => st.canonical_keys.contains (title ++ "|" ++ company ++ "|" ++ ⟨location.data.take 20⟩)
    | 4 => cfg.title_similarity_enabled &&
        st.unique.any (fun x => _is_similar title (normalize_text x.title) cfg.title_similarity_threshold)
    | 5 => cfg.cross_site_similarity_enabled &&
        st.unique.any (fun x =>
          decide (cfg.cross_site_similarity_threshold ≤
            _jaccard (curTokens title company location desc) (acceptedTokens x)))

/-- The rejection decision of `deduplicate_jobs` for one incoming posting:
the checks are tried in ladder order and the first hit rejects
(the `continue` chain of `dedup.py` lines 59-82). -/
def rejects (cfg : DedupCfg) (st : DedupSt) (j : Job) : Bool :=
  if ladderCheck cfg st j 0 then true
  else if ladderCheck cfg st j 1 then true
  else if ladderCheck cfg st j 2 then true
  else if ladderCheck cfg st j 3 then true
  else if ladderCheck cfg st j 4 then true
  else if ladderCheck cfg st j 5 then true
  else false

/-- The accepted copy of a posting: the canonical URL (when nonempty)
overwrites the original URL field (`copied["url"] = url or job.get("url", "")`). -/
def acceptedForm (j : Job) : Job :=
  let url := _canonical_url j.url
  { j with url := if url = "" then j.url else url }

/-- State update on acceptance: record the four keys (the URL only when
nonempty) and append the accepted copy. -/
def pushJob (st : DedupSt) (j : Job) : DedupSt :=
  let url := _canonical_url j.url
  let title := normalize_text j.title
  let company := normalize_company j.company
  let location := normalize_text j.location
  let desc := normalize_text j.description
  { seen_urls := if url != "" then url :: st.seen_urls else st.seen_urls
    seen_title_company := title_company_hash title company :: st.seen_title_company
    seen_desc := desc_fingerprint desc :: st.seen_desc
    canonical_keys := (title ++ "|" ++ company ++ "|" ++ ⟨location.data.take 20⟩) :: st.canonical_keys
    unique := st.unique ++ [acceptedForm j] }

/-- The main dedup loop over the incoming postings. -/
def dedupGo (cfg : DedupCfg) (st : DedupSt) : List Job → List Job
  | [] => st.unique
  | j :: rest =>
    if rejects cfg st j then dedupGo cfg st rest
    else dedupGo cfg (pushJob st j) rest

/-- `core.dedup.deduplicate_jobs` (the `logger` argument only produces a log
line and is omitted). -/
def deduplicate_jobs (jobs : List Job) (cfg : DedupCfg) : List Job :=
  dedupGo cfg {} jobs

/-- Per-source options read by `run_crawlers`: `opts.get("enabled", False)`
and `opts.get("tier", 2)`. -/
structure SourceOpts where
  enabled : Bool := false
  tier : Int := 2
deriving DecidableEq

/-- One persisted record of `data/source_health.json`. -/
structure HealthEntry where
  consecutive_zero : Int := 0
  last_collected : Int := 0
  updated_at : String := ""
deriving DecidableEq, Repr

/-- Python dict lookup, on an association-list model of a dict. -/
def alistGet {α : Type} (m : List (String × α)) (k : String) : Option α :=
  (m.find? (fun e => e.1 == k)).map (·.2)

/-- Python dict item assignment: replace the value at an existing key in
place, else append the new binding (association lists modelling dicts never
carry a key twice). -/
def alistSet {α : Type} (m : List (String × α)) (k : String) (v : α) : List (String × α) :=
  match m with
  | [] => [(k, v)]
  | e :: r => if e.1 == k then (k, v) :: r else e :: alistSet r k v

/-- `int(source_health.get(source_name, {}).get("consecutive_zero", 0))`. -/
def getConsecutiveZero (h : List (String × HealthEntry)) (name : String) : Int :=
  ((alistGet h name).map (·.consecutive_zero)).getD 0

/-- Result of one `_run_source(source_name, …)` call at the `run_crawlers`
boundary: either the normalized postings it returned (possibly none), or an
exception escaping it (e.g. raised by the adapter's `fetch_list`). -/
inductive SourceOutcome where
  | raised
  | collected (jobs : List Job)
deriving DecidableEq

/-- The observable outcome of one `run_crawlers` invocation: the harvested
postings, the final health dict, and which sources were actually run
(`_run_source` invoked). -/
structure RunOutput where
  results : List Job := []
  health : List (String × HealthEntry) := []
  called : List String := []
deriving DecidableEq, Repr

/-- The body of the `for source_name, opts in ordered_sources` loop of
`run_crawlers` (`jobbot.py` lines 154-184): a disabled source is skipped; a
source whose zero-yield counter reached the threshold is skipped without
calling `_run_source` and without touching its record; otherwise the source
runs, its postings extend the results, and its record is rewritten with the
counter reset to 0 on nonzero yield and incremented on zero yield or on an
exception (which is caught here and never propagates). -/
def runStep (healthEnabled : Bool) (zeroThreshold : Int) (oracle : String → SourceOutcome)
    (now : String) (acc : RunOutput) (src : String × SourceOpts) : RunOutput :=
  if ¬ src.2.enabled then acc
  else if healthEnabled ∧ zeroThreshold ≤ getConsecutiveZero acc.health src.1 then acc
  else
    match oracle src.1 with
    | .collected jobs =>
      { results := acc.results ++ jobs
        health :=
          if healthEnabled then
            alistSet acc.health src.1
              { consecutive_zero :=
                  if jobs.isEmpty then getConsecutiveZero acc.health src.1 + 1 else 0
                last_collected := jobs.length
                updated_at := now }
          else acc.health
        called := acc.called ++ [src.1] }
    | .raised =>
      { results := acc.results
        health :=
          if healthEnabled then
            alistSet acc.health src.1
              { consecutive_zero := getConsecutiveZero acc.health src.1 + 1
                last_collected := 0
                updated_at := now }
          else acc.health
        called := acc.called ++ [src.1] }

/-- Stable insertion before the first entry with a not-smaller tier. -/
def insertByTier (x : String × SourceOpts) :
    List (String × SourceOpts) → List (String × SourceOpts)
  | [] => [x]
  | y :: r => if x.2.tier ≤ y.2.tier then x :: y :: r else y :: insertByTier x r

/-- `sorted(…, key=lambda x: int(x[1].get("tier", 2)))`: a stable sort by
tier (stable sorts by the same key agree, so this is Python's `sorted`). -/
def sortByTier : List (String × SourceOpts) → List (String × SourceOpts)
  | [] => []
  | x :: r => insertByTier x (sortByTier r)

/-- `jobbot.run_crawlers`: load the health dict (empty when the breaker is
disabled), iterate the configured crawlers in ascending tier order under
the zero-yield guard, and collect results; `_run_source` is abstracted by
`oracle` and `datetime.now().isoformat(…)` by `now`. -/
def run_crawlers (healthEnabled : Bool) (zeroThreshold : Int)
    (crawlers : List (String × SourceOpts)) (health0 : List (String × HealthEntry))
    (oracle : String → SourceOutcome) (now : String) : RunOutput :=
  (sortByTier crawlers).foldl (runStep healthEnabled zeroThreshold oracle now)
    { results := [], health := if healthEnabled then health0 else [], called := [] }

/-- Consecutive `run_crawlers` invocations with the health dict persisted
from each run to the next (`_save_source_health` / `_load_source_health`). -/
def runSeq (healthEnabled : Bool) (zeroThreshold : Int)
    (crawlers : List (String × SourceOpts)) :
    List ((String → SourceOutcome) × String) → List (String × HealthEntry) → List RunOutput
  | [], _ => []
  | (oracle, now) :: rest, h =>
    let out := run_crawlers healthEnabled zeroThreshold crawlers h oracle now
    out :: runSeq healthEnabled zeroThreshold crawlers rest out.health

/-- A partial posting record produced by a source adapter: a string-keyed
dict, modelled by the canonical fields the pipeline reads, each optional. -/
structure RawRec where
  url : Option String := none
  title : Option String := none
  company : Option String := none
  location : Option String := none
  employment_type : Option String := none
  posted_at : Option String := none
  description : Option String := none
  source_job_id : Option String := none
  deadline : Option String := none
  is_open : Option Bool := none
  status_text : Option String := none
deriving DecidableEq, Repr

/-- Result of one `fetch_detail` worker for one candidate: an exception, a
falsy or non-dict value (coerced to the empty dict by
`detail = fut.result() or {}` / `if not isinstance(detail, dict)`), or a
dict of detail fields. -/
inductive DetailOutcome where
  | raised
  | nonRec
  | record (d : RawRec)
deriving DecidableEq

/-- `merged = dict(base); merged.update(detail)`: every field present in the
detail dict overwrites the base field, absent fields keep the base value. -/
def dictUpdate (base d : RawRec) : RawRec :=
  { url := d.url.orElse (fun _ => base.url)
    title := d.title.orElse (fun _ => base.title)
    company := d.company.orElse (fun _ => base.company)
    location := d.location.orElse (fun _ => base.location)
    employment_type := d.employment_type.orElse (fun _ => base.employment_type)
    posted_at := d.posted_at.orElse (fun _ => base.posted_at)
    description := d.description.orElse (fun _ => base.description)
    source_job_id := d.source_job_id.orElse (fun _ => base.source_job_id)
    deadline := d.deadline.orElse (fun _ => base.deadline)
    is_open := d.is_open.orElse (fun _ => base.is_open)
    status_text := d.status_text.orElse (fun _ => base.status_text) }

/-- What one candidate contributes to the detail-stage output
(`jobbot.py` lines 87-98): the unchanged list record when its worker
raised, the overlay of its detail dict otherwise. -/
def detailMerge (oracle : RawRec → DetailOutcome) (base : RawRec) : RawRec :=
  match oracle base with
  | .raised => base
  | .nonRec => dictUpdate base {}
  | .record d => dictUpdate base d

/-- `jobbot._fetch_details_parallel`: without a `fetch_detail` capability
the list items pass through; otherwise the first `max_items` candidates
(`selected = list_items[:max_items]`) are submitted to the pool and their
completions are appended in `as_completed` order, modelled by the
scheduler `sched`, which permutes the selected candidates (the worker
count affects only scheduling, never the set of results). -/
def _fetch_details_parallel (hasFetchDetail : Bool) (list_items : List RawRec)
    (max_items : Nat) (oracle : RawRec → DetailOutcome)
    (sched : List RawRec → List RawRec) : List RawRec :=
  if ¬ hasFetchDetail then list_items
  else (sched (list_items.take max_items)).map (detailMerge oracle)

/-- The persisted linkareer breaker record
(`data/source_health/linkareer_breaker.json`); a missing or corrupt file
loads as the empty dict: `day = none`, zero counters. -/
structure BreakerState where
  day : Option String := none
  consecutive_504 : Int := 0
  consecutive_dns : Int := 0
deriving DecidableEq, Repr

/-- `crawlers.linkareer._is_circuit_open` (thresholds
`BREAKER_504_THRESHOLD = 2`, `BREAKER_DNS_THRESHOLD = 2`): a state recorded
on a different day never opens the circuit. -/
def _is_circuit_open (today : String) (st : BreakerState) : Bool :=
  st.day == some today &&
    (decide (2 ≤ st.consecutive_504) || decide (2 ≤ st.consecutive_dns))

/-- `crawlers.linkareer._mark_504_failure`: counters of another day are
discarded, then the 504 counter is incremented. -/
def _mark_504_failure (today : String) (st : BreakerState) : BreakerState :=
  let st := if st.day ≠ some today then { day := some today } else st
  { st with consecutive_504 := st.consecutive_504 + 1 }

/-- `crawlers.linkareer._reset_504_failure`: write today's record with a
zero 504 counter, keeping the DNS counter only when it is today's. -/
def _reset_504_failure (today : String) (st : BreakerState) : BreakerState :=
  if st.day = some today ∧ st.consecutive_504 = 0 then st
  else
    { day := some today, consecutive_504 := 0,
      consecutive_dns := if st.day = some today then st.consecutive_dns else 0 }

/-- `crawlers.linkareer._mark_dns_failure`. -/
def _mark_dns_failure (today : String) (st : BreakerState) : BreakerState :=
  let st := if st.day ≠ some today then { day := some today } else st
  { st with consecutive_dns := st.consecutive_dns + 1 }

/-- `crawlers.linkareer._reset_dns_failure`. -/
def _reset_dns_failure (today : String) (st : BreakerState) : BreakerState :=
  if st.day = some today ∧ st.consecutive_dns = 0 then st
  else
    { day := some today, consecutive_dns := 0,
      consecutive_504 := if st.day = some today then st.consecutive_504 else 0 }

/-- Substring test (Python `sub in s`). -/
def hasSubAux (pat : List Char) : List Char → Bool
  | [] => pat.isEmpty
  | c :: r => pat.isPrefixOf (c :: r) || hasSubAux pat r

/-- Python `sub in s` on strings. -/
def containsStr (s sub : String) : Bool :=
  hasSubAux sub.data s.data

/-- `crawlers.common.CLOSED_KEYWORDS`. -/
def CLOSED_KEYWORDS : List String := ["마감", "종료", "closed", "expired"]

/-- `crawlers.common.OPEN_KEYWORDS`. -/
def OPEN_KEYWORDS : List String := ["모집중", "진행중", "채용중", "open", "active"]

/-- `crawlers.common.infer_employment_type`: keyword inference on the
normalized text, defaulting to `정규직`. -/
def infer_employment_type (text : String) : String :=
  let t := normalize_text text
  if containsStr t "인턴" || containsStr t "intern" then "인턴"
  else if containsStr t "계약" || containsStr t "contract" then "계약직"
  else if containsStr t "정규" || containsStr t "full-time" || containsStr t "full time" then "정규직"
  else "정규직"

/-- A calendar date (`datetime.date`). -/
structure PyDate where
  year : Nat
  month : Nat
  dayOfMonth : Nat
deriving DecidableEq, Repr

/-- Gregorian leap year. -/
def isLeap (y : Nat) : Bool :=
  (y % 4 == 0 && y % 100 != 0) || y % 400 == 0

/-- Days in a month. -/
def daysInMonth (y m : Nat) : Nat :=
  if m = 2 then (if isLeap y then 29 else 28)
  else if m = 4 ∨ m = 6 ∨ m = 9 ∨ m = 11 then 30
  else 31

/-- Validity of year/month/day as accepted by the `datetime` constructor. -/
def dateValid (y m d : Nat) : Bool :=
  decide (1 ≤ y) && decide (y ≤ 9999) && decide (1 ≤ m) && decide (m ≤ 12) &&
  decide (1 ≤ d) && decide (d ≤ daysInMonth y m)

/-- Zero-padded decimal rendering. -/
def padNum (width n : Nat) : List Char :=
  let s := Nat.toDigits 10 n
  List.replicate (width - s.length) '0' ++ s

/-- `strftime("%Y-%m-%d")`. -/
def formatDate (d : PyDate) : String :=
  ⟨padNum 4 d.year ++ '-' :: (padNum 2 d.month ++ '-' :: padNum 2 d.dayOfMonth)⟩

/-- Date comparison. -/
def dateLe (a b : PyDate) : Bool :=
  if a.year ≠ b.year then a.year ≤ b.year
  else if a.month ≠ b.month then a.month ≤ b.month
  else a.dayOfMonth ≤ b.dayOfMonth

/-- `core.schema.today_str` with the current date passed explicitly. -/
def today_str (todayD : PyDate) : String :=
  formatDate todayD

/-- Date-pattern separator class `[-./]`. -/
def isSepDot (c : Char) : Bool :=
  c == '.' || c == '/' || c == '-'

/-- Decimal value of an ASCII digit. -/
def digitVal (c : Char) : Nat :=
  c.toNat - 48

/-- The final `(\d{1,2})` of the date patterns: greedy, nothing follows. -/
def matchLastDD : List Char → Option Nat
  | a :: b :: _ =>
    if isAsciiDigit a then
      if isAsciiDigit b then some (10 * digitVal a + digitVal b) else some (digitVal a)
    else none
  | [a] => if isAsciiDigit a then some (digitVal a) else none
  | [] => none

/-- `(\d{1,2})[-./](\d{1,2})`: greedy two-digit month first; the regex
backtrack to a one-digit month succeeds only when the second character is
itself a separator. -/
def matchMD : List Char → Option (Nat × Nat)
  | a :: b :: rest =>
    if isAsciiDigit a then
      if isAsciiDigit b then
        match rest with
        | s :: rest2 =>
          if isSepDot s then (matchLastDD rest2).map (fun d => (10 * digitVal a + digitVal b, d))
          else none
        | [] => none
      else if isSepDot b then (matchLastDD rest).map (fun d => (digitVal a, d))
      else none
    else none
  | _ => none

/-- `[-./](\d{1,2})[-./](\d{1,2})` after the year group. -/
def matchSepMD : List Char → Option (Nat × Nat)
  | s :: rest => if isSepDot s then matchMD rest else none
  | [] => none

/-- The first date pattern `(20\d{2})[-./](\d{1,2})[-./](\d{1,2})` anchored
at the head. -/
def matchP1At : List Char → Option (Nat × Nat × Nat)
  | '2' :: '0' :: a :: b :: rest =>
    if isAsciiDigit a ∧ isAsciiDigit b then
      (matchSepMD rest).map (fun md => (2000 + 10 * digitVal a + digitVal b, md.1, md.2))
    else none
  | _ => none

/-- The second date pattern `(\d{2})[-./](\d{1,2})[-./](\d{1,2})` anchored
at the head. -/
def matchP2At : List Char → Option (Nat × Nat × Nat)
  | a :: b :: rest =>
    if isAsciiDigit a ∧ isAsciiDigit b then
      (matchSepMD rest).map (fun md => (10 * digitVal a + digitVal b, md.1, md.2))
    else none
  | _ => none

/-- `re.search`: try the anchored matcher at every position, leftmost match
wins. -/
def searchAt (f : List Char → Option (Nat × Nat × Nat)) : List Char → Option (Nat × Nat × Nat)
  | [] => none
  | c :: r => (f (c :: r)).orElse (fun _ => searchAt f r)

/-- `crawlers.common.parse_deadline`: search the two date patterns in order;
a match that is not a valid calendar date falls through to the next pattern
(a two-digit year gets 2000 added). -/
def parse_deadline (text : String) : String :=
  let first :=
    match searchAt matchP1At text.data with
    | some ymd => if dateValid ymd.1 ymd.2.1 ymd.2.2 then some (formatDate ⟨ymd.1, ymd.2.1, ymd.2.2⟩) else none
    | none => none
  match first with
  | some s => s
  | none =>
    match searchAt matchP2At text.data with
    | some ymd =>
      let y := if ymd.1 < 100 then ymd.1 + 2000 else ymd.1
      if dateValid y ymd.2.1 ymd.2.2 then formatDate ⟨y, ymd.2.1, ymd.2.2⟩ else ""
    | none => ""

/-- Strict `strptime(deadline, "%Y-%m-%d")` returning the date, `none` when
the parse or the calendar validation fails. -/
def parseYMD (l : List Char) : Option PyDate :=
  let toNum := fun (ds : List Char) => ds.foldl (fun a c => 10 * a + digitVal c) 0
  let yds := l.takeWhile isAsciiDigit
  if yds.isEmpty || 4 < yds.length then none else
  match l.dropWhile isAsciiDigit with
  | '-' :: r1 =>
    let mds := r1.takeWhile isAsciiDigit
    if mds.isEmpty || 2 < mds.length then none else
    match r1.dropWhile isAsciiDigit with
    | '-' :: r2 =>
      let dds := r2.takeWhile isAsciiDigit
      if dds.isEmpty || 2 < dds.length || !(r2.dropWhile isAsciiDigit).isEmpty then none
      else if dateValid (toNum yds) (toNum mds) (toNum dds) then
        some ⟨toNum yds, toNum mds, toNum dds⟩
      else none
    | _ => none
  | _ => none

/-- `crawlers.common.infer_open_status`: closed keywords beat open keywords;
otherwise a parseable deadline is compared against today (an unparseable
one counts as open). -/
def infer_open_status (status_text deadline : String) (todayD : PyDate) : Bool :=
  let t := normalize_text status_text
  if CLOSED_KEYWORDS.any (fun k => containsStr t k) then false
  else if OPEN_KEYWORDS.any (fun k => containsStr t k) then true
  else if deadline ≠ "" then
    match parseYMD deadline.data with
    | some dl => dateLe todayD dl
    | none => true
  else true

/-- Python `str.strip()` on a `String`. -/
def pyStripS (s : String) : String :=
  ⟨pyStrip s.data⟩

/-- Python `a or b` for strings: `b` when `a` is empty. -/
def orElseStr (s d : String) : String :=
  if s = "" then d else s

/-- `crawlers.common.normalize_job`: build the canonical `Job` from a raw
record, canonicalizing the URL, collapsing whitespace in title and
description, defaulting company to "Unknown", location to `미상`,
employment type to the inferred one, and `posted_at` to today's date
(`datetime.now()` is passed explicitly as `todayD`). -/
def normalize_job (raw : RawRec) (source : String) (todayD : PyDate) : Job :=
  let getS := fun (f : Option String) => f.getD ""
  let text_blob := String.intercalate " "
    [getS raw.title, getS raw.description, getS raw.employment_type,
     getS raw.status_text, getS raw.deadline]
  let deadline := orElseStr (pyStripS (getS raw.deadline)) (parse_deadline text_blob)
  let status_text := pyStripS (getS raw.status_text)
  { source := source
    url := canonical_url (pyStripS (getS raw.url))
    title := ⟨collapseWs (pyStrip (getS raw.title).data)⟩
    company := orElseStr (pyStripS (getS raw.company)) "Unknown"
    location := orElseStr (pyStripS (getS raw.location)) "미상"
    employment_type := orElseStr (pyStripS (getS raw.employment_type)) (infer_employment_type text_blob)
    posted_at := orElseStr (pyStripS (getS raw.posted_at)) (formatDate todayD)
    description := ⟨collapseWs (pyStrip (getS raw.description).data)⟩
    source_job_id := pyStripS (getS raw.source_job_id)
    deadline := deadline
    is_open := raw.is_open.getD (infer_open_status status_text deadline todayD)
    status_text := status_text }

/-! ### Concrete fixtures used by witnesses and counterexamples -/

/-- Five list-stage candidate records for the detail fan-out scenario. -/
def fanoutItems : List RawRec :=
  [{ url := some "https://s.com/1", title := some "t1" },
   { url := some "https://s.com/2", title := some "t2" },
   { url := some "https://s.com/3", title := some "t3" },
   { url := some "https://s.com/4", title := some "t4" },
   { url := some "https://s.com/5", title := some "t5" }]

/-- A detail oracle whose worker raises for the third candidate and returns
a detail record for the others. -/
def fanoutOracle (r : RawRec) : DetailOutcome :=
  if r.title = some "t3" then .raised
  else .record { description := some "detail text", status_text := some "모집중" }

/-- A posting yielded by the healthy demo source. -/
def demoJob : Job :=
  { url := "https://good.com/1", title := "Good Job" }

/-- Two configured sources: a tier-1 source whose adapter always raises and
a healthy tier-2 source. -/
def demoCrawlers : List (String × SourceOpts) :=
  [("bad", { enabled := true, tier := 1 }), ("good", { enabled := true, tier := 2 })]

/-- The per-run behaviour of the demo sources. -/
def demoOracle (name : String) : SourceOutcome :=
  if name = "bad" then .raised else .collected [demoJob]

/-- A run outcome counting as a zero-yield run for a source: its
`_run_source` raised, or returned no postings. -/
def zeroYieldAt (oracle : String → SourceOutcome) (X : String) : Prop :=
  oracle X = .raised ∨ oracle X = .collected []

/-- A single enabled source, for the circuit-breaker scenario. -/
def cbCrawlers : List (String × SourceOpts) :=
  [("x", { enabled := true })]

/-- A run in which every source yields nothing. -/
def czOracle : String → SourceOutcome := fun _ => .collected []

/-- A run in which every source yields one posting. -/
def cgOracle : String → SourceOutcome := fun _ => .collected [demoJob]

/-- A persisted health dict recorded on an earlier calendar day, with two
consecutive zero-yield runs on record. -/
def staleHealth : List (String × HealthEntry) :=
  [("x", { consecutive_zero := 2, last_collected := 0,
           updated_at := "2025-09-30T12:00:00" })]

/-- A linkareer breaker state recorded on 2025-10-01 with both per-class
counters at their threshold. -/
def staleBreaker : BreakerState :=
  { day := some "20251001", consecutive_504 := 2, consecutive_dns := 2 }

/-- The contribution of an accepted posting `b` to the rejection of a later
incoming posting `a`: some ladder check fires against exactly the keys that
accepting `b` added to the state (URL key only when `b`'s canonical URL is
nonempty; similarity checks only when enabled). -/
def dupB (cfg : DedupCfg) (a b : Job) : Bool :=
  (_canonical_url a.url != "" && (_canonical_url b.url != "" &&
    _canonical_url a.url == _canonical_url b.url)) ||
  (title_company_hash (normalize_text a.title) (normalize_company a.company)
    == title_company_hash (normalize_text b.title) (normalize_company b.company)) ||
  (desc_fingerprint (normalize_text a.description)
    == desc_fingerprint (normalize_text b.description)) ||
  ((normalize_text a.title ++ "|" ++ normalize_company a.company ++ "|" ++
      (⟨(normalize_text a.location).data.take 20⟩ : String))
    == (normalize_text b.title ++ "|" ++ normalize_company b.company ++ "|" ++
      (⟨(normalize_text b.location).data.take 20⟩ : String))) ||
  (cfg.title_similarity_enabled &&
    _is_similar (normalize_text a.title) (normalize_text (acceptedForm b).title)
      cfg.title_similarity_threshold) ||
  (cfg.cross_site_similarity_enabled &&
    decide (cfg.cross_site_similarity_threshold ≤
      _jaccard (curTokens (normalize_text a.title) (normalize_company a.company)
          (normalize_text a.location) (normalize_text a.description))
        (acceptedTokens (acceptedForm b))))

/-- A dedup configuration with both similarity stages disabled. -/
def cfgNoSim : DedupCfg :=
  { title_similarity_enabled := false, cross_site_similarity_enabled := false }

/-- First permutation-scenario posting. -/
def permJob1 : Job :=
  { url := "https://a.com/x", title := "alpha", company := "c1",
    location := "l1", description := "d1" }

/-- Second permutation-scenario posting: same URL as the first, same
title+company as the third. -/
def permJob2 : Job :=
  { url := "https://a.com/x", title := "beta", company := "c2",
    location := "l2", description := "d2" }

/-- Third permutation-scenario posting. -/
def permJob3 : Job :=
  { url := "https://b.com/y", title := "beta", company := "c2",
    location := "l3", description := "d3" }

/-- A posting sharing no dedup key with `freeJob2`. -/
def freeJob1 : Job :=
  { url := "https://f1.com/a", title := "tt1", company := "cc1",
    location := "ll1", description := "dd1" }

/-- A posting sharing no dedup key with `freeJob1`. -/
def freeJob2 : Job :=
  { url := "https://f2.com/b", title := "tt2", company := "cc2",
    location := "ll2", description := "dd2" }

/-- A dedup state that has already accepted a posting with URL
`https://a.com/x`. -/
def dupUrlState : DedupSt :=
  { seen_urls := ["https://a.com/x"] }

/-- An incoming posting with the same canonical URL. -/
def dupUrlJob : Job :=
  { url := "https://a.com/x", title := "t" }

/-- The ten string-valued field projections of a raw record, used to state
the overlay law of `dictUpdate` uniformly. -/
def recStrFields : List (RawRec → Option String) :=
  [RawRec.url, RawRec.title, RawRec.company, RawRec.location,
   RawRec.employment_type, RawRec.posted_at, RawRec.description,
   RawRec.source_job_id, RawRec.deadline, RawRec.status_text]

/-- Unreserved URL characters used to state the C6 family of URLs: ASCII
lowercase letters, digits, `.`, `-` and `_`. -/
def plainCh (c : Char) : Bool :=
  (97 ≤ c.toNat && c.toNat ≤ 122) || (48 ≤ c.toNat && c.toNat ≤ 57) ||
  c.toNat == 46 || c.toNat == 45 || c.toNat == 95

/-- `https://H/P` — the family of base URLs quantified over in C6. -/
def mkBase (H P : List Char) : List Char :=
  'h' :: 't' :: 't' :: 'p' :: 's' :: ':' :: '/' :: '/' :: (H ++ '/' :: P)

/-- First C6 scenario posting (`utm_source` query parameter). -/
def utmJob : Job :=
  { url := "https://x.com/job/1?utm_source=a", title := "t1", company := "c1",
    location := "l1", description := "d1" }

/-- Second C6 scenario posting (same job URL with a trailing slash). -/
def slashJob : Job :=
  { url := "https://x.com/job/1/", title := "t2", company := "c2",
    location := "l2", description := "d2" }

/-! ### General lemmas -/

/-- A string built from a nonempty character list is nonempty. -/
theorem stringMk_ne_empty {l : List Char} (h : l ≠ []) : (⟨l⟩ : String) ≠ "" := by
  intro hc
  exact h (congrArg String.data hc)

/-- `orElseStr` never returns the empty string when its default is nonempty. -/
theorem orElseStr_ne_empty (s d : String) (h : d ≠ "") : orElseStr s d ≠ "" := by
  unfold orElseStr
  split
  · exact h
  · assumption

/-- When the first argument is empty, `orElseStr` yields the default. -/
theorem orElseStr_empty (s d : String) (h : s = "") : orElseStr s d = d := by
  simp [orElseStr, h]

/-- Setting a key makes it readable. -/
theorem alistGet_set_self {α : Type} (m : List (String × α)) (k : String) (v : α) :
    alistGet (alistSet m k v) k = some v := by
  induction m with
  | nil => simp [alistGet, alistSet, List.find?]
  | cons e r ih =>
    by_cases hek : (e.1 == k) = true
    · simp [alistGet, alistSet, List.find?, hek]
    · simp only [alistSet, if_neg hek]
      simpa [alistGet, List.find?, hek] using ih

/-- Setting one key leaves every other key unchanged. -/
theorem alistGet_set_ne {α : Type} (m : List (String × α)) (k n : String) (v : α)
    (h : n ≠ k) : alistGet (alistSet m k v) n = alistGet m n := by
  have hkn : ¬(k == n) = true := by simpa using Ne.symm h
  induction m with
  | nil => simp [alistGet, alistSet, List.find?, hkn]
  | cons e r ih =>
    by_cases hek : (e.1 == k) = true
    · have hen : ¬(e.1 == n) = true := by
        simp only [beq_iff_eq] at hek ⊢
        exact hek ▸ fun hc => h hc.symm
      simp [alistGet, alistSet, List.find?, hek, hen, hkn]
    · by_cases hen : (e.1 == n) = true
      · simp [alistGet, alistSet, List.find?, hek, hen]
      · simp only [alistSet, if_neg hek]
        simpa [alistGet, List.find?, hen] using ih

/-- Membership in the result of a tier insertion. -/
theorem mem_insertByTier (x z : String × SourceOpts) (l : List (String × SourceOpts)) :
    z ∈ insertByTier x l ↔ z = x ∨ z ∈ l := by
  induction l with
  | nil => simp [insertByTier]
  | cons y r ih =>
    by_cases hxy : x.2.tier ≤ y.2.tier
    · simp only [insertByTier, if_pos hxy, List.mem_cons]
    · simp only [insertByTier, if_neg hxy, List.mem_cons, ih]
      tauto

/-- Tier insertion preserves sortedness by tier. -/
theorem insertByTier_pairwise (x : String × SourceOpts) (l : List (String × SourceOpts))
    (hl : l.Pairwise (fun a b => a.2.tier ≤ b.2.tier)) :
    (insertByTier x l).Pairwise (fun a b => a.2.tier ≤ b.2.tier) := by
  induction l with
  | nil => simp [insertByTier]
  | cons y r ih =>
    rcases List.pairwise_cons.mp hl with ⟨hy, hr⟩
    by_cases hxy : x.2.tier ≤ y.2.tier
    · simp only [insertByTier, if_pos hxy]
      refine List.pairwise_cons.mpr ⟨?_, hl⟩
      intro z hz
      rcases List.mem_cons.mp hz with h | h
      · exact h ▸ hxy
      · exact le_trans hxy (hy z h)
    · simp only [insertByTier, if_neg hxy]
      refine List.pairwise_cons.mpr ⟨?_, ih hr⟩
      intro z hz
      rcases (mem_insertByTier x z r).mp hz with h | h
      · subst h; omega
      · exact hy z h

/-- The tier sort produces a list sorted by tier. -/
theorem sortByTier_pairwise (l : List (String × SourceOpts)) :
    (sortByTier l).Pairwise (fun a b => a.2.tier ≤ b.2.tier) := by
  induction l with
  | nil => simp [sortByTier]
  | cons x r ih => exact insertByTier_pairwise x _ ih

/-- Inserting below every element is a plain cons. -/
theorem insertByTier_of_le (x : String × SourceOpts) (m : List (String × SourceOpts))
    (h : ∀ z ∈ m, x.2.tier ≤ z.2.tier) : insertByTier x m = x :: m := by
  cases m with
  | nil => rfl
  | cons y r => simp [insertByTier, if_pos (h y (by simp))]

/-- Filtering commutes with insertion into a sorted list. -/
theorem filter_insertByTier (p : String × SourceOpts → Bool) (x : String × SourceOpts)
    (l : List (String × SourceOpts))
    (hl : l.Pairwise (fun a b => a.2.tier ≤ b.2.tier)) :
    (insertByTier x l).filter p =
      if p x then insertByTier x (l.filter p) else l.filter p := by
  induction l with
  | nil =>
    by_cases hpx : p x <;> simp [insertByTier, List.filter_cons, hpx]
  | cons y r ih =>
    rcases List.pairwise_cons.mp hl with ⟨hy, hr⟩
    by_cases hxy : x.2.tier ≤ y.2.tier
    · simp only [insertByTier, if_pos hxy]
      by_cases hpx : p x
      · rw [List.filter_cons_of_pos hpx, if_pos hpx, insertByTier_of_le]
        intro z hz
        rcases List.mem_cons.mp (List.mem_of_mem_filter hz) with h | h
        · exact h ▸ hxy
        · exact le_trans hxy (hy z h)
      · rw [List.filter_cons_of_neg hpx, if_neg hpx]
    · simp only [insertByTier, if_neg hxy]
      by_cases hpy : p y
      · rw [List.filter_cons_of_pos hpy, List.filter_cons_of_pos hpy, ih hr]
        by_cases hpx : p x
        · simp only [hpx, if_true, insertByTier, if_neg hxy]
        · simp [hpx]
      · rw [List.filter_cons_of_neg hpy, List.filter_cons_of_neg hpy]
        exact ih hr

/-- Filtering commutes with the stable tier sort. -/
theorem sortByTier_filter (p : String × SourceOpts → Bool)
    (l : List (String × SourceOpts)) :
    sortByTier (l.filter p) = (sortByTier l).filter p := by
  induction l with
  | nil => rfl
  | cons x r ih =>
    simp only [List.filter_cons, sortByTier]
    rw [filter_insertByTier p x (sortByTier r) (sortByTier_pairwise r)]
    by_cases hpx : p x
    · simp [sortByTier, hpx, ih]
    · simp [hpx, ih]

/-- `formatDate` always produces a nonempty string. -/
theorem formatDate_ne_empty (d : PyDate) : formatDate d ≠ "" := by
  apply stringMk_ne_empty
  simp [padNum]

/-- The employment-type inference returns one of the three nonempty labels,
so never the empty string. -/
theorem infer_employment_type_ne_empty (text : String) : infer_employment_type text ≠ "" := by
  unfold infer_employment_type
  simp only []
  split
  · decide
  · split
    · decide
    · split
      · decide
      · decide

/-! ### C10: normalize_job field defaults -/

/-- C10: for every raw record, `normalize_job` produces a `Job` whose
`company`, `location`, `employment_type` and `posted_at` are nonempty;
a blank or absent company defaults to "Unknown", a blank or absent location
to `미상`, a blank or absent employment type to the one inferred from the
record's joined text fields, and a blank or absent `posted_at` to today's
date. -/
theorem normalize_job_field_defaults (raw : RawRec) (source : String) (todayD : PyDate) :
    (normalize_job raw source todayD).company ≠ "" ∧
    (normalize_job raw source todayD).location ≠ "" ∧
    (normalize_job raw source todayD).employment_type ≠ "" ∧
    (normalize_job raw source todayD).posted_at ≠ "" ∧
    (pyStripS (raw.company.getD "") = "" → (normalize_job raw source todayD).company = "Unknown") ∧
    (pyStripS (raw.location.getD "") = "" → (normalize_job raw source todayD).location = "미상") ∧
    (pyStripS (raw.employment_type.getD "") = "" →
      (normalize_job raw source todayD).employment_type =
        infer_employment_type (String.intercalate " "
          [raw.title.getD "", raw.description.getD "", raw.employment_type.getD "",
           raw.status_text.getD "", raw.deadline.getD ""])) ∧
    (pyStripS (raw.posted_at.getD "") = "" →
      (normalize_job raw source todayD).posted_at = formatDate todayD) := by
  refine ⟨?_, ?_, ?_, ?_, ?_, ?_, ?_, ?_⟩
  · exact orElseStr_ne_empty _ _ (by decide)
  · exact orElseStr_ne_empty _ _ (by decide)
  · exact orElseStr_ne_empty _ _ (infer_employment_type_ne_empty _)
  · exact orElseStr_ne_empty _ _ (formatDate_ne_empty _)
  · intro h; exact orElseStr_empty _ _ h
  · intro h; exact orElseStr_empty _ _ h
  · intro h; exact orElseStr_empty _ _ h
  · intro h; exact orElseStr_empty _ _ h

/-- C10 witness: the empty raw record on 2025-10-12 yields the documented
defaults. -/
theorem normalize_job_field_defaults_witness :
    (normalize_job {} "stub" ⟨2025, 10, 12⟩).company = "Unknown" ∧
    (normalize_job {} "stub" ⟨2025, 10, 12⟩).location = "미상" ∧
    (normalize_job {} "stub" ⟨2025, 10, 12⟩).employment_type = "정규직" ∧
    (normalize_job {} "stub" ⟨2025, 10, 12⟩).posted_at = "2025-10-12" := by
  have h := normalize_job_field_defaults {} "stub" ⟨2025, 10, 12⟩
  refine ⟨h.2.2.2.2.1 (by decide), h.2.2.2.2.2.1 (by decide), ?_, ?_⟩
  · exact (h.2.2.2.2.2.2.1 (by decide)).trans (by decide)
  · exact (h.2.2.2.2.2.2.2 (by decide)).trans (by decide)

/-- A disabled source is a no-op for the loop step. -/
theorem runStep_disabled (he : Bool) (zt : Int) (oracle : String → SourceOutcome)
    (now : String) (acc : RunOutput) (s : String × SourceOpts)
    (h : ¬ s.2.enabled = true) :
    runStep he zt oracle now acc s = acc := by
  simp [runStep, h]

/-- A source at or over the zero-yield threshold is skipped unchanged. -/
theorem runStep_skipped (he : Bool) (zt : Int) (oracle : String → SourceOutcome)
    (now : String) (acc : RunOutput) (s : String × SourceOpts)
    (hen : s.2.enabled = true)
    (hskip : he = true ∧ zt ≤ getConsecutiveZero acc.health s.1) :
    runStep he zt oracle now acc s = acc := by
  simp [runStep, hen, hskip]

/-- The loop step on an attempted source whose `_run_source` returned. -/
theorem runStep_run_collected (he : Bool) (zt : Int) (oracle : String → SourceOutcome)
    (now : String) (acc : RunOutput) (s : String × SourceOpts) (jobs : List Job)
    (hen : s.2.enabled = true)
    (hskip : ¬(he = true ∧ zt ≤ getConsecutiveZero acc.health s.1))
    (horc : oracle s.1 = .collected jobs) :
    runStep he zt oracle now acc s =
      { results := acc.results ++ jobs
        health :=
          if he then
            alistSet acc.health s.1
              { consecutive_zero :=
                  if jobs.isEmpty then getConsecutiveZero acc.health s.1 + 1 else 0
                last_collected := jobs.length
                updated_at := now }
          else acc.health
        called := acc.called ++ [s.1] } := by
  simp [runStep, hen, hskip, horc]

/-- The loop step on an attempted source whose `_run_source` raised. -/
theorem runStep_run_raised (he : Bool) (zt : Int) (oracle : String → SourceOutcome)
    (now : String) (acc : RunOutput) (s : String × SourceOpts)
    (hen : s.2.enabled = true)
    (hskip : ¬(he = true ∧ zt ≤ getConsecutiveZero acc.health s.1))
    (horc : oracle s.1 = .raised) :
    runStep he zt oracle now acc s =
      { results := acc.results
        health :=
          if he then
            alistSet acc.health s.1
              { consecutive_zero := getConsecutiveZero acc.health s.1 + 1
                last_collected := 0
                updated_at := now }
          else acc.health
        called := acc.called ++ [s.1] } := by
  simp [runStep, hen, hskip, horc]

/-- A loop step on a source whose `_run_source` raises keeps the results
and touches the health dict only at that source's key. -/
theorem runStep_raised (he : Bool) (zt : Int) (oracle : String → SourceOutcome)
    (now : String) (acc : RunOutput) (s : String × SourceOpts)
    (h : oracle s.1 = .raised) :
    (runStep he zt oracle now acc s).results = acc.results ∧
    (∀ name, name ≠ s.1 →
      alistGet (runStep he zt oracle now acc s).health name = alistGet acc.health name) := by
  by_cases hen : s.2.enabled = true
  · by_cases hskip : he = true ∧ zt ≤ getConsecutiveZero acc.health s.1
    · rw [runStep_skipped he zt oracle now acc s hen hskip]
      exact ⟨rfl, fun _ _ => rfl⟩
    · rw [runStep_run_raised he zt oracle now acc s hen hskip h]
      refine ⟨rfl, fun name hn => ?_⟩
      by_cases hhe : he
      · simp only [if_pos hhe]
        exact alistGet_set_ne _ _ _ _ hn
      · simp only [if_neg hhe]
  · rw [runStep_disabled he zt oracle now acc s hen]
    exact ⟨rfl, fun _ _ => rfl⟩

/-- A loop step on a source other than `X` behaves the same from two
accumulators that carry the same results and agree on every health key
other than `X`. -/
theorem runStep_congr (he : Bool) (zt : Int) (oracle : String → SourceOutcome)
    (now : String) (s : String × SourceOpts) (acc1 acc2 : RunOutput) (X : String)
    (hsX : s.1 ≠ X)
    (hres : acc1.results = acc2.results)
    (hh : ∀ name, name ≠ X → alistGet acc1.health name = alistGet acc2.health name) :
    (runStep he zt oracle now acc1 s).results = (runStep he zt oracle now acc2 s).results ∧
    (∀ name, name ≠ X →
      alistGet (runStep he zt oracle now acc1 s).health name
        = alistGet (runStep he zt oracle now acc2 s).health name) := by
  have hcz : getConsecutiveZero acc1.health s.1 = getConsecutiveZero acc2.health s.1 := by
    unfold getConsecutiveZero
    rw [hh s.1 hsX]
  by_cases hen : s.2.enabled = true
  · by_cases hskip : he = true ∧ zt ≤ getConsecutiveZero acc1.health s.1
    · have hskip2 : he = true ∧ zt ≤ getConsecutiveZero acc2.health s.1 := by
        rw [← hcz]; exact hskip
      rw [runStep_skipped he zt oracle now acc1 s hen hskip,
        runStep_skipped he zt oracle now acc2 s hen hskip2]
      exact ⟨hres, hh⟩
    · have hskip2 : ¬(he = true ∧ zt ≤ getConsecutiveZero acc2.health s.1) := by
        rw [← hcz]; exact hskip
      cases horc : oracle s.1 with
      | collected jobs =>
        rw [runStep_run_collected he zt oracle now acc1 s jobs hen hskip horc,
          runStep_run_collected he zt oracle now acc2 s jobs hen hskip2 horc]
        refine ⟨by simp [hres], fun name hn => ?_⟩
        by_cases hhe : he
        · simp only [if_pos hhe, hcz]
          by_cases hns : name = s.1
          · subst hns
            rw [alistGet_set_self, alistGet_set_self]
          · rw [alistGet_set_ne _ _ _ _ hns, alistGet_set_ne _ _ _ _ hns]
            exact hh name hn
        · simp only [if_neg hhe]
          exact hh name hn
      | raised =>
        rw [runStep_run_raised he zt oracle now acc1 s hen hskip horc,
          runStep_run_raised he zt oracle now acc2 s hen hskip2 horc]
        refine ⟨hres, fun name hn => ?_⟩
        by_cases hhe : he
        · simp only [if_pos hhe, hcz]
          by_cases hns : name = s.1
          · subst hns
            rw [alistGet_set_self, alistGet_set_self]
          · rw [alistGet_set_ne _ _ _ _ hns, alistGet_set_ne _ _ _ _ hns]
            exact hh name hn
        · simp only [if_neg hhe]
          exact hh name hn
  · rw [runStep_disabled he zt oracle now acc1 s hen,
      runStep_disabled he zt oracle now acc2 s hen]
    exact ⟨hres, hh⟩

/-- Folding the loop over a source list, versus over the list with a source
`X` whose `_run_source` always raises removed, produces the same postings
(and health dicts agreeing away from `X`). -/
theorem loop_raised_agree (he : Bool) (zt : Int) (oracle : String → SourceOutcome)
    (now : String) (X : String) (hX : oracle X = .raised) :
    ∀ (L : List (String × SourceOpts)) (acc1 acc2 : RunOutput),
      acc1.results = acc2.results →
      (∀ name, name ≠ X → alistGet acc1.health name = alistGet acc2.health name) →
      (L.foldl (runStep he zt oracle now) acc1).results
        = ((L.filter (fun s => s.1 != X)).foldl (runStep he zt oracle now) acc2).results ∧
      (∀ name, name ≠ X →
        alistGet (L.foldl (runStep he zt oracle now) acc1).health name
          = alistGet ((L.filter (fun s => s.1 != X)).foldl (runStep he zt oracle now) acc2).health name) := by
  intro L
  induction L with
  | nil => intro acc1 acc2 hres hh; exact ⟨hres, hh⟩
  | cons s L ih =>
    intro acc1 acc2 hres hh
    by_cases hsX : s.1 = X
    · have hfil : (s.1 != X) = false := by simp [hsX]
      rw [List.foldl_cons, List.filter_cons, hfil]
      simp only [Bool.false_eq_true, if_false]
      have hstep := runStep_raised he zt oracle now acc1 s (by rw [hsX]; exact hX)
      exact ih (runStep he zt oracle now acc1 s) acc2 (hstep.1.trans hres)
        (fun name hn => by
          rw [hstep.2 name (by rw [hsX]; exact hn)]
          exact hh name hn)
    · have hfil : (s.1 != X) = true := by simp [hsX]
      rw [List.foldl_cons, List.filter_cons, hfil]
      simp only [if_true, List.foldl_cons]
      have hstep := runStep_congr he zt oracle now s acc1 acc2 X hsX hres hh
      exact ih _ _ hstep.1 hstep.2

/-- Tier insertion is a permutation of cons. -/
theorem insertByTier_perm (x : String × SourceOpts) (l : List (String × SourceOpts)) :
    (insertByTier x l).Perm (x :: l) := by
  induction l with
  | nil => exact List.Perm.refl _
  | cons y r ih =>
    by_cases hxy : x.2.tier ≤ y.2.tier
    · simp only [insertByTier, if_pos hxy]
      exact List.Perm.refl _
    · simp only [insertByTier, if_neg hxy]
      exact (ih.cons y).trans (List.Perm.swap x y r)

/-- The tier sort permutes its input. -/
theorem sortByTier_perm (l : List (String × SourceOpts)) : (sortByTier l).Perm l := by
  induction l with
  | nil => exact List.Perm.refl _
  | cons x r ih => exact (insertByTier_perm x (sortByTier r)).trans (ih.cons x)

/-- A loop step never touches the health record of another source. -/
theorem runStep_health_ne (he : Bool) (zt : Int) (oracle : String → SourceOutcome)
    (now : String) (acc : RunOutput) (s : String × SourceOpts) (name : String)
    (h : name ≠ s.1) :
    alistGet (runStep he zt oracle now acc s).health name = alistGet acc.health name := by
  by_cases hen : s.2.enabled = true
  · by_cases hskip : he = true ∧ zt ≤ getConsecutiveZero acc.health s.1
    · rw [runStep_skipped he zt oracle now acc s hen hskip]
    · cases horc : oracle s.1 with
      | collected jobs =>
        rw [runStep_run_collected he zt oracle now acc s jobs hen hskip horc]
        by_cases hhe : he
        · simp only [if_pos hhe]
          exact alistGet_set_ne _ _ _ _ h
        · simp only [if_neg hhe]
      | raised =>
        rw [runStep_run_raised he zt oracle now acc s hen hskip horc]
        by_cases hhe : he
        · simp only [if_pos hhe]
          exact alistGet_set_ne _ _ _ _ h
        · simp only [if_neg hhe]
  · rw [runStep_disabled he zt oracle now acc s hen]

/-- A loop step extends the called list by at most its own source name. -/
theorem runStep_called (he : Bool) (zt : Int) (oracle : String → SourceOutcome)
    (now : String) (acc : RunOutput) (s : String × SourceOpts) :
    (runStep he zt oracle now acc s).called = acc.called ∨
    (runStep he zt oracle now acc s).called = acc.called ++ [s.1] := by
  by_cases hen : s.2.enabled = true
  · by_cases hskip : he = true ∧ zt ≤ getConsecutiveZero acc.health s.1
    · rw [runStep_skipped he zt oracle now acc s hen hskip]
      exact Or.inl rfl
    · cases horc : oracle s.1 with
      | collected jobs =>
        rw [runStep_run_collected he zt oracle now acc s jobs hen hskip horc]
        exact Or.inr rfl
      | raised =>
        rw [runStep_run_raised he zt oracle now acc s hen hskip horc]
        exact Or.inr rfl
  · rw [runStep_disabled he zt oracle now acc s hen]
    exact Or.inl rfl

/-- With the breaker enabled, a source whose counter reached the threshold
is a no-op for the loop step (in particular `_run_source` is not called). -/
theorem runStep_tripped (zt : Int) (oracle : String → SourceOutcome)
    (now : String) (acc : RunOutput) (s : String × SourceOpts)
    (h : zt ≤ getConsecutiveZero acc.health s.1) :
    runStep true zt oracle now acc s = acc := by
  by_cases hen : s.2.enabled = true
  · exact runStep_skipped true zt oracle now acc s hen ⟨rfl, h⟩
  · exact runStep_disabled true zt oracle now acc s hen

/-- Once a source's counter is at or over the threshold and it has not been
called, the whole loop never calls it and never changes its record. -/
theorem loop_tripped (zt : Int) (oracle : String → SourceOutcome) (now : String)
    (X : String) :
    ∀ (L : List (String × SourceOpts)) (acc : RunOutput),
      zt ≤ getConsecutiveZero acc.health X → X ∉ acc.called →
      alistGet (L.foldl (runStep true zt oracle now) acc).health X = alistGet acc.health X ∧
      X ∉ (L.foldl (runStep true zt oracle now) acc).called := by
  intro L
  induction L with
  | nil => intro acc h hc; exact ⟨rfl, hc⟩
  | cons s L ih =>
    intro acc h hc
    by_cases hsX : s.1 = X
    · rw [List.foldl_cons, runStep_tripped zt oracle now acc s (hsX ▸ h)]
      exact ih acc h hc
    · rw [List.foldl_cons]
      have hhealth := runStep_health_ne true zt oracle now acc s X (fun hx => hsX hx.symm)
      have hcz : zt ≤ getConsecutiveZero (runStep true zt oracle now acc s).health X := by
        unfold getConsecutiveZero
        rw [hhealth]
        exact h
      have hcalled : X ∉ (runStep true zt oracle now acc s).called := by
        rcases runStep_called true zt oracle now acc s with hcl | hcl
        · rw [hcl]; exact hc
        · rw [hcl]
          intro hx
          rcases List.mem_append.mp hx with hx | hx
          · exact hc hx
          · exact hsX (List.mem_singleton.mp hx).symm
      have := ih (runStep true zt oracle now acc s) hcz hcalled
      exact ⟨this.1.trans hhealth, this.2⟩

/-- A fold over sources all named differently from `X` leaves `X`'s health
record unchanged and does not add `X` to the called list. -/
theorem loop_other (he : Bool) (zt : Int) (oracle : String → SourceOutcome)
    (now : String) (X : String) :
    ∀ (L : List (String × SourceOpts)) (acc : RunOutput),
      (∀ s ∈ L, s.1 ≠ X) →
      alistGet (L.foldl (runStep he zt oracle now) acc).health X = alistGet acc.health X ∧
      (X ∈ (L.foldl (runStep he zt oracle now) acc).called ↔ X ∈ acc.called) := by
  intro L
  induction L with
  | nil => intro acc _; exact ⟨rfl, Iff.rfl⟩
  | cons s L ih =>
    intro acc hL
    rw [List.foldl_cons]
    have hsX : s.1 ≠ X := hL s (by simp)
    have hhealth := runStep_health_ne he zt oracle now acc s X (fun hx => hsX hx.symm)
    have hcalled : X ∈ (runStep he zt oracle now acc s).called ↔ X ∈ acc.called := by
      rcases runStep_called he zt oracle now acc s with hcl | hcl
      · rw [hcl]
      · rw [hcl, List.mem_append]
        simp only [List.mem_singleton]
        constructor
        · rintro (hx | hx)
          · exact hx
          · exact absurd hx.symm hsX
        · exact Or.inl
    have := ih (runStep he zt oracle now acc s) (fun t ht => hL t (by simp [ht]))
    exact ⟨this.1.trans hhealth, this.2.trans hcalled⟩

/-- The called list only grows along the loop. -/
theorem loop_called_mono (he : Bool) (zt : Int) (oracle : String → SourceOutcome)
    (now : String) (X : String) :
    ∀ (L : List (String × SourceOpts)) (acc : RunOutput),
      X ∈ acc.called → X ∈ (L.foldl (runStep he zt oracle now) acc).called := by
  intro L
  induction L with
  | nil => intro acc h; exact h
  | cons s L ih =>
    intro acc h
    rw [List.foldl_cons]
    refine ih _ ?_
    rcases runStep_called he zt oracle now acc s with hcl | hcl
    · rw [hcl]; exact h
    · rw [hcl]; exact List.mem_append.mpr (Or.inl h)

/-- A list containing `(X, opts)` whose names count `X` exactly once splits
around that entry, with `X` absent on both sides. -/
theorem count_one_decompose {l : List (String × SourceOpts)} {X : String} {opts : SourceOpts}
    (hmem : (X, opts) ∈ l) (hcount : (l.map Prod.fst).count X = 1) :
    ∃ pre post, l = pre ++ (X, opts) :: post ∧
      X ∉ pre.map Prod.fst ∧ X ∉ post.map Prod.fst := by
  induction l with
  | nil => cases hmem
  | cons e r ih =>
    by_cases heX : e.1 = X
    · have hr : X ∉ r.map Prod.fst := by
        intro hx
        have h1 : 1 ≤ (r.map Prod.fst).count X := List.one_le_count_iff.mpr hx
        have : (List.map Prod.fst (e :: r)).count X = (r.map Prod.fst).count X + 1 := by
          simp [List.count_cons, heX]
        omega
      have hemem : e = (X, opts) := by
        rcases List.mem_cons.mp hmem with h | h
        · exact h.symm
        · exact absurd (List.mem_map.mpr ⟨(X, opts), h, rfl⟩) hr
      exact ⟨[], r, by rw [hemem, List.nil_append], by simp, hr⟩
    · have hmem2 : (X, opts) ∈ r := by
        rcases List.mem_cons.mp hmem with h | h
        · exact absurd (congrArg Prod.fst h.symm) heX
        · exact h
      have hcount2 : (r.map Prod.fst).count X = 1 := by
        have : (List.map Prod.fst (e :: r)).count X = (r.map Prod.fst).count X := by
          simp [List.count_cons, heX]
        omega
      rcases ih hmem2 hcount2 with ⟨pre, post, heq, hpre, hpost⟩
      refine ⟨e :: pre, post, by rw [heq, List.cons_append], ?_, hpost⟩
      simp only [List.map_cons, List.mem_cons]
      rintro (hx | hx)
      · exact heX hx.symm
      · exact hpre hx

/-- With the breaker enabled, a run never calls a source whose persisted
counter is at or over the threshold, and leaves its record untouched. -/
theorem run_crawlers_tripped (zt : Int) (crawlers : List (String × SourceOpts))
    (health0 : List (String × HealthEntry)) (oracle : String → SourceOutcome)
    (now : String) (X : String)
    (h : zt ≤ getConsecutiveZero health0 X) :
    X ∉ (run_crawlers true zt crawlers health0 oracle now).called ∧
    alistGet (run_crawlers true zt crawlers health0 oracle now).health X
      = alistGet health0 X := by
  unfold run_crawlers
  have := loop_tripped zt oracle now X (sortByTier crawlers)
    { results := [], health := health0, called := [] } h (by simp)
  exact ⟨this.2, this.1⟩

/-- An enabled source below the threshold is called, and its counter is
rewritten to 0 on nonzero yield and to its successor on zero yield or on an
exception. -/
theorem run_crawlers_transition (zt : Int) (crawlers : List (String × SourceOpts))
    (health0 : List (String × HealthEntry)) (oracle : String → SourceOutcome)
    (now : String) (X : String) (opts : SourceOpts)
    (hmem : (X, opts) ∈ crawlers) (hen : opts.enabled = true)
    (hcount : (crawlers.map Prod.fst).count X = 1)
    (hlt : getConsecutiveZero health0 X < zt) :
    X ∈ (run_crawlers true zt crawlers health0 oracle now).called ∧
    getConsecutiveZero (run_crawlers true zt crawlers health0 oracle now).health X
      = (match oracle X with
         | .raised => getConsecutiveZero health0 X + 1
         | .collected jobs =>
            if jobs.isEmpty then getConsecutiveZero health0 X + 1 else 0) := by
  have hperm := sortByTier_perm crawlers
  have hmem2 : (X, opts) ∈ sortByTier crawlers := hperm.mem_iff.mpr hmem
  have hcount2 : ((sortByTier crawlers).map Prod.fst).count X = 1 := by
    rw [(hperm.map Prod.fst).count_eq]
    exact hcount
  rcases count_one_decompose hmem2 hcount2 with ⟨pre, post, heq, hpre, hpost⟩
  have hpre2 : ∀ s ∈ pre, s.1 ≠ X := fun s hs hx => hpre (List.mem_map.mpr ⟨s, hs, hx⟩)
  have hpost2 : ∀ s ∈ post, s.1 ≠ X := fun s hs hx => hpost (List.mem_map.mpr ⟨s, hs, hx⟩)
  have hinit : run_crawlers true zt crawlers health0 oracle now
      = (sortByTier crawlers).foldl (runStep true zt oracle now)
          { results := [], health := health0, called := [] } := rfl
  rw [hinit, heq, List.foldl_append, List.foldl_cons]
  have h1 := loop_other true zt oracle now X pre
    { results := [], health := health0, called := [] } hpre2
  set acc1 := pre.foldl (runStep true zt oracle now)
    { results := [], health := health0, called := [] } with hacc1
  have hcz1 : getConsecutiveZero acc1.health X = getConsecutiveZero health0 X := by
    unfold getConsecutiveZero
    rw [h1.1]
  have hnskip : ¬(true = true ∧ zt ≤ getConsecutiveZero acc1.health (X, opts).1) := by
    rintro ⟨-, hle⟩
    rw [hcz1] at hle
    omega
  cases horc : oracle X with
  | collected jobs =>
    have h2 := loop_other true zt oracle now X post
      (runStep true zt oracle now acc1 (X, opts)) hpost2
    constructor
    · apply loop_called_mono
      rw [runStep_run_collected true zt oracle now acc1 (X, opts) jobs hen hnskip horc]
      simp
    · unfold getConsecutiveZero at hcz1 ⊢
      rw [h2.1, runStep_run_collected true zt oracle now acc1 (X, opts) jobs hen hnskip horc]
      simp [alistGet_set_self, hcz1]
      unfold getConsecutiveZero
      rw [hcz1]
  | raised =>
    have h2 := loop_other true zt oracle now X post
      (runStep true zt oracle now acc1 (X, opts)) hpost2
    constructor
    · apply loop_called_mono
      rw [runStep_run_raised true zt oracle now acc1 (X, opts) hen hnskip horc]
      simp
    · unfold getConsecutiveZero at hcz1 ⊢
      rw [h2.1, runStep_run_raised true zt oracle now acc1 (X, opts) hen hnskip horc]
      simp [alistGet_set_self, hcz1]
      unfold getConsecutiveZero
      rw [hcz1]

/-- A zero-yield run on an attempted source increments its counter. -/
theorem run_crawlers_zero_increments (zt : Int) (crawlers : List (String × SourceOpts))
    (health0 : List (String × HealthEntry)) (oracle : String → SourceOutcome)
    (now : String) (X : String) (opts : SourceOpts)
    (hmem : (X, opts) ∈ crawlers) (hen : opts.enabled = true)
    (hcount : (crawlers.map Prod.fst).count X = 1)
    (hlt : getConsecutiveZero health0 X < zt)
    (hz : zeroYieldAt oracle X) :
    X ∈ (run_crawlers true zt crawlers health0 oracle now).called ∧
    getConsecutiveZero (run_crawlers true zt crawlers health0 oracle now).health X
      = getConsecutiveZero health0 X + 1 := by
  have h := run_crawlers_transition zt crawlers health0 oracle now X opts hmem hen hcount hlt
  rcases hz with hz | hz <;> rw [hz] at h <;> simpa using h

/-- Once a source's persisted counter is at or over the threshold, every
subsequent run skips it without calling its `_run_source`. -/
theorem runSeq_tripped (zt : Int) (crawlers : List (String × SourceOpts)) (X : String) :
    ∀ (runs : List ((String → SourceOutcome) × String)) (h : List (String × HealthEntry)),
      zt ≤ getConsecutiveZero h X →
      ∀ out ∈ runSeq true zt crawlers runs h, X ∉ out.called := by
  intro runs
  induction runs with
  | nil => intro h hh out hout; cases hout
  | cons r rest ih =>
    intro h hh out hout
    rcases r with ⟨oracle, now⟩
    simp only [runSeq] at hout
    rcases List.mem_cons.mp hout with rfl | hmem
    · exact (run_crawlers_tripped zt crawlers h oracle now X hh).1
    · have hkeep : zt ≤
          getConsecutiveZero (run_crawlers true zt crawlers h oracle now).health X := by
        unfold getConsecutiveZero
        rw [(run_crawlers_tripped zt crawlers h oracle now X hh).2]
        exact hh
      exact ih _ hkeep out hmem

/-! ### C3: the zero-yield circuit breaker -/

/-- C3: with `zero_collect_threshold = 3` and the breaker enabled, an
enabled source `X` (configured once) starting at counter 0 that has three
consecutive zero-yield runs (returning nothing or raising) is attempted in
each of them with its counter stepping 1, 2, 3; after that, every
subsequent run skips `X` without calling its `_run_source`; and any run in
which the attempted source yields at least one posting resets its counter
to 0. -/
theorem zero_yield_circuit_breaker
    (crawlers : List (String × SourceOpts)) (X : String) (opts : SourceOpts)
    (hmem : (X, opts) ∈ crawlers) (hen : opts.enabled = true)
    (hcount : (crawlers.map Prod.fst).count X = 1)
    (health0 : List (String × HealthEntry)) (h0 : getConsecutiveZero health0 X = 0)
    (o1 o2 o3 : String → SourceOutcome) (n1 n2 n3 : String)
    (hz1 : zeroYieldAt o1 X) (hz2 : zeroYieldAt o2 X) (hz3 : zeroYieldAt o3 X)
    (rest : List ((String → SourceOutcome) × String)) :
    (X ∈ (run_crawlers true 3 crawlers health0 o1 n1).called ∧
     getConsecutiveZero (run_crawlers true 3 crawlers health0 o1 n1).health X = 1) ∧
    (X ∈ (run_crawlers true 3 crawlers
        (run_crawlers true 3 crawlers health0 o1 n1).health o2 n2).called ∧
     getConsecutiveZero (run_crawlers true 3 crawlers
        (run_crawlers true 3 crawlers health0 o1 n1).health o2 n2).health X = 2) ∧
    (X ∈ (run_crawlers true 3 crawlers
        (run_crawlers true 3 crawlers
          (run_crawlers true 3 crawlers health0 o1 n1).health o2 n2).health o3 n3).called ∧
     getConsecutiveZero (run_crawlers true 3 crawlers
        (run_crawlers true 3 crawlers
          (run_crawlers true 3 crawlers health0 o1 n1).health o2 n2).health o3 n3).health X = 3) ∧
    (∀ out ∈ runSeq true 3 crawlers rest
        (run_crawlers true 3 crawlers
          (run_crawlers true 3 crawlers
            (run_crawlers true 3 crawlers health0 o1 n1).health o2 n2).health o3 n3).health,
      X ∉ out.called) ∧
    (∀ (health : List (String × HealthEntry)) (oracle : String → SourceOutcome)
        (now : String) (jobs : List Job),
      getConsecutiveZero health X < 3 → oracle X = .collected jobs → jobs ≠ [] →
      getConsecutiveZero (run_crawlers true 3 crawlers health oracle now).health X = 0) := by
  have t1 := run_crawlers_zero_increments 3 crawlers health0 o1 n1 X opts hmem hen hcount
    (by omega) hz1
  have c1 : getConsecutiveZero (run_crawlers true 3 crawlers health0 o1 n1).health X = 1 := by
    omega
  have t2 := run_crawlers_zero_increments 3 crawlers
    (run_crawlers true 3 crawlers health0 o1 n1).health o2 n2 X opts hmem hen hcount
    (by omega) hz2
  have c2 : getConsecutiveZero (run_crawlers true 3 crawlers
      (run_crawlers true 3 crawlers health0 o1 n1).health o2 n2).health X = 2 := by
    omega
  have t3 := run_crawlers_zero_increments 3 crawlers
    (run_crawlers true 3 crawlers
      (run_crawlers true 3 crawlers health0 o1 n1).health o2 n2).health o3 n3 X opts
    hmem hen hcount (by omega) hz3
  have c3 : getConsecutiveZero (run_crawlers true 3 crawlers
      (run_crawlers true 3 crawlers
        (run_crawlers true 3 crawlers health0 o1 n1).health o2 n2).health o3 n3).health X
      = 3 := by
    omega
  refine ⟨⟨t1.1, c1⟩, ⟨t2.1, c2⟩, ⟨t3.1, c3⟩, ?_, ?_⟩
  · exact runSeq_tripped 3 crawlers X rest _ (by omega)
  · intro health oracle now jobs hlt horc hne
    have h := run_crawlers_transition 3 crawlers health oracle now X opts hmem hen hcount hlt
    rw [horc] at h
    simpa [hne] using h.2

/-- C3 witness: one enabled source, empty initial health; three zero-yield
runs trip the breaker, a fourth run does not call the source even though
its oracle would now yield, and a fresh nonzero-yield run resets the
counter to 0. -/
theorem zero_yield_circuit_breaker_witness :
    "x" ∉ (run_crawlers true 3 cbCrawlers
        (run_crawlers true 3 cbCrawlers
          (run_crawlers true 3 cbCrawlers
            (run_crawlers true 3 cbCrawlers [] czOracle "d1").health czOracle "d2").health
          czOracle "d3").health cgOracle "d4").called ∧
    getConsecutiveZero (run_crawlers true 3 cbCrawlers [] cgOracle "d0").health "x" = 0 := by
  have h := zero_yield_circuit_breaker cbCrawlers "x" { enabled := true }
    (by decide) rfl (by decide) [] (by decide) czOracle czOracle czOracle "d1" "d2" "d3"
    (Or.inr rfl) (Or.inr rfl) (Or.inr rfl) [(cgOracle, "d4")]
  refine ⟨?_, ?_⟩
  · exact h.2.2.2.1 _ (List.mem_cons_self _ _)
  · exact h.2.2.2.2 [] cgOracle "d0" [demoJob] (by decide) rfl (by decide)

/-- The dedup loop only ever appends accepted copies: its output extends
the accumulated uniques by a subsequence of the remaining input's accepted
forms. -/
theorem dedupGo_sublist (cfg : DedupCfg) :
    ∀ (jobs : List Job) (st : DedupSt),
      (dedupGo cfg st jobs).Sublist (st.unique ++ jobs.map acceptedForm) := by
  intro jobs
  induction jobs with
  | nil =>
    intro st
    simp [dedupGo]
  | cons j rest ih =>
    intro st
    by_cases hrej : rejects cfg st j = true
    · rw [dedupGo, if_pos hrej]
      refine (ih st).trans ?_
      rw [List.map_cons]
      exact (List.sublist_cons_self _ _).append_left st.unique
    · rw [dedupGo, if_neg hrej, List.map_cons]
      have := ih (pushJob st j)
      have hu : (pushJob st j).unique = st.unique ++ [acceptedForm j] := rfl
      rw [hu, List.append_assoc] at this
      simpa using this

/-- The first-hit semantics of `find?` over the six check indices. -/
theorem find?_first6 (p : Fin 6 → Bool) (k : Fin 6)
    (h : (List.finRange 6).find? p = some k) :
    p k = true ∧ ∀ i, i < k → p i = false := by
  have hfr : List.finRange 6 = [0, 1, 2, 3, 4, 5] := by decide
  rw [hfr] at h
  by_cases h0 : p 0 = true
  · rw [List.find?_cons_of_pos _ h0] at h
    obtain rfl := Option.some.inj h
    refine ⟨h0, fun i hi => absurd hi ?_⟩
    rw [Fin.lt_def]
    simp
  · rw [List.find?_cons_of_neg _ (by simpa using h0)] at h
    by_cases h1 : p 1 = true
    · rw [List.find?_cons_of_pos _ h1] at h
      obtain rfl := Option.some.inj h
      refine ⟨h1, fun i hi => ?_⟩
      fin_cases i <;> first | simpa using h0 | exact absurd hi (by decide)
    · rw [List.find?_cons_of_neg _ (by simpa using h1)] at h
      by_cases h2 : p 2 = true
      · rw [List.find?_cons_of_pos _ h2] at h
        obtain rfl := Option.some.inj h
        refine ⟨h2, fun i hi => ?_⟩
        fin_cases i <;> first | simpa using h0 | simpa using h1 | exact absurd hi (by decide)
      · rw [List.find?_cons_of_neg _ (by simpa using h2)] at h
        by_cases h3 : p 3 = true
        · rw [List.find?_cons_of_pos _ h3] at h
          obtain rfl := Option.some.inj h
          refine ⟨h3, fun i hi => ?_⟩
          fin_cases i <;> first | simpa using h0 | simpa using h1 | simpa using h2 | exact absurd hi (by decide)
        · rw [List.find?_cons_of_neg _ (by simpa using h3)] at h
          by_cases h4 : p 4 = true
          · rw [List.find?_cons_of_pos _ h4] at h
            obtain rfl := Option.some.inj h
            refine ⟨h4, fun i hi => ?_⟩
            fin_cases i <;> first | simpa using h0 | simpa using h1 | simpa using h2 | simpa using h3 | exact absurd hi (by decide)
          · rw [List.find?_cons_of_neg _ (by simpa using h4)] at h
            by_cases h5 : p 5 = true
            · rw [List.find?_cons_of_pos _ h5] at h
              obtain rfl := Option.some.inj h
              refine ⟨h5, fun i hi => ?_⟩
              fin_cases i <;> first | simpa using h0 | simpa using h1 | simpa using h2 | simpa using h3 | simpa using h4 | exact absurd hi (by decide)
            · rw [List.find?_cons_of_neg _ (by simpa using h5)] at h
              simp at h

/-! ### C1: the dedup rejection ladder -/

/-- C1: `deduplicate_jobs` is order-preserving — its output is a
subsequence of the input's accepted copies (each accepted posting is kept
at its first occurrence, with the canonical URL overwriting the original
when nonempty); per incoming posting the rejection decision equals "some
check of the six-step ladder fires", the firing check found by `find?` is
the FIRST one in ladder order (URL, title+company hash, description
fingerprint, coarse key, title similarity, cross-source similarity), with
every earlier check false; and the loop skips a rejected posting and
accepts the rest unchanged. -/
theorem dedup_ladder (cfg : DedupCfg) (jobs : List Job) :
    (deduplicate_jobs jobs cfg).Sublist (jobs.map acceptedForm) ∧
    (∀ st j, rejects cfg st j
      = ((List.finRange 6).find? (ladderCheck cfg st j)).isSome) ∧
    (∀ st j k, (List.finRange 6).find? (ladderCheck cfg st j) = some k →
      ladderCheck cfg st j k = true ∧ ∀ i, i < k → ladderCheck cfg st j i = false) ∧
    (∀ st j rest, dedupGo cfg st (j :: rest)
      = if rejects cfg st j then dedupGo cfg st rest
        else dedupGo cfg (pushJob st j) rest) := by
  refine ⟨?_, ?_, ?_, ?_⟩
  · have := dedupGo_sublist cfg jobs {}
    simpa [deduplicate_jobs] using this
  · intro st j
    have hfr : List.finRange 6 = [0, 1, 2, 3, 4, 5] := by decide
    rw [hfr]
    cases h0 : ladderCheck cfg st j 0 <;> cases h1 : ladderCheck cfg st j 1 <;>
      cases h2 : ladderCheck cfg st j 2 <;> cases h3 : ladderCheck cfg st j 3 <;>
      cases h4 : ladderCheck cfg st j 4 <;> cases h5 : ladderCheck cfg st j 5 <;>
      simp [rejects, List.find?, h0, h1, h2, h3, h4, h5]
  · intro st j k h
    exact find?_first6 (ladderCheck cfg st j) k h
  · intro st j rest
    rfl

/-- C1 witness: a posting whose canonical URL is already in the seen set is
rejected, the rejection decision matching the ladder with check 0 (the URL
check) firing first; the output on a duplicated input is a subsequence of
the accepted forms. -/
theorem dedup_ladder_witness :
    (deduplicate_jobs [dupUrlJob, dupUrlJob] {}).Sublist
      ([dupUrlJob, dupUrlJob].map acceptedForm) ∧
    rejects {} dupUrlState dupUrlJob
      = ((List.finRange 6).find? (ladderCheck {} dupUrlState dupUrlJob)).isSome ∧
    ladderCheck {} dupUrlState dupUrlJob 0 = true := by
  have h := dedup_ladder {} [dupUrlJob, dupUrlJob]
  refine ⟨h.1, h.2.1 dupUrlState dupUrlJob, ?_⟩
  exact (h.2.2.1 dupUrlState dupUrlJob 0 (by decide)).1

/-- The nested rejection conditional as a disjunction of the six checks. -/
theorem rejects_or (cfg : DedupCfg) (st : DedupSt) (j : Job) :
    rejects cfg st j
      = (ladderCheck cfg st j 0 || (ladderCheck cfg st j 1 || (ladderCheck cfg st j 2 ||
        (ladderCheck cfg st j 3 || (ladderCheck cfg st j 4 || ladderCheck cfg st j 5))))) := by
  cases h0 : ladderCheck cfg st j 0 <;> cases h1 : ladderCheck cfg st j 1 <;>
    cases h2 : ladderCheck cfg st j 2 <;> cases h3 : ladderCheck cfg st j 3 <;>
    cases h4 : ladderCheck cfg st j 4 <;> cases h5 : ladderCheck cfg st j 5 <;>
    simp [rejects, h0, h1, h2, h3, h4, h5]

/-- Nothing is rejected against the empty state. -/
theorem rejects_empty (cfg : DedupCfg) (a : Job) : rejects cfg {} a = false := by
  simp [rejects, ladderCheck]

/-- URL check after accepting `b`. -/
theorem lc0_push (cfg : DedupCfg) (st : DedupSt) (a b : Job) :
    ladderCheck cfg (pushJob st b) a 0
      = (ladderCheck cfg st a 0 ||
        (_canonical_url a.url != "" && (_canonical_url b.url != "" &&
          _canonical_url a.url == _canonical_url b.url))) := by
  by_cases hb : _canonical_url b.url != ""
  · apply Bool.eq_iff_iff.mpr
    simp [ladderCheck, pushJob, hb, List.contains_cons] <;> tauto
  · apply Bool.eq_iff_iff.mpr
    simp [ladderCheck, pushJob, hb, List.contains_cons] <;> tauto

/-- Title+company check after accepting `b`. -/
theorem lc1_push (cfg : DedupCfg) (st : DedupSt) (a b : Job) :
    ladderCheck cfg (pushJob st b) a 1
      = ((title_company_hash (normalize_text a.title) (normalize_company a.company)
          == title_company_hash (normalize_text b.title) (normalize_company b.company)) ||
        ladderCheck cfg st a 1) := by
  apply Bool.eq_iff_iff.mpr
  simp [ladderCheck, pushJob, List.contains_cons] <;> tauto

/-- Description-fingerprint check after accepting `b`. -/
theorem lc2_push (cfg : DedupCfg) (st : DedupSt) (a b : Job) :
    ladderCheck cfg (pushJob st b) a 2
      = ((desc_fingerprint (normalize_text a.description)
          == desc_fingerprint (normalize_text b.description)) ||
        ladderCheck cfg st a 2) := by
  apply Bool.eq_iff_iff.mpr
  simp [ladderCheck, pushJob, List.contains_cons] <;> tauto

/-- Coarse-key check after accepting `b`. -/
theorem lc3_push (cfg : DedupCfg) (st : DedupSt) (a b : Job) :
    ladderCheck cfg (pushJob st b) a 3
      = (((normalize_text a.title ++ "|" ++ normalize_company a.company ++ "|" ++
            (⟨(normalize_text a.location).data.take 20⟩ : String))
          == (normalize_text b.title ++ "|" ++ normalize_company b.company ++ "|" ++
            (⟨(normalize_text b.location).data.take 20⟩ : String))) ||
        ladderCheck cfg st a 3) := by
  apply Bool.eq_iff_iff.mpr
  simp [ladderCheck, pushJob, List.contains_cons] <;> tauto

/-- Title-similarity check after accepting `b`. -/
theorem lc4_push (cfg : DedupCfg) (st : DedupSt) (a b : Job) :
    ladderCheck cfg (pushJob st b) a 4
      = (cfg.title_similarity_enabled &&
        (st.unique.any (fun x => _is_similar (normalize_text a.title)
            (normalize_text x.title) cfg.title_similarity_threshold) ||
          _is_similar (normalize_text a.title) (normalize_text (acceptedForm b).title)
            cfg.title_similarity_threshold)) := by
  apply Bool.eq_iff_iff.mpr
  simp [ladderCheck, pushJob, List.any_append] <;> tauto

/-- Cross-source similarity check after accepting `b`. -/
theorem lc5_push (cfg : DedupCfg) (st : DedupSt) (a b : Job) :
    ladderCheck cfg (pushJob st b) a 5
      = (cfg.cross_site_similarity_enabled &&
        (st.unique.any (fun x =>
            decide (cfg.cross_site_similarity_threshold ≤
              _jaccard (curTokens (normalize_text a.title) (normalize_company a.company)
                  (normalize_text a.location) (normalize_text a.description))
                (acceptedTokens x))) ||
          decide (cfg.cross_site_similarity_threshold ≤
            _jaccard (curTokens (normalize_text a.title) (normalize_company a.company)
                (normalize_text a.location) (normalize_text a.description))
              (acceptedTokens (acceptedForm b))))) := by
  apply Bool.eq_iff_iff.mpr
  simp [ladderCheck, pushJob, List.any_append] <;> tauto

/-- Boolean rearrangement underlying the `rejects_push` decomposition,
stated over abstract atoms so it can be settled by truth-table. -/
theorem orShuffleDedup : ∀ (A0 A1 A2 A3 e4 n4 s4 e5 n5 s5 H0 H1 H2 H3 : Bool),
    ((A0 || H0) || ((H1 || A1) || ((H2 || A2) || ((H3 || A3) ||
        ((e4 && (n4 || s4)) || (e5 && (n5 || s5)))))))
      = ((A0 || (A1 || (A2 || (A3 || ((e4 && n4) || (e5 && n5)))))) ||
        (H0 || H1 || H2 || H3 || e4 && s4 || e5 && s5)) := by
  decide

/-- Rejection against a state extended by one accepted posting decomposes
into rejection against the old state or a duplicate hit on that posting. -/
theorem rejects_push (cfg : DedupCfg) (st : DedupSt) (a b : Job) :
    rejects cfg (pushJob st b) a = (rejects cfg st a || dupB cfg a b) := by
  have h4 : ladderCheck cfg st a 4
      = (cfg.title_similarity_enabled &&
        st.unique.any (fun x => _is_similar (normalize_text a.title)
          (normalize_text x.title) cfg.title_similarity_threshold)) := rfl
  have h5 : ladderCheck cfg st a 5
      = (cfg.cross_site_similarity_enabled &&
        st.unique.any (fun x =>
          decide (cfg.cross_site_similarity_threshold ≤
            _jaccard (curTokens (normalize_text a.title) (normalize_company a.company)
                (normalize_text a.location) (normalize_text a.description))
              (acceptedTokens x)))) := rfl
  rw [rejects_or cfg (pushJob st b) a, rejects_or cfg st a, lc0_push, lc1_push, lc2_push,
    lc3_push, lc4_push, lc5_push, h4, h5, dupB]
  set A0 := ladderCheck cfg st a 0
  set A1 := ladderCheck cfg st a 1
  set A2 := ladderCheck cfg st a 2
  set A3 := ladderCheck cfg st a 3
  set E4 := cfg.title_similarity_enabled
  set N4 := st.unique.any (fun x => _is_similar (normalize_text a.title)
    (normalize_text x.title) cfg.title_similarity_threshold)
  set S4 := _is_similar (normalize_text a.title)
    (normalize_text (acceptedForm b).title) cfg.title_similarity_threshold
  set E5 := cfg.cross_site_similarity_enabled
  set N5 := st.unique.any (fun x =>
    decide (cfg.cross_site_similarity_threshold ≤
      _jaccard (curTokens (normalize_text a.title) (normalize_company a.company)
          (normalize_text a.location) (normalize_text a.description))
        (acceptedTokens x)))
  set S5 := decide (cfg.cross_site_similarity_threshold ≤
    _jaccard (curTokens (normalize_text a.title) (normalize_company a.company)
        (normalize_text a.location) (normalize_text a.description))
      (acceptedTokens (acceptedForm b)))
  set H0 := (_canonical_url a.url != "" && (_canonical_url b.url != "" &&
    _canonical_url a.url == _canonical_url b.url))
  set H1 := (title_company_hash (normalize_text a.title) (normalize_company a.company)
    == title_company_hash (normalize_text b.title) (normalize_company b.company))
  set H2 := (desc_fingerprint (normalize_text a.description)
    == desc_fingerprint (normalize_text b.description))
  set H3 := ((normalize_text a.title ++ "|" ++ normalize_company a.company ++ "|" ++
      (⟨(normalize_text a.location).data.take 20⟩ : String))
    == (normalize_text b.title ++ "|" ++ normalize_company b.company ++ "|" ++
      (⟨(normalize_text b.location).data.take 20⟩ : String)))
  exact orShuffleDedup A0 A1 A2 A3 E4 N4 S4 E5 N5 S5 H0 H1 H2 H3

/-- When no posting of the input duplicates an earlier one and none is
rejected by the starting state, the dedup loop accepts everything. -/
theorem dedupGo_accept_all (cfg : DedupCfg) :
    ∀ (l : List Job) (st : DedupSt),
      (∀ a ∈ l, rejects cfg st a = false) →
      l.Pairwise (fun b a => dupB cfg a b = false) →
      dedupGo cfg st l = st.unique ++ l.map acceptedForm := by
  intro l
  induction l with
  | nil => intro st _ _; simp [dedupGo]
  | cons b rest ih =>
    intro st hrej hpw
    rcases List.pairwise_cons.mp hpw with ⟨hb, hrest⟩
    rw [dedupGo, if_neg (by simp [hrej b (by simp)])]
    have hrej2 : ∀ a ∈ rest, rejects cfg (pushJob st b) a = false := by
      intro a ha
      rw [rejects_push, hrej a (by simp [ha]), hb a ha]
      rfl
    rw [ih (pushJob st b) hrej2 hrest]
    have hu : (pushJob st b).unique = st.unique ++ [acceptedForm b] := rfl
    rw [hu, List.map_cons, List.append_assoc]
    rfl

/-! ### C2: permutation (in)variance of the dedup count -/

set_option maxRecDepth 8192 in
/-- C2 counterexample: the size of the dedup output is NOT invariant under
permutation of the input.  With both similarity stages disabled, the batch
`[permJob1, permJob2, permJob3]` keeps 2 postings — `permJob2` is rejected
by the URL check against `permJob1`, while `permJob3` (same title+company
as `permJob2`, different URL) survives because the `permJob2` that might
have caught it was itself rejected and so never entered the seen set — but
the permuted batch `[permJob2, permJob1, permJob3]` keeps only 1: there
`permJob2` is accepted first, `permJob1` falls to the URL check and
`permJob3` to the title+company hash. -/
theorem dedup_count_permutation_counterexample :
    List.Perm [permJob2, permJob1, permJob3] [permJob1, permJob2, permJob3] ∧
    (deduplicate_jobs [permJob1, permJob2, permJob3] cfgNoSim).length = 2 ∧
    (deduplicate_jobs [permJob2, permJob1, permJob3] cfgNoSim).length = 1 :=
  ⟨List.Perm.swap permJob1 permJob2 [permJob3], by decide, by decide⟩

/-- C2 amended: the dedup output size is invariant under permutation of the
input when no two distinct postings of the batch are duplicates of each
other (in either orientation): then every posting is accepted, so both
orders output exactly as many postings as they receive. -/
theorem dedup_count_permutation_amended (cfg : DedupCfg) (l1 l2 : List Job)
    (hperm : l1.Perm l2)
    (hfree : l1.Pairwise (fun a b => dupB cfg a b = false ∧ dupB cfg b a = false)) :
    (deduplicate_jobs l1 cfg).length = l1.length ∧
    (deduplicate_jobs l2 cfg).length = l2.length ∧
    (deduplicate_jobs l1 cfg).length = (deduplicate_jobs l2 cfg).length := by
  have hfree2 : l2.Pairwise (fun a b => dupB cfg a b = false ∧ dupB cfg b a = false) :=
    (hperm.pairwise_iff (fun h => ⟨h.2, h.1⟩)).mp hfree
  have key : ∀ l : List Job,
      l.Pairwise (fun a b => dupB cfg a b = false ∧ dupB cfg b a = false) →
      (deduplicate_jobs l cfg).length = l.length := by
    intro l hl
    have h1 : ∀ a ∈ l, rejects cfg {} a = false := fun a _ => rejects_empty cfg a
    have h2 : l.Pairwise (fun b a => dupB cfg a b = false) := hl.imp (fun h => h.2)
    have h3 := dedupGo_accept_all cfg l {} h1 h2
    simp [deduplicate_jobs, h3]
  have e1 := key l1 hfree
  have e2 := key l2 hfree2
  exact ⟨e1, e2, by rw [e1, e2, hperm.length_eq]⟩

set_option maxRecDepth 8192 in
theorem dedup_count_permutation_amended_witness :
    (deduplicate_jobs [freeJob1, freeJob2] cfgNoSim).length = 2 ∧
    (deduplicate_jobs [freeJob2, freeJob1] cfgNoSim).length = 2 ∧
    (deduplicate_jobs [freeJob1, freeJob2] cfgNoSim).length =
      (deduplicate_jobs [freeJob2, freeJob1] cfgNoSim).length := by
  have h := dedup_count_permutation_amended cfgNoSim [freeJob1, freeJob2]
    [freeJob2, freeJob1] (List.Perm.swap freeJob2 freeJob1 []) (by decide)
  exact ⟨h.1, h.2.1, h.2.2⟩

/-! ### C5: idempotence of the normalizers -/

/-- `str.lower` (modelled on ASCII) is idempotent on every code point. -/
theorem lowerChar_idem (c : Char) : lowerChar (lowerChar c) = lowerChar c := by
  by_cases hr : 65 ≤ c.toNat ∧ c.toNat ≤ 90
  · obtain ⟨ha, hb⟩ := hr
    interval_cases hc : c.toNat <;> simp [lowerChar, hc] <;> decide
  · simp [lowerChar, hr]

/-- Code points below U+00B2 (the smallest key of the finite NFKC table)
are NFKC-fixed. -/
theorem nfkcChar_eq_self_of_lt (c : Char) (h : c.toNat < 178) : nfkcChar c = [c] := by
  have k : ∀ d : Char, 178 ≤ d.toNat → c ≠ d := fun d hd e => by subst e; omega
  simp [nfkcChar, k '　' (by decide), k '²' (by decide), k '³' (by decide),
    k 'ﬁ' (by decide), k '™' (by decide), k 'Ａ' (by decide), k 'Ｋ' (by decide),
    k 'Ｚ' (by decide), k 'ａ' (by decide), k 'ｋ' (by decide), k 'ｚ' (by decide),
    k '０' (by decide), k '９' (by decide), k '（' (by decide), k '）' (by decide)]

/-- Lowercasing preserves NFKC-fixedness. -/
theorem nfkcChar_lowerChar (c : Char) (hc : nfkcChar c = [c]) :
    nfkcChar (lowerChar c) = [lowerChar c] := by
  by_cases hr : 65 ≤ c.toNat ∧ c.toNat ≤ 90
  · obtain ⟨ha, hb⟩ := hr
    interval_cases h2 : c.toNat <;> simp [lowerChar, h2] <;> decide
  · simpa [lowerChar, hr] using hc

/-- Every character that the NFKC-then-lowercase stage can output is fixed
by both stages. -/
theorem mem_ntChar_stable (c : Char) :
    ∀ d ∈ (nfkcChar c).map lowerChar, nfkcChar d = [d] ∧ lowerChar d = d := by
  by_cases hk : c ∈ ['　', '²', '³', 'ﬁ', '™', 'Ａ', 'Ｋ', 'Ｚ', 'ａ', 'ｋ', 'ｚ',
      '０', '９', '（', '）']
  · fin_cases hk <;> decide
  · simp only [List.mem_cons, List.not_mem_nil, or_false] at hk
    push_neg at hk
    obtain ⟨k1, k2, k3, k4, k5, k6, k7, k8, k9, k10, k11, k12, k13, k14, k15⟩ := hk
    have hc : nfkcChar c = [c] := by
      simp [nfkcChar, k1, k2, k3, k4, k5, k6, k7, k8, k9, k10, k11, k12, k13, k14, k15]
    intro d hd
    rw [hc] at hd
    simp only [List.map_cons, List.map_nil, List.mem_singleton] at hd
    subst hd
    exact ⟨nfkcChar_lowerChar c hc, lowerChar_idem c⟩

/-- NFKC expansion is the identity on lists of NFKC-fixed characters. -/
theorem flatMap_nfkc_of_stable (l : List Char) (h : ∀ c ∈ l, nfkcChar c = [c]) :
    l.flatMap nfkcChar = l := by
  induction l with
  | nil => rfl
  | cons c r ih =>
    simp [List.flatMap_cons, h c (by simp), ih (fun x hx => h x (by simp [hx]))]

/-- Lowercasing is the identity on lists of lower-fixed characters. -/
theorem map_lower_of_stable (l : List Char) (h : ∀ c ∈ l, lowerChar c = c) :
    l.map lowerChar = l := by
  induction l with
  | nil => rfl
  | cons c r ih =>
    simp [h c (by simp), ih (fun x hx => h x (by simp [hx]))]

/-- Whitespace collapsing introduces no character beyond a plain space. -/
theorem mem_collapseWs (l : List Char) : ∀ c ∈ collapseWs l, c ∈ l ∨ c = ' ' := by
  induction l using collapseWs.induct with
  | case1 => intro c hc; simp [collapseWs] at hc
  | case2 a ha => intro c hc; simp [collapseWs, ha] at hc; right; exact hc
  | case3 a ha => intro c hc; simp [collapseWs, ha] at hc; left; simp [hc]
  | case4 a d r ha hd ih =>
    intro c hc
    rw [show collapseWs (a :: d :: r) = collapseWs (d :: r) by
      simp [collapseWs, ha, hd]] at hc
    rcases ih c hc with h | h
    · left; simp only [List.mem_cons] at h ⊢; tauto
    · right; exact h
  | case5 a d r ha hd ih =>
    intro c hc
    rw [show collapseWs (a :: d :: r) = ' ' :: collapseWs (d :: r) by
      simp [collapseWs, ha, hd]] at hc
    rcases List.mem_cons.mp hc with rfl | hc2
    · right; rfl
    · rcases ih c hc2 with h | h
      · left; simp only [List.mem_cons] at h ⊢; tauto
      · right; exact h
  | case6 a d r ha ih =>
    intro c hc
    rw [show collapseWs (a :: d :: r) = a :: collapseWs (d :: r) by
      simp [collapseWs, ha]] at hc
    rcases List.mem_cons.mp hc with rfl | hc2
    · left; simp
    · rcases ih c hc2 with h | h
      · left; simp only [List.mem_cons] at h ⊢; tauto
      · right; exact h

/-- Stripping introduces no character. -/
theorem mem_pyStrip (l : List Char) : ∀ c ∈ pyStrip l, c ∈ l := by
  intro c hc
  unfold pyStrip at hc
  rw [List.mem_reverse] at hc
  have h1 := (List.dropWhile_sublist (l := (l.dropWhile isPySpace).reverse)
    (p := isPySpace)).subset hc
  rw [List.mem_reverse] at h1
  exact (List.dropWhile_sublist (l := l) (p := isPySpace)).subset h1

/-- A nonempty `dropWhile` result starts with a character that falsifies
the predicate. -/
theorem head_dropWhile_false (p : Char → Bool) (l : List Char) :
    ∀ c, (l.dropWhile p).head? = some c → p c = false := by
  induction l with
  | nil => intro c h; simp at h
  | cons a t ih =>
    intro c h
    rw [List.dropWhile_cons] at h
    by_cases ha : p a = true
    · rw [if_pos ha] at h; exact ih c h
    · rw [if_neg ha] at h
      simp only [List.head?_cons, Option.some.injEq] at h
      subst h
      simpa using ha

/-- Whitespace collapsing keeps a non-whitespace head character. -/
theorem head?_collapseWs (l : List Char) (c : Char) (hh : l.head? = some c)
    (hc : isPySpace c = false) : (collapseWs l).head? = some c := by
  cases l with
  | nil => simp at hh
  | cons a t =>
    simp only [List.head?_cons, Option.some.injEq] at hh
    subst hh
    cases t with
    | nil => simp [collapseWs, hc]
    | cons b r => simp [collapseWs, hc]

/-- Collapsing whitespace never empties a nonempty list. -/
theorem collapseWs_ne_nil : ∀ l : List Char, l ≠ [] → collapseWs l ≠ [] := by
  intro l
  induction l using collapseWs.induct with
  | case1 => intro h; exact absurd rfl h
  | case2 a ha => intro _; simp [collapseWs, ha]
  | case3 a ha => intro _; simp [collapseWs, ha]
  | case4 a d r ha hd ih =>
    intro _
    rw [show collapseWs (a :: d :: r) = collapseWs (d :: r) by
      simp [collapseWs, ha, hd]]
    exact ih (by simp)
  | case5 a d r ha hd ih => intro _; simp [collapseWs, ha, hd]
  | case6 a d r ha ih => intro _; simp [collapseWs, ha]

/-- Whitespace collapsing keeps a non-whitespace last character. -/
theorem getLast?_collapseWs (l : List Char) :
    ∀ c, l.getLast? = some c → isPySpace c = false →
      (collapseWs l).getLast? = some c := by
  induction l using collapseWs.induct with
  | case1 => intro c h _; simp at h
  | case2 a ha =>
    intro c h hc
    simp only [List.getLast?_singleton, Option.some.injEq] at h
    subst h
    rw [ha] at hc; cases hc
  | case3 a ha =>
    intro c h hc
    simp only [List.getLast?_singleton, Option.some.injEq] at h
    subst h
    simp [collapseWs, ha]
  | case4 a d r ha hd ih =>
    intro c h hc
    rw [List.getLast?_cons_cons] at h
    rw [show collapseWs (a :: d :: r) = collapseWs (d :: r) by
      simp [collapseWs, ha, hd]]
    exact ih c h hc
  | case5 a d r ha hd ih =>
    intro c h hc
    rw [List.getLast?_cons_cons] at h
    rw [show collapseWs (a :: d :: r) = ' ' :: collapseWs (d :: r) by
      simp [collapseWs, ha, hd]]
    obtain ⟨e, t, ht⟩ := List.exists_cons_of_ne_nil (collapseWs_ne_nil (d :: r) (by simp))
    rw [ht, List.getLast?_cons_cons, ← ht]
    exact ih c h hc
  | case6 a d r ha ih =>
    intro c h hc
    rw [List.getLast?_cons_cons] at h
    rw [show collapseWs (a :: d :: r) = a :: collapseWs (d :: r) by
      simp [collapseWs, ha]]
    obtain ⟨e, t, ht⟩ := List.exists_cons_of_ne_nil (collapseWs_ne_nil (d :: r) (by simp))
    rw [ht, List.getLast?_cons_cons, ← ht]
    exact ih c h hc

/-- Characters of the collapse output that are whitespace are plain spaces,
and no two adjacent characters of the output are both whitespace. -/
theorem collapseWs_canon (l : List Char) :
    (∀ c ∈ collapseWs l, isPySpace c = true → c = ' ') ∧
    (collapseWs l).Chain' (fun a b => isPySpace a = false ∨ isPySpace b = false) := by
  induction l using collapseWs.induct with
  | case1 => exact ⟨by intro c hc; simp [collapseWs] at hc, by simp [collapseWs]⟩
  | case2 a ha =>
    refine ⟨?_, ?_⟩
    · intro c hc _
      simp [collapseWs, ha] at hc
      exact hc
    · simp [collapseWs, ha]
  | case3 a ha =>
    refine ⟨?_, ?_⟩
    · intro c hc hw
      simp [collapseWs, ha] at hc
      subst hc
      exact absurd hw ha
    · simp [collapseWs, ha]
  | case4 a d r ha hd ih =>
    rw [show collapseWs (a :: d :: r) = collapseWs (d :: r) by
      simp [collapseWs, ha, hd]]
    exact ih
  | case5 a d r ha hd ih =>
    rw [show collapseWs (a :: d :: r) = ' ' :: collapseWs (d :: r) by
      simp [collapseWs, ha, hd]]
    refine ⟨?_, ?_⟩
    · intro c hc hw
      rcases List.mem_cons.mp hc with rfl | hc2
      · rfl
      · exact ih.1 c hc2 hw
    · rw [List.chain'_cons']
      refine ⟨?_, ih.2⟩
      intro y hy
      right
      have hh := head?_collapseWs (d :: r) d rfl (by simpa using hd)
      rw [hh] at hy
      simp at hy
      subst hy
      simpa using hd
  | case6 a d r ha ih =>
    rw [show collapseWs (a :: d :: r) = a :: collapseWs (d :: r) by
      simp [collapseWs, ha]]
    refine ⟨?_, ?_⟩
    · intro c hc hw
      rcases List.mem_cons.mp hc with rfl | hc2
      · exact absurd hw ha
      · exact ih.1 c hc2 hw
    · rw [List.chain'_cons']
      exact ⟨fun y _ => Or.inl (by simpa using ha), ih.2⟩

/-- Collapsing is the identity on lists whose whitespace is already
canonical (single plain spaces, never adjacent). -/
theorem collapseWs_fix : ∀ l : List Char,
    (∀ c ∈ l, isPySpace c = true → c = ' ') →
    l.Chain' (fun a b => isPySpace a = false ∨ isPySpace b = false) →
    collapseWs l = l := by
  intro l
  induction l using collapseWs.induct with
  | case1 => intro _ _; rfl
  | case2 a ha =>
    intro h1 _
    have h2 : a = ' ' := h1 a (by simp) ha
    subst h2
    simp [collapseWs]
  | case3 a ha => intro _ _; simp [collapseWs, ha]
  | case4 a d r ha hd ih =>
    intro h1 h2
    exfalso
    rcases (List.chain'_cons.mp h2).1 with h | h
    · rw [ha] at h; cases h
    · rw [hd] at h; cases h
  | case5 a d r ha hd ih =>
    intro h1 h2
    have ha2 : a = ' ' := h1 a (by simp) ha
    rw [show collapseWs (a :: d :: r) = ' ' :: collapseWs (d :: r) by
      simp [collapseWs, ha, hd]]
    rw [ih (fun c hc hw => h1 c (by simp [hc]) hw) (List.chain'_cons.mp h2).2, ha2]
  | case6 a d r ha ih =>
    intro h1 h2
    rw [show collapseWs (a :: d :: r) = a :: collapseWs (d :: r) by
      simp [collapseWs, ha]]
    rw [ih (fun c hc hw => h1 c (by simp [hc]) hw) (List.chain'_cons.mp h2).2]

/-- Stripping is the identity when neither boundary character is
whitespace. -/
theorem pyStrip_fix (l : List Char)
    (hh : ∀ c, l.head? = some c → isPySpace c = false)
    (hl : ∀ c, l.getLast? = some c → isPySpace c = false) :
    pyStrip l = l := by
  have h1 : l.dropWhile isPySpace = l := by
    cases l with
    | nil => rfl
    | cons a t => rw [List.dropWhile_cons, if_neg (by simp [hh a rfl])]
  have h2 : l.reverse.dropWhile isPySpace = l.reverse := by
    cases hr : l.reverse with
    | nil => rfl
    | cons a t =>
      have ha : l.getLast? = some a := by rw [← List.head?_reverse, hr]; rfl
      rw [List.dropWhile_cons, if_neg (by simp [hl a ha])]
  unfold pyStrip
  rw [h1, h2, List.reverse_reverse]

/-- The head of a stripped list is not whitespace. -/
theorem head?_pyStrip_false (l : List Char) :
    ∀ c, (pyStrip l).head? = some c → isPySpace c = false := by
  intro c hc
  unfold pyStrip at hc
  rw [List.head?_reverse] at hc
  have hne : (l.dropWhile isPySpace).reverse.dropWhile isPySpace ≠ [] := by
    intro h0; rw [h0] at hc; simp at hc
  obtain ⟨b, t, hbt⟩ := List.exists_cons_of_ne_nil hne
  obtain ⟨pre, hpre⟩ := List.dropWhile_suffix (p := isPySpace)
    (l := (l.dropWhile isPySpace).reverse)
  have hY2 : (l.dropWhile isPySpace).reverse.getLast? = some c := by
    rw [← hpre, hbt, List.getLast?_append_cons, ← hbt, hc]
  rw [List.getLast?_reverse] at hY2
  exact head_dropWhile_false _ _ c hY2

/-- The last character of a stripped list is not whitespace. -/
theorem getLast?_pyStrip_false (l : List Char) :
    ∀ c, (pyStrip l).getLast? = some c → isPySpace c = false := by
  intro c hc
  unfold pyStrip at hc
  rw [List.getLast?_reverse] at hc
  exact head_dropWhile_false _ _ c hc

/-- The normalize-text pipeline on character lists is idempotent. -/
theorem ntList_idem (l : List Char) : ntList (ntList l) = ntList l := by
  have hstab : ∀ c ∈ (l.flatMap nfkcChar).map lowerChar,
      nfkcChar c = [c] ∧ lowerChar c = c := by
    intro c hc
    simp only [List.mem_map, List.mem_flatMap] at hc
    obtain ⟨d, ⟨e, he, hd⟩, rfl⟩ := hc
    exact mem_ntChar_stable e (lowerChar d) (List.mem_map_of_mem lowerChar hd)
  have hout : ∀ c ∈ collapseWs (pyStrip ((l.flatMap nfkcChar).map lowerChar)),
      nfkcChar c = [c] ∧ lowerChar c = c := by
    intro c hc
    rcases mem_collapseWs _ c hc with h | rfl
    · exact hstab c (mem_pyStrip _ c h)
    · exact ⟨by decide, by decide⟩
  have h1 : ((ntList l).flatMap nfkcChar).map lowerChar = ntList l := by
    unfold ntList
    rw [flatMap_nfkc_of_stable _ (fun c hc => (hout c hc).1)]
    exact map_lower_of_stable _ (fun c hc => (hout c hc).2)
  have h2 : pyStrip (ntList l) = ntList l := by
    apply pyStrip_fix
    · intro c hc
      unfold ntList at hc
      cases hp : pyStrip ((l.flatMap nfkcChar).map lowerChar) with
      | nil => rw [hp] at hc; simp [collapseWs] at hc
      | cons a t =>
        have ha : isPySpace a = false := head?_pyStrip_false _ a (by rw [hp]; rfl)
        have hh := head?_collapseWs (a :: t) a rfl ha
        rw [hp, hh] at hc
        cases hc
        exact ha
    · intro c hc
      unfold ntList at hc
      cases hp : pyStrip ((l.flatMap nfkcChar).map lowerChar) with
      | nil => rw [hp] at hc; simp [collapseWs] at hc
      | cons a t =>
        cases hg : (a :: t).getLast? with
        | none => simp at hg
        | some b =>
          have hb : isPySpace b = false := getLast?_pyStrip_false _ b (by rw [hp]; exact hg)
          have hh := getLast?_collapseWs (a :: t) b hg hb
          rw [hp, hh] at hc
          cases hc
          exact hb
  have h3 : collapseWs (ntList l) = ntList l := by
    apply collapseWs_fix
    · intro c hc hw
      unfold ntList at hc
      exact (collapseWs_canon _).1 c hc hw
    · unfold ntList
      exact (collapseWs_canon _).2
  calc ntList (ntList l)
      = collapseWs (pyStrip (((ntList l).flatMap nfkcChar).map lowerChar)) := rfl
    _ = collapseWs (pyStrip (ntList l)) := by rw [h1]
    _ = collapseWs (ntList l) := by rw [h2]
    _ = ntList l := h3

/-- C5 counterexample: `normalize_company` and both URL canonicalizations
are not idempotent.  Deleting a company suffix can splice together a new
suffix occurrence; re-canonicalizing a URL drops a `;params` path suffix
that the first pass itself exposed as the last segment; and
`canonical_url`'s HTML-unescape step turns a percent-decoded `amp` key of
the first pass's output into a bare `&`. -/
theorem normalize_idempotence_counterexample :
    normalize_company (normalize_company "iinc.nc.") ≠ normalize_company "iinc.nc." ∧
    _canonical_url (_canonical_url "http://x.com/a;x//") ≠
      _canonical_url "http://x.com/a;x//" ∧
    canonical_url (canonical_url "https://x.com/p?x=1&%61mp=2") ≠
      canonical_url "https://x.com/p?x=1&%61mp=2" :=
  ⟨by decide, by decide, by decide⟩

/-- C5 amended: of the three normalizers named by the claim, only
`normalize_text` is idempotent, and it is so on every input string;
`normalize_company` and the two URL canonicalizations are not (see the
counterexample). -/
theorem normalize_text_idempotent (s : String) :
    normalize_text (normalize_text s) = normalize_text s :=
  congrArg String.mk (ntList_idem s.data)

/-! ### C9: the two URL canonicalizers -/

/-- Without an ampersand, HTML-unescaping is the identity. -/
theorem htmlUnescapeAux_id : ∀ (fuel : Nat) (l : List Char), '&' ∉ l →
    htmlUnescapeAux fuel l = l := by
  intro fuel l
  induction fuel, l using htmlUnescapeAux.induct with
  | case1 t => intro _; cases t <;> rfl
  | case2 l h0 => intro _; cases l with | nil => rfl | cons c r => rfl
  | case3 fuel r cr hnum ih => intro h; exact absurd (List.mem_cons_self _ _) h
  | case4 fuel r hnum cr hnamed ih => intro h; exact absurd (List.mem_cons_self _ _) h
  | case5 fuel r hnum hnamed ih => intro h; exact absurd (List.mem_cons_self _ _) h
  | case6 fuel c r hc ih =>
    intro h
    have h2 : '&' ∉ r := fun hr => h (List.mem_cons_of_mem c hr)
    rw [htmlUnescapeAux.eq_def]
    split
    · simp_all
    · rfl
    · rename_i heq1 heq2
      injection heq2 with e1 e2
      exact absurd e1 hc
    · rename_i hx heq1 heq2
      injection heq1 with ef
      injection heq2 with e1 e2
      subst ef
      subst e1
      subst e2
      rw [ih h2]

/-- Without an ampersand, `html.unescape` is the identity. -/
theorem htmlUnescape_id (l : List Char) (h : '&' ∉ l) : htmlUnescape l = l := by
  unfold htmlUnescape
  exact htmlUnescapeAux_id l.length l h

/-- Splitting at an absent separator returns the whole input. -/
theorem splitFirst_of_not_mem (sep : Char) (l : List Char) (h : sep ∉ l) :
    splitFirst sep l = (l, none) := by
  unfold splitFirst
  rw [if_neg]
  simp [h]

/-- The query of the fragment-then-query split is empty when the input has
no question mark. -/
theorem query_aux (w : List Char) (h : ('?' : Char) ∉ w) :
    ((splitFirst '?' (splitFirst '#' w).1).2).getD [] = ([] : List Char) := by
  have h1 : ('?' : Char) ∉ (splitFirst '#' w).1 := by
    unfold splitFirst
    by_cases hc : w.contains '#'
    · rw [if_pos hc]
      intro hm
      exact h ((List.takeWhile_sublist _).subset hm)
    · rw [if_neg hc]
      exact h
  rw [splitFirst_of_not_mem _ _ h1]
  rfl

/-- `urlsplit` reports an empty query when the URL has no question mark. -/
theorem query_of_no_qmark (l : List Char) (h : ('?' : Char) ∉ l) :
    (urlsplitCh l).query = [] := by
  have hu : ('?' : Char) ∉ removeUnsafeUrlChars l := fun hm => h (List.mem_of_mem_filter hm)
  simp only [urlsplitCh]
  split_ifs with hna hso hso
  · apply query_aux
    intro hm
    exact hu ((List.dropWhile_sublist _).subset ((List.tail_sublist _).subset
      (List.drop_subset _ _ ((List.dropWhile_sublist _).subset hm))))
  · apply query_aux
    intro hm
    exact hu ((List.dropWhile_sublist _).subset ((List.tail_sublist _).subset hm))
  · apply query_aux
    intro hm
    exact hu (List.drop_subset _ _ ((List.dropWhile_sublist _).subset hm))
  · exact query_aux _ hu

/-- C9 amended: the Normalizer's and the Dedup Engine's URL canonicalizers
agree on every URL containing neither a question mark nor an ampersand (no
query to order or unescape differently). -/
theorem canonical_urls_agree (u : String) (h1 : ('?' : Char) ∉ u.data)
    (h2 : ('&' : Char) ∉ u.data) : canonical_url u = _canonical_url u := by
  by_cases hu : u = ""
  · rw [hu]; rfl
  · have hstrip := mem_pyStrip u.data
    have hamp : ('&' : Char) ∉ pyStrip u.data := fun hm => h2 (hstrip _ hm)
    have hq : ('?' : Char) ∉ pyStrip u.data := fun hm => h1 (hstrip _ hm)
    have hunesc : htmlUnescape (pyStrip u.data) = pyStrip u.data := htmlUnescape_id _ hamp
    have hquery : (urlparseCh (pyStrip u.data)).query = [] := by
      show (urlsplitCh (pyStrip u.data)).query = []
      exact query_of_no_qmark _ hq
    simp only [canonical_url, _canonical_url, if_neg hu, hunesc, hquery]
    rfl

theorem canonical_urls_agree_witness :
    (('?' : Char) ∉ "https://x.com/job/1".data ∧
      ('&' : Char) ∉ "https://x.com/job/1".data) ∧
    canonical_url "https://x.com/job/1" = _canonical_url "https://x.com/job/1" :=
  ⟨⟨by decide, by decide⟩, canonical_urls_agree _ (by decide) (by decide)⟩

/-- C9 counterexample: the two canonicalizers differ once a query is
present — `core.dedup._canonical_url` sorts the query pairs while
`crawlers.common.canonical_url` preserves their order. -/
theorem canonical_urls_differ_counterexample :
    canonical_url "https://x.com/p?b=2&a=1" = "https://x.com/p?b=2&a=1" ∧
    _canonical_url "https://x.com/p?b=2&a=1" = "https://x.com/p?a=1&b=2" ∧
    canonical_url "https://x.com/p?b=2&a=1" ≠ _canonical_url "https://x.com/p?b=2&a=1" :=
  ⟨by decide, by decide, by decide⟩


/-! ### C6: canonical URL invariance -/

/-- A plain character differs from any non-plain character. -/
theorem plain_ne (c d : Char) (h : plainCh c = true) (hd : plainCh d = false) : c ≠ d :=
  fun e => by rw [e, hd] at h; cases h

/-- The facts needed about plain characters: not whitespace, none of the
URL delimiters, and not a netloc terminator. -/
theorem plain_facts (c : Char) (h : plainCh c = true) :
    isPySpace c = false ∧ c ≠ '\t' ∧ c ≠ '\r' ∧ c ≠ '\n' ∧ c ≠ ':' ∧ c ≠ '/' ∧
    c ≠ '?' ∧ c ≠ '#' ∧ c ≠ ';' ∧ c ≠ '&' ∧ c ≠ '=' ∧ c ≠ '%' ∧ c ≠ '+' ∧
    isNetlocEnd c = false := by
  have hn : (97 ≤ c.toNat ∧ c.toNat ≤ 122) ∨ (48 ≤ c.toNat ∧ c.toNat ≤ 57) ∨
      c.toNat = 46 ∨ c.toNat = 45 ∨ c.toNat = 95 := by
    simpa [plainCh, Bool.or_eq_true, Bool.and_eq_true, or_assoc] using h
  refine ⟨?_, plain_ne c _ h (by decide), plain_ne c _ h (by decide),
    plain_ne c _ h (by decide), plain_ne c _ h (by decide), plain_ne c _ h (by decide),
    plain_ne c _ h (by decide), plain_ne c _ h (by decide), plain_ne c _ h (by decide),
    plain_ne c _ h (by decide), plain_ne c _ h (by decide), plain_ne c _ h (by decide),
    plain_ne c _ h (by decide), ?_⟩
  · refine Bool.eq_false_iff.mpr (fun ht => ?_)
    simp only [isPySpace, Bool.or_eq_true, Bool.and_eq_true, decide_eq_true_eq,
      beq_iff_eq] at ht
    omega
  · refine Bool.eq_false_iff.mpr (fun ht => ?_)
    simp only [isNetlocEnd, Bool.or_eq_true, beq_iff_eq] at ht
    rcases ht with (e | e) | e <;> subst e <;> simp [plainCh] at h

/-- `takeWhile` passes over a block that satisfies the predicate. -/
theorem takeWhile_append_all (p : Char → Bool) (l1 l2 : List Char)
    (h : ∀ c ∈ l1, p c = true) :
    (l1 ++ l2).takeWhile p = l1 ++ l2.takeWhile p := by
  induction l1 with
  | nil => rfl
  | cons a t ih =>
    simp [List.takeWhile_cons, h a (by simp), ih (fun c hc => h c (by simp [hc]))]

/-- `dropWhile` passes over a block that satisfies the predicate. -/
theorem dropWhile_append_all (p : Char → Bool) (l1 l2 : List Char)
    (h : ∀ c ∈ l1, p c = true) :
    (l1 ++ l2).dropWhile p = l2.dropWhile p := by
  induction l1 with
  | nil => rfl
  | cons a t ih =>
    simp [List.dropWhile_cons, h a (by simp), ih (fun c hc => h c (by simp [hc]))]

/-- Splitting at the first separator occurrence. -/
theorem splitFirst_append (sep : Char) (X F : List Char) (hX : sep ∉ X) :
    splitFirst sep (X ++ sep :: F) = (X, some F) := by
  have hall : ∀ c ∈ X, (c != sep) = true := by
    intro c hc
    simp only [bne_iff_ne, ne_eq]
    exact fun e => hX (e ▸ hc)
  unfold splitFirst
  rw [if_pos (by simp)]
  rw [takeWhile_append_all _ _ _ hall, dropWhile_append_all _ _ _ hall]
  simp

/-- A trailing slash disappears under `rstrip("/")`. -/
theorem rstripSlash_append (X : List Char) : rstripSlash (X ++ ['/']) = rstripSlash X := by
  unfold rstripSlash
  rw [List.reverse_append]
  simp [List.dropWhile_cons]

/-- No parameters are split off a path without a semicolon. -/
theorem splitParams_no_semi (l : List Char) ( h : (';' : Char) ∉ l) :
    splitParamsCh l = (l, []) := by
  unfold splitParamsCh
  rw [if_neg (by simp [h])]

/-- `str.split` on an absent separator keeps the string whole. -/
theorem splitSep_no_sep (sep : Char) : ∀ l : List Char, sep ∉ l → splitSep sep l = [l] := by
  intro l
  induction l with
  | nil => intro _; rfl
  | cons a t ih =>
    intro h
    rw [splitSep, if_neg (fun e => h (by simp [e])), ih (fun hm => h (by simp [hm]))]

/-- Without a percent sign, tokenization is all literals. -/
theorem pctTokens_no_pct : ∀ l : List Char, '%' ∉ l → pctTokens l = l.map PctTok.lit := by
  intro l
  induction l using pctTokens.induct with
  | case1 => intro _; rfl
  | case2 a b r x y hb ha ih => intro h; exact absurd (List.mem_cons_self _ _) h
  | case3 a b r hno ih => intro h; exact absurd (List.mem_cons_self _ _) h
  | case4 c r hside ih =>
    intro h
    have hcr : c ≠ '%' := fun e => h (by rw [e]; exact List.mem_cons_self _ _)
    rw [pctTokens.eq_def]
    split
    all_goals first
      | (rename_i heq
         exact absurd heq (List.cons_ne_nil c r))
      | (rename_i heq
         injection heq with e1 e2
         exact absurd e1 hcr)
      | (rename_i heq
         injection heq with e1 e2
         subst e1
         subst e2
         rw [ih (fun hm => h (List.mem_cons_of_mem _ hm))]
         rfl)

/-- Decoding a stream of literal tokens returns the original characters. -/
theorem detokPct_lits : ∀ l : List Char, detokPct [] (l.map PctTok.lit) = l := by
  intro l
  induction l with
  | nil => rfl
  | cons a t ih => simp only [List.map_cons, detokPct, List.reverse_nil]; rw [ih]; rfl

/-- `unquote_plus` is the identity without `%` and `+`. -/
theorem unquotePlus_id (l : List Char) (h1 : ('%' : Char) ∉ l) (h2 : ('+' : Char) ∉ l) :
    unquotePlus l = l := by
  unfold unquotePlus
  have hmap : l.map (fun c => if c = '+' then ' ' else c) = l := by
    rw [List.map_congr_left (fun c hc => if_neg (fun e : c = '+' => h2 (e ▸ hc)))]
    exact List.map_id l
  rw [hmap]
  unfold pyUnquote
  rw [pctTokens_no_pct l h1, detokPct_lits]

/-- A key starting with `utm_` is a utm key. -/
theorem isUtm_prefix (K : List Char) : isUtmKey ('u' :: 't' :: 'm' :: '_' :: K) = true := by
  have hl : lowerAll ('u' :: 't' :: 'm' :: '_' :: K)
      = 'u' :: 't' :: 'm' :: '_' :: lowerAll K := rfl
  unfold isUtmKey
  rw [hl]
  simp [List.isPrefixOf]

/-- A nonempty list contains its head. -/
theorem mem_of_head?_eq (l : List Char) (c : Char) (h : l.head? = some c) : c ∈ l := by
  cases l with
  | nil => simp at h
  | cons a t =>
    simp only [List.head?_cons, Option.some.injEq] at h
    subst h
    exact List.mem_cons_self a t

/-- A nonempty list contains its last element. -/
theorem mem_of_getLast?_eq (l : List Char) (c : Char) (h : l.getLast? = some c) : c ∈ l := by
  rw [← List.head?_reverse] at h
  exact List.mem_reverse.mp (mem_of_head?_eq _ _ h)

/-- Stripping a whitespace-free list is the identity. -/
theorem pyStrip_of_no_ws (l : List Char) (h : ∀ c ∈ l, isPySpace c = false) :
    pyStrip l = l := by
  apply pyStrip_fix
  · intro c hc
    exact h c (mem_of_head?_eq _ _ hc)
  · intro c hc
    exact h c (mem_of_getLast?_eq _ _ hc)


/-- `urlsplit` on `https://H/P` followed by any reserved-character-free-host
suffix `E`: the scheme and netloc are recognized and the rest is split by
`#` then `?`. -/
theorem urlsplit_mkBase (H P E : List Char)
    (hH : ∀ c ∈ H, plainCh c = true)
    (hrm : removeUnsafeUrlChars (mkBase H P ++ E) = mkBase H P ++ E) :
    urlsplitCh (mkBase H P ++ E) =
      { scheme := ['h', 't', 't', 'p', 's'], netloc := H,
        path := (splitFirst '?' (splitFirst '#' ('/' :: (P ++ E))).1).1,
        params := [],
        query := ((splitFirst '?' (splitFirst '#' ('/' :: (P ++ E))).1).2).getD [],
        frag := ((splitFirst '#' ('/' :: (P ++ E))).2).getD [] } := by
  have hHn : ∀ c ∈ H, (!isNetlocEnd c) = true := by
    intro c hc
    obtain ⟨-, -, -, -, -, -, -, -, -, -, -, -, -, h14⟩ := plain_facts c (hH c hc)
    rw [h14]
    rfl
  simp only [urlsplitCh]
  rw [hrm]
  have e1 : (mkBase H P ++ E).takeWhile (· != ':') = ['h', 't', 't', 'p', 's'] := rfl
  have e2 : (mkBase H P ++ E).contains ':' = true := rfl
  have e3 : (mkBase H P ++ E).dropWhile (· != ':')
      = ':' :: '/' :: '/' :: ((H ++ '/' :: P) ++ E) := rfl
  rw [e1, e2, e3]
  have e4 : (true && ! ['h', 't', 't', 'p', 's'].isEmpty &&
      isAsciiAlpha (['h', 't', 't', 'p', 's'].headD ' ') &&
      ['h', 't', 't', 'p', 's'].all isSchemeChar) = true := rfl
  rw [e4]
  simp only [eq_self_iff_true, if_true, List.tail_cons, List.drop_succ_cons, List.drop_zero]
  have e5 : ((('/' : Char) :: '/' :: ((H ++ '/' :: P) ++ E)).take 2 == ['/', '/']) = true := rfl
  rw [e5]
  simp only [eq_self_iff_true, if_true, List.drop_succ_cons, List.drop_zero]
  rw [List.append_assoc, List.cons_append]
  rw [takeWhile_append_all _ _ _ hHn, dropWhile_append_all _ _ _ hHn]
  have e6 : List.takeWhile (fun c => !isNetlocEnd c) ('/' :: (P ++ E)) = [] := rfl
  have e7 : List.dropWhile (fun c => !isNetlocEnd c) ('/' :: (P ++ E)) = '/' :: (P ++ E) := rfl
  rw [e6, e7, List.append_nil]
  rfl

/-- Plain characters survive stripping and the unsafe-byte filter. -/
theorem plain_clean (d : Char) (hd : plainCh d = true) :
    isPySpace d = false ∧ (!(d == '\t' || d == '\r' || d == '\n')) = true := by
  obtain ⟨w, h2, h3, h4, -⟩ := plain_facts d hd
  refine ⟨w, ?_⟩
  simp [h2, h3, h4]

/-- The URL family of C6 is whitespace-free and unsafe-byte-free. -/
theorem mkBase_clean (H P E : List Char)
    (hH : ∀ c ∈ H, plainCh c = true)
    (hP : ∀ c ∈ P, plainCh c = true ∨ c = '/')
    (hE : ∀ c ∈ E, isPySpace c = false ∧ (!(c == '\t' || c == '\r' || c == '\n')) = true) :
    pyStrip (mkBase H P ++ E) = mkBase H P ++ E ∧
    removeUnsafeUrlChars (mkBase H P ++ E) = mkBase H P ++ E := by
  have hall : ∀ c ∈ mkBase H P ++ E,
      isPySpace c = false ∧ (!(c == '\t' || c == '\r' || c == '\n')) = true := by
    intro c hc
    simp only [mkBase, List.cons_append, List.mem_cons, List.mem_append] at hc
    rcases hc with rfl | rfl | rfl | rfl | rfl | rfl | rfl | rfl | (hH2 | rfl | hP2) | hE2
    · exact ⟨rfl, rfl⟩
    · exact ⟨rfl, rfl⟩
    · exact ⟨rfl, rfl⟩
    · exact ⟨rfl, rfl⟩
    · exact ⟨rfl, rfl⟩
    · exact ⟨rfl, rfl⟩
    · exact ⟨rfl, rfl⟩
    · exact ⟨rfl, rfl⟩
    · exact plain_clean c (hH c hH2)
    · exact ⟨rfl, rfl⟩
    · rcases hP c hP2 with h | rfl
      · exact plain_clean c h
      · exact ⟨rfl, rfl⟩
    · exact hE c hE2
  exact ⟨pyStrip_of_no_ws _ (fun c hc => (hall c hc).1),
    List.filter_eq_self.mpr (fun c hc => (hall c hc).2)⟩

/-- A non-plain, non-slash character does not occur in a plain-or-slash
block. -/
theorem notMemPS (P : List Char) (hP : ∀ c ∈ P, plainCh c = true ∨ c = '/')
    (d : Char) (hd1 : plainCh d = false) (hd2 : d ≠ '/') : d ∉ P := by
  intro hm
  rcases hP d hm with h | h
  · rw [hd1] at h; cases h
  · exact hd2 h

/-- A non-plain character does not occur in a plain block. -/
theorem notMemPlain (K : List Char) (hK : ∀ c ∈ K, plainCh c = true)
    (d : Char) (hd : plainCh d = false) : d ∉ K := by
  intro hm
  have := hK d hm
  rw [hd] at this
  cases this

/-- `urlparse` on the C6 family (no params are split off). -/
theorem urlparse_mkBase (H P E : List Char)
    (hH : ∀ c ∈ H, plainCh c = true)
    (hrm : removeUnsafeUrlChars (mkBase H P ++ E) = mkBase H P ++ E)
    (hsemi : (';' : Char) ∉ (splitFirst '?' (splitFirst '#' ('/' :: (P ++ E))).1).1) :
    urlparseCh (mkBase H P ++ E) =
      ⟨['h', 't', 't', 'p', 's'], H,
        (splitFirst '?' (splitFirst '#' ('/' :: (P ++ E))).1).1, [],
        ((splitFirst '?' (splitFirst '#' ('/' :: (P ++ E))).1).2).getD [],
        ((splitFirst '#' ('/' :: (P ++ E))).2).getD []⟩ := by
  unfold urlparseCh
  rw [urlsplit_mkBase H P E hH hrm]
  dsimp only
  rw [splitParams_no_semi _ hsemi]

/-- `_canonical_url` through explicitly given parse components. -/
theorem canon_parts (W H path q fr : List Char) (hne : (⟨W⟩ : String) ≠ "")
    (hps : pyStrip W = W)
    (hparse : urlparseCh W = ⟨['h', 't', 't', 'p', 's'], H, path, [], q, fr⟩) :
    _canonical_url ⟨W⟩ = ⟨urlunparseCh ['h', 't', 't', 'p', 's'] (lowerAll H)
      (rstripSlash path) []
      (urlencodePairs (sortPairs ((parseQsl q).filter (fun kv => !isUtmKey kv.1)))) []⟩ := by
  simp only [_canonical_url, if_neg hne]
  have hps2 : pyStrip (⟨W⟩ : String).data = W := hps
  rw [hps2, hparse]
  rfl


/-- `_canonical_url` of the bare base URL `https://H/P`. -/
theorem canon_base (H P : List Char)
    (hH : ∀ c ∈ H, plainCh c = true)
    (hP : ∀ c ∈ P, plainCh c = true ∨ c = '/') :
    _canonical_url ⟨mkBase H P⟩ = ⟨urlunparseCh ['h', 't', 't', 'p', 's'] (lowerAll H)
      (rstripSlash ('/' :: P)) [] [] []⟩ := by
  have hclean := mkBase_clean H P [] hH hP (fun c hc => absurd hc (List.not_mem_nil c))
  have hne : (⟨mkBase H P⟩ : String) ≠ "" := by
    intro e
    have h0 := congrArg String.data e
    simp [mkBase] at h0
  have hnum : ('#' : Char) ∉ '/' :: P := by
    intro hm
    rcases List.mem_cons.mp hm with e | hP2
    · exact absurd e (by decide)
    · exact notMemPS P hP '#' (by decide) (by decide) hP2
  have hqm : ('?' : Char) ∉ '/' :: P := by
    intro hm
    rcases List.mem_cons.mp hm with e | hP2
    · exact absurd e (by decide)
    · exact notMemPS P hP '?' (by decide) (by decide) hP2
  have hsF := splitFirst_of_not_mem '#' _ hnum
  have hsQ := splitFirst_of_not_mem '?' _ hqm
  have hsemi : (';' : Char) ∉ (splitFirst '?' (splitFirst '#' ('/' :: (P ++ []))).1).1 := by
    rw [List.append_nil, hsF]
    dsimp only
    rw [hsQ]
    intro hm
    rcases List.mem_cons.mp hm with e | hP2
    · exact absurd e (by decide)
    · exact notMemPS P hP ';' (by decide) (by decide) hP2
  have hparse := urlparse_mkBase H P [] hH hclean.2 hsemi
  rw [List.append_nil, List.append_nil P] at hparse
  rw [hsF] at hparse
  dsimp only at hparse
  rw [hsQ] at hparse
  simp only [Option.getD_none] at hparse
  have hps : pyStrip (mkBase H P) = mkBase H P := by
    have := hclean.1
    rwa [List.append_nil] at this
  have hcp := canon_parts (mkBase H P) H ('/' :: P) [] [] hne hps hparse
  rw [hcp]
  rfl

/-- A trailing slash does not change `_canonical_url` on the C6 family. -/
theorem canon_slash (H P : List Char)
    (hH : ∀ c ∈ H, plainCh c = true)
    (hP : ∀ c ∈ P, plainCh c = true ∨ c = '/') :
    _canonical_url ⟨mkBase H P ++ ['/']⟩ = _canonical_url ⟨mkBase H P⟩ := by
  have hclean := mkBase_clean H P ['/'] hH hP
    (by intro c hc; simp only [List.mem_singleton] at hc; subst hc; exact ⟨rfl, rfl⟩)
  have hne : (⟨mkBase H P ++ ['/']⟩ : String) ≠ "" := by
    intro e
    have h0 := congrArg String.data e
    simp [mkBase] at h0
  have hnum : ('#' : Char) ∉ '/' :: (P ++ ['/']) := by
    intro hm
    simp only [List.mem_cons, List.mem_append, List.mem_singleton] at hm
    rcases hm with e | hP2 | e
    · exact absurd e (by decide)
    · exact notMemPS P hP '#' (by decide) (by decide) hP2
    · exact absurd e (by decide)
  have hqm : ('?' : Char) ∉ '/' :: (P ++ ['/']) := by
    intro hm
    simp only [List.mem_cons, List.mem_append, List.mem_singleton] at hm
    rcases hm with e | hP2 | e
    · exact absurd e (by decide)
    · exact notMemPS P hP '?' (by decide) (by decide) hP2
    · exact absurd e (by decide)
  have hsF := splitFirst_of_not_mem '#' _ hnum
  have hsQ := splitFirst_of_not_mem '?' _ hqm
  have hsemi : (';' : Char) ∉ (splitFirst '?' (splitFirst '#' ('/' :: (P ++ ['/']))).1).1 := by
    rw [hsF]
    dsimp only
    rw [hsQ]
    intro hm
    simp only [List.mem_cons, List.mem_append, List.mem_singleton] at hm
    rcases hm with e | hP2 | e
    · exact absurd e (by decide)
    · exact notMemPS P hP ';' (by decide) (by decide) hP2
    · exact absurd e (by decide)
  have hparse := urlparse_mkBase H P ['/'] hH hclean.2 hsemi
  rw [hsF] at hparse
  dsimp only at hparse
  rw [hsQ] at hparse
  simp only [Option.getD_none] at hparse
  have hcp := canon_parts _ H ('/' :: (P ++ ['/'])) [] [] hne hclean.1 hparse
  rw [hcp, canon_base H P hH hP]
  rw [show ('/' : Char) :: (P ++ ['/']) = ('/' :: P) ++ ['/'] from rfl, rstripSlash_append]
  rfl


/-- A single `utm_`-keyed query pair is dropped entirely by the utm filter. -/
theorem parseQsl_utm (K V : List Char)
    (hK : ∀ c ∈ K, plainCh c = true) (hV : ∀ c ∈ V, plainCh c = true) :
    (parseQsl ('u' :: 't' :: 'm' :: '_' :: (K ++ '=' :: V))).filter
      (fun kv => !isUtmKey kv.1) = [] := by
  have hamp : ('&' : Char) ∉ 'u' :: 't' :: 'm' :: '_' :: (K ++ '=' :: V) := by
    intro hm
    simp only [List.mem_cons, List.mem_append] at hm
    rcases hm with e | e | e | e | hK2 | e | hV2
    · exact absurd e (by decide)
    · exact absurd e (by decide)
    · exact absurd e (by decide)
    · exact absurd e (by decide)
    · exact notMemPlain K hK '&' (by decide) hK2
    · exact absurd e (by decide)
    · exact notMemPlain V hV '&' (by decide) hV2
  have hKne : ∀ c ∈ K, (c != '=') = true := by
    intro c hc
    have h1 := (plain_facts c (hK c hc)).2.2.2.2.2.2.2.2.2.2.1
    simp [h1]
  have htu : List.takeWhile (fun x => x != '=') ('u' :: 't' :: 'm' :: '_' :: (K ++ '=' :: V))
      = 'u' :: 't' :: 'm' :: '_' :: K := by
    have h0 : List.takeWhile (fun x => x != '=') (K ++ '=' :: V) = K := by
      rw [takeWhile_append_all _ _ _ hKne]
      simp
    simp [List.takeWhile_cons, h0]
  have hdr : (List.dropWhile (fun x => x != '=') (K ++ '=' :: V)).tail = V := by
    have h0 : List.dropWhile (fun x => x != '=') (K ++ '=' :: V) = '=' :: V := by
      rw [dropWhile_append_all _ _ _ hKne]
      simp
    rw [h0, List.tail_cons]
  have hcont : (('u' :: 't' :: 'm' :: '_' :: (K ++ '=' :: V)).contains '=') = true := by
    simp
  have hq : parseQsl ('u' :: 't' :: 'm' :: '_' :: (K ++ '=' :: V))
      = [(unquotePlus ('u' :: 't' :: 'm' :: '_' :: K), unquotePlus V)] := by
    unfold parseQsl
    rw [splitSep_no_sep '&' _ hamp]
    simp [hcont, htu, hdr]
  have hnp : ('%' : Char) ∉ 'u' :: 't' :: 'm' :: '_' :: K := by
    intro hm
    simp only [List.mem_cons] at hm
    rcases hm with e | e | e | e | hK2
    · exact absurd e (by decide)
    · exact absurd e (by decide)
    · exact absurd e (by decide)
    · exact absurd e (by decide)
    · exact notMemPlain K hK '%' (by decide) hK2
  have hplus : ('+' : Char) ∉ 'u' :: 't' :: 'm' :: '_' :: K := by
    intro hm
    simp only [List.mem_cons] at hm
    rcases hm with e | e | e | e | hK2
    · exact absurd e (by decide)
    · exact absurd e (by decide)
    · exact absurd e (by decide)
    · exact absurd e (by decide)
    · exact notMemPlain K hK '+' (by decide) hK2
  rw [hq, unquotePlus_id _ hnp hplus]
  simp [List.filter_cons, isUtm_prefix]

/-- A fragment does not change `_canonical_url` on the C6 family. -/
theorem canon_frag (H P F : List Char)
    (hH : ∀ c ∈ H, plainCh c = true)
    (hP : ∀ c ∈ P, plainCh c = true ∨ c = '/')
    (hF : ∀ c ∈ F, plainCh c = true ∨ c = '/') :
    _canonical_url ⟨mkBase H P ++ '#' :: F⟩ = _canonical_url ⟨mkBase H P⟩ := by
  have hclean := mkBase_clean H P ('#' :: F) hH hP (by
    intro c hc
    rcases List.mem_cons.mp hc with rfl | hF2
    · exact ⟨rfl, rfl⟩
    · rcases hF c hF2 with h | rfl
      · exact plain_clean c h
      · exact ⟨rfl, rfl⟩)
  have hne : (⟨mkBase H P ++ '#' :: F⟩ : String) ≠ "" := by
    intro e
    have h0 := congrArg String.data e
    simp [mkBase] at h0
  have hnum : ('#' : Char) ∉ '/' :: P := by
    intro hm
    rcases List.mem_cons.mp hm with e | hP2
    · exact absurd e (by decide)
    · exact notMemPS P hP '#' (by decide) (by decide) hP2
  have hqm : ('?' : Char) ∉ '/' :: P := by
    intro hm
    rcases List.mem_cons.mp hm with e | hP2
    · exact absurd e (by decide)
    · exact notMemPS P hP '?' (by decide) (by decide) hP2
  have hsF := splitFirst_append '#' ('/' :: P) F hnum
  have hsQ := splitFirst_of_not_mem '?' _ hqm
  have hstep : ('/' : Char) :: (P ++ '#' :: F) = ('/' :: P) ++ '#' :: F := rfl
  have hsemi : (';' : Char) ∉ (splitFirst '?' (splitFirst '#' ('/' :: (P ++ '#' :: F))).1).1 := by
    rw [hstep, hsF]
    dsimp only
    rw [hsQ]
    intro hm
    rcases List.mem_cons.mp hm with e | hP2
    · exact absurd e (by decide)
    · exact notMemPS P hP ';' (by decide) (by decide) hP2
  have hparse := urlparse_mkBase H P ('#' :: F) hH hclean.2 hsemi
  rw [hstep, hsF] at hparse
  dsimp only at hparse
  rw [hsQ] at hparse
  simp only [Option.getD_none, Option.getD_some] at hparse
  have hcp := canon_parts _ H ('/' :: P) [] F hne hclean.1 hparse
  rw [hcp, canon_base H P hH hP]
  rfl

/-- An appended `utm_*` query parameter does not change `_canonical_url`
on the C6 family. -/
theorem canon_utm (H P K V : List Char)
    (hH : ∀ c ∈ H, plainCh c = true)
    (hP : ∀ c ∈ P, plainCh c = true ∨ c = '/')
    (hK : ∀ c ∈ K, plainCh c = true)
    (hV : ∀ c ∈ V, plainCh c = true) :
    _canonical_url ⟨mkBase H P ++ '?' :: 'u' :: 't' :: 'm' :: '_' :: (K ++ '=' :: V)⟩
      = _canonical_url ⟨mkBase H P⟩ := by
  have hclean := mkBase_clean H P ('?' :: 'u' :: 't' :: 'm' :: '_' :: (K ++ '=' :: V)) hH hP (by
    intro c hc
    simp only [List.mem_cons, List.mem_append] at hc
    rcases hc with rfl | rfl | rfl | rfl | rfl | hK2 | rfl | hV2
    · exact ⟨rfl, rfl⟩
    · exact ⟨rfl, rfl⟩
    · exact ⟨rfl, rfl⟩
    · exact ⟨rfl, rfl⟩
    · exact ⟨rfl, rfl⟩
    · exact plain_clean c (hK c hK2)
    · exact ⟨rfl, rfl⟩
    · exact plain_clean c (hV c hV2))
  have hne : (⟨mkBase H P ++ '?' :: 'u' :: 't' :: 'm' :: '_' :: (K ++ '=' :: V)⟩ : String) ≠ "" := by
    intro e
    have h0 := congrArg String.data e
    simp [mkBase] at h0
  have hnum : ('#' : Char)
      ∉ '/' :: (P ++ '?' :: 'u' :: 't' :: 'm' :: '_' :: (K ++ '=' :: V)) := by
    intro hm
    simp only [List.mem_cons, List.mem_append] at hm
    rcases hm with e | hP2 | e | e | e | e | e | hK2 | e | hV2
    · exact absurd e (by decide)
    · rcases hP '#' hP2 with h | h
      · rw [show plainCh '#' = false from rfl] at h; cases h
      · exact absurd h (by decide)
    · exact absurd e (by decide)
    · exact absurd e (by decide)
    · exact absurd e (by decide)
    · exact absurd e (by decide)
    · exact absurd e (by decide)
    · exact notMemPlain K hK '#' (by decide) hK2
    · exact absurd e (by decide)
    · exact notMemPlain V hV '#' (by decide) hV2
  have hqm : ('?' : Char) ∉ '/' :: P := by
    intro hm
    rcases List.mem_cons.mp hm with e | hP2
    · exact absurd e (by decide)
    · exact notMemPS P hP '?' (by decide) (by decide) hP2
  have hsF := splitFirst_of_not_mem '#' _ hnum
  have hsQ := splitFirst_append '?' ('/' :: P) ('u' :: 't' :: 'm' :: '_' :: (K ++ '=' :: V)) hqm
  have hstep : ('/' : Char) :: (P ++ '?' :: 'u' :: 't' :: 'm' :: '_' :: (K ++ '=' :: V))
      = ('/' :: P) ++ '?' :: 'u' :: 't' :: 'm' :: '_' :: (K ++ '=' :: V) := rfl
  have hsemi : (';' : Char) ∉ (splitFirst '?'
      (splitFirst '#' ('/' :: (P ++ '?' :: 'u' :: 't' :: 'm' :: '_' :: (K ++ '=' :: V)))).1).1 := by
    rw [hsF]
    dsimp only
    rw [hstep, hsQ]
    intro hm
    rcases List.mem_cons.mp hm with e | hP2
    · exact absurd e (by decide)
    · exact notMemPS P hP ';' (by decide) (by decide) hP2
  have hparse := urlparse_mkBase H P ('?' :: 'u' :: 't' :: 'm' :: '_' :: (K ++ '=' :: V))
    hH hclean.2 hsemi
  rw [hsF] at hparse
  dsimp only at hparse
  rw [hstep, hsQ] at hparse
  simp only [Option.getD_none, Option.getD_some] at hparse
  have hcp := canon_parts _ H ('/' :: P) ('u' :: 't' :: 'm' :: '_' :: (K ++ '=' :: V)) []
    hne hclean.1 hparse
  rw [hcp, canon_base H P hH hP, parseQsl_utm K V hK hV]
  rfl


/-- A character that is not plain, not `/`, not one of the scheme literals,
and not in the suffix, does not occur in a family URL. -/
theorem notMem_mkBase (H P E : List Char) (d : Char)
    (hH : ∀ c ∈ H, plainCh c = true)
    (hP : ∀ c ∈ P, plainCh c = true ∨ c = '/')
    (hd1 : plainCh d = false) (hd2 : d ≠ '/')
    (hlit : d ∉ (['h', 't', 'p', 's', ':'] : List Char))
    (hE : d ∉ E) : d ∉ mkBase H P ++ E := by
  intro hm
  simp only [mkBase, List.cons_append, List.mem_cons, List.mem_append] at hm
  rcases hm with e | e | e | e | e | e | e | e | (h2 | e | h2) | h2
  · exact hlit (by rw [e]; decide)
  · exact hlit (by rw [e]; decide)
  · exact hlit (by rw [e]; decide)
  · exact hlit (by rw [e]; decide)
  · exact hlit (by rw [e]; decide)
  · exact hlit (by rw [e]; decide)
  · exact hd2 e
  · exact hd2 e
  · exact notMemPlain H hH d hd1 h2
  · exact hd2 e
  · exact notMemPS P hP d hd1 hd2 h2
  · exact hE h2

/-- The two canonicalizers agree without `?` and `&` (helper form of the
C9 agreement, reused for the C6 family). -/
theorem canon_agree_core (u : String) (h1 : ('?' : Char) ∉ u.data)
    (h2 : ('&' : Char) ∉ u.data) : canonical_url u = _canonical_url u := by
  by_cases hu : u = ""
  · rw [hu]; rfl
  · have hstrip := mem_pyStrip u.data
    have hamp : ('&' : Char) ∉ pyStrip u.data := fun hm => h2 (hstrip _ hm)
    have hq : ('?' : Char) ∉ pyStrip u.data := fun hm => h1 (hstrip _ hm)
    have hunesc : htmlUnescape (pyStrip u.data) = pyStrip u.data := htmlUnescape_id _ hamp
    have hquery : (urlparseCh (pyStrip u.data)).query = [] := by
      show (urlsplitCh (pyStrip u.data)).query = []
      exact query_of_no_qmark _ hq
    simp only [canonical_url, _canonical_url, if_neg hu, hunesc, hquery]
    rfl

/-- `canonical_url` through explicitly given parse components. -/
theorem canonC_parts (W H path q fr : List Char) (hne : (⟨W⟩ : String) ≠ "")
    (hps : pyStrip W = W) (hun : htmlUnescape W = W)
    (hparse : urlparseCh W = ⟨['h', 't', 't', 'p', 's'], H, path, [], q, fr⟩) :
    canonical_url ⟨W⟩ = ⟨urlunparseCh ['h', 't', 't', 'p', 's'] (lowerAll H)
      (rstripSlash path) []
      (urlencodePairs ((parseQsl q).filterMap (fun kv =>
        let key := pyStrip kv.1
        let key := if ['a', 'm', 'p', ';'].isPrefixOf (lowerAll key) then key.drop 4 else key
        if key.isEmpty || isUtmKey key then none else some (key, kv.2)))) []⟩ := by
  simp only [canonical_url, if_neg hne]
  have hps2 : pyStrip (⟨W⟩ : String).data = W := hps
  rw [hps2, hun, hparse]
  rfl

/-- The query cleaner of `canonical_url` drops a single `utm_*` pair. -/
theorem filterMap_utm_none (K V : List Char)
    (hK : ∀ c ∈ K, plainCh c = true) (hV : ∀ c ∈ V, plainCh c = true) :
    (parseQsl ('u' :: 't' :: 'm' :: '_' :: (K ++ '=' :: V))).filterMap (fun kv =>
      let key := pyStrip kv.1
      let key := if ['a', 'm', 'p', ';'].isPrefixOf (lowerAll key) then key.drop 4 else key
      if key.isEmpty || isUtmKey key then none else some (key, kv.2)) = [] := by
  have hamp : ('&' : Char) ∉ 'u' :: 't' :: 'm' :: '_' :: (K ++ '=' :: V) := by
    intro hm
    simp only [List.mem_cons, List.mem_append] at hm
    rcases hm with e | e | e | e | hK2 | e | hV2
    · exact absurd e (by decide)
    · exact absurd e (by decide)
    · exact absurd e (by decide)
    · exact absurd e (by decide)
    · exact notMemPlain K hK '&' (by decide) hK2
    · exact absurd e (by decide)
    · exact notMemPlain V hV '&' (by decide) hV2
  have hKne : ∀ c ∈ K, (c != '=') = true := by
    intro c hc
    have h1 := (plain_facts c (hK c hc)).2.2.2.2.2.2.2.2.2.2.1
    simp [h1]
  have htu : List.takeWhile (fun x => x != '=') ('u' :: 't' :: 'm' :: '_' :: (K ++ '=' :: V))
      = 'u' :: 't' :: 'm' :: '_' :: K := by
    have h0 : List.takeWhile (fun x => x != '=') (K ++ '=' :: V) = K := by
      rw [takeWhile_append_all _ _ _ hKne]
      simp
    simp [List.takeWhile_cons, h0]
  have hdr : (List.dropWhile (fun x => x != '=') (K ++ '=' :: V)).tail = V := by
    have h0 : List.dropWhile (fun x => x != '=') (K ++ '=' :: V) = '=' :: V := by
      rw [dropWhile_append_all _ _ _ hKne]
      simp
    rw [h0, List.tail_cons]
  have hcont : (('u' :: 't' :: 'm' :: '_' :: (K ++ '=' :: V)).contains '=') = true := by
    simp
  have hq : parseQsl ('u' :: 't' :: 'm' :: '_' :: (K ++ '=' :: V))
      = [(unquotePlus ('u' :: 't' :: 'm' :: '_' :: K), unquotePlus V)] := by
    unfold parseQsl
    rw [splitSep_no_sep '&' _ hamp]
    simp [hcont, htu, hdr]
  have hnp : ('%' : Char) ∉ 'u' :: 't' :: 'm' :: '_' :: K := by
    intro hm
    simp only [List.mem_cons] at hm
    rcases hm with e | e | e | e | hK2
    · exact absurd e (by decide)
    · exact absurd e (by decide)
    · exact absurd e (by decide)
    · exact absurd e (by decide)
    · exact notMemPlain K hK '%' (by decide) hK2
  have hplus : ('+' : Char) ∉ 'u' :: 't' :: 'm' :: '_' :: K := by
    intro hm
    simp only [List.mem_cons] at hm
    rcases hm with e | e | e | e | hK2
    · exact absurd e (by decide)
    · exact absurd e (by decide)
    · exact absurd e (by decide)
    · exact absurd e (by decide)
    · exact notMemPlain K hK '+' (by decide) hK2
  rw [hq, unquotePlus_id _ hnp hplus]
  have hstrip : pyStrip ('u' :: 't' :: 'm' :: '_' :: K) = 'u' :: 't' :: 'm' :: '_' :: K := by
    apply pyStrip_of_no_ws
    intro c hc
    simp only [List.mem_cons] at hc
    rcases hc with rfl | rfl | rfl | rfl | hK2
    · rfl
    · rfl
    · rfl
    · rfl
    · exact (plain_clean c (hK c hK2)).1
  have hpre2 : ¬ (['a', 'm', 'p', ';'] <+: lowerAll ('u' :: 't' :: 'm' :: '_' :: K)) := by
    intro hpf
    obtain ⟨t, ht⟩ := hpf
    have h1 : lowerAll ('u' :: 't' :: 'm' :: '_' :: K)
        = 'u' :: lowerAll ('t' :: 'm' :: '_' :: K) := rfl
    rw [← ht] at h1
    injection h1 with e1 e2
    exact absurd e1 (by decide)
  simp [hstrip, hpre2, isUtm_prefix]

/-- Absence of `?` and `&` in the slash-, fragment- and bare variants. -/
theorem no_qamp_base (H P : List Char)
    (hH : ∀ c ∈ H, plainCh c = true)
    (hP : ∀ c ∈ P, plainCh c = true ∨ c = '/') :
    (('?' : Char) ∉ mkBase H P ++ ([] : List Char)) ∧
    (('&' : Char) ∉ mkBase H P ++ ([] : List Char)) ∧
    (('?' : Char) ∉ mkBase H P ++ ['/']) ∧ (('&' : Char) ∉ mkBase H P ++ ['/']) :=
  ⟨notMem_mkBase H P [] '?' hH hP (by decide) (by decide) (by decide)
      (List.not_mem_nil '?'),
    notMem_mkBase H P [] '&' hH hP (by decide) (by decide) (by decide)
      (List.not_mem_nil '&'),
    notMem_mkBase H P ['/'] '?' hH hP (by decide) (by decide) (by decide) (by decide),
    notMem_mkBase H P ['/'] '&' hH hP (by decide) (by decide) (by decide) (by decide)⟩

/-- `canonical_url` ignores a trailing slash on the C6 family. -/
theorem canonC_slash (H P : List Char)
    (hH : ∀ c ∈ H, plainCh c = true)
    (hP : ∀ c ∈ P, plainCh c = true ∨ c = '/') :
    canonical_url ⟨mkBase H P ++ ['/']⟩ = canonical_url ⟨mkBase H P⟩ := by
  obtain ⟨hq0, ha0, hq1, ha1⟩ := no_qamp_base H P hH hP
  rw [List.append_nil] at hq0 ha0
  rw [canon_agree_core ⟨mkBase H P ++ ['/']⟩ hq1 ha1,
    canon_agree_core ⟨mkBase H P⟩ hq0 ha0]
  exact canon_slash H P hH hP

/-- `canonical_url` ignores a fragment on the C6 family. -/
theorem canonC_frag (H P F : List Char)
    (hH : ∀ c ∈ H, plainCh c = true)
    (hP : ∀ c ∈ P, plainCh c = true ∨ c = '/')
    (hF : ∀ c ∈ F, plainCh c = true ∨ c = '/') :
    canonical_url ⟨mkBase H P ++ '#' :: F⟩ = canonical_url ⟨mkBase H P⟩ := by
  obtain ⟨hq0, ha0, -, -⟩ := no_qamp_base H P hH hP
  rw [List.append_nil] at hq0 ha0
  have hqf : ('?' : Char) ∉ mkBase H P ++ '#' :: F := by
    refine notMem_mkBase H P ('#' :: F) '?' hH hP (by decide) (by decide) (by decide) ?_
    intro hm
    rcases List.mem_cons.mp hm with e | hF2
    · exact absurd e (by decide)
    · exact notMemPS F hF '?' (by decide) (by decide) hF2
  have haf : ('&' : Char) ∉ mkBase H P ++ '#' :: F := by
    refine notMem_mkBase H P ('#' :: F) '&' hH hP (by decide) (by decide) (by decide) ?_
    intro hm
    rcases List.mem_cons.mp hm with e | hF2
    · exact absurd e (by decide)
    · exact notMemPS F hF '&' (by decide) (by decide) hF2
  rw [canon_agree_core ⟨mkBase H P ++ '#' :: F⟩ hqf haf,
    canon_agree_core ⟨mkBase H P⟩ hq0 ha0]
  exact canon_frag H P F hH hP hF

/-- `canonical_url` drops an appended `utm_*` parameter on the C6 family. -/
theorem canonC_utm (H P K V : List Char)
    (hH : ∀ c ∈ H, plainCh c = true)
    (hP : ∀ c ∈ P, plainCh c = true ∨ c = '/')
    (hK : ∀ c ∈ K, plainCh c = true)
    (hV : ∀ c ∈ V, plainCh c = true) :
    canonical_url ⟨mkBase H P ++ '?' :: 'u' :: 't' :: 'm' :: '_' :: (K ++ '=' :: V)⟩
      = canonical_url ⟨mkBase H P⟩ := by
  have hclean := mkBase_clean H P ('?' :: 'u' :: 't' :: 'm' :: '_' :: (K ++ '=' :: V)) hH hP (by
    intro c hc
    simp only [List.mem_cons, List.mem_append] at hc
    rcases hc with rfl | rfl | rfl | rfl | rfl | hK2 | rfl | hV2
    · exact ⟨rfl, rfl⟩
    · exact ⟨rfl, rfl⟩
    · exact ⟨rfl, rfl⟩
    · exact ⟨rfl, rfl⟩
    · exact ⟨rfl, rfl⟩
    · exact plain_clean c (hK c hK2)
    · exact ⟨rfl, rfl⟩
    · exact plain_clean c (hV c hV2))
  have hne : (⟨mkBase H P ++ '?' :: 'u' :: 't' :: 'm' :: '_' :: (K ++ '=' :: V)⟩ : String) ≠ "" := by
    intro e
    have h0 := congrArg String.data e
    simp [mkBase] at h0
  have hnum : ('#' : Char)
      ∉ '/' :: (P ++ '?' :: 'u' :: 't' :: 'm' :: '_' :: (K ++ '=' :: V)) := by
    intro hm
    simp only [List.mem_cons, List.mem_append] at hm
    rcases hm with e | hP2 | e | e | e | e | e | hK2 | e | hV2
    · exact absurd e (by decide)
    · rcases hP '#' hP2 with h | h
      · rw [show plainCh '#' = false from rfl] at h; cases h
      · exact absurd h (by decide)
    · exact absurd e (by decide)
    · exact absurd e (by decide)
    · exact absurd e (by decide)
    · exact absurd e (by decide)
    · exact absurd e (by decide)
    · exact notMemPlain K hK '#' (by decide) hK2
    · exact absurd e (by decide)
    · exact notMemPlain V hV '#' (by decide) hV2
  have hqm : ('?' : Char) ∉ '/' :: P := by
    intro hm
    rcases List.mem_cons.mp hm with e | hP2
    · exact absurd e (by decide)
    · exact notMemPS P hP '?' (by decide) (by decide) hP2
  have hsF := splitFirst_of_not_mem '#' _ hnum
  have hsQ := splitFirst_append '?' ('/' :: P) ('u' :: 't' :: 'm' :: '_' :: (K ++ '=' :: V)) hqm
  have hstep : ('/' : Char) :: (P ++ '?' :: 'u' :: 't' :: 'm' :: '_' :: (K ++ '=' :: V))
      = ('/' :: P) ++ '?' :: 'u' :: 't' :: 'm' :: '_' :: (K ++ '=' :: V) := rfl
  have hsemi : (';' : Char) ∉ (splitFirst '?'
      (splitFirst '#' ('/' :: (P ++ '?' :: 'u' :: 't' :: 'm' :: '_' :: (K ++ '=' :: V)))).1).1 := by
    rw [hsF]
    dsimp only
    rw [hstep, hsQ]
    intro hm
    rcases List.mem_cons.mp hm with e | hP2
    · exact absurd e (by decide)
    · exact notMemPS P hP ';' (by decide) (by decide) hP2
  have hparse := urlparse_mkBase H P ('?' :: 'u' :: 't' :: 'm' :: '_' :: (K ++ '=' :: V))
    hH hclean.2 hsemi
  rw [hsF] at hparse
  dsimp only at hparse
  rw [hstep, hsQ] at hparse
  simp only [Option.getD_none, Option.getD_some] at hparse
  have hampW : ('&' : Char) ∉ mkBase H P ++ '?' :: 'u' :: 't' :: 'm' :: '_' :: (K ++ '=' :: V) := by
    refine notMem_mkBase H P _ '&' hH hP (by decide) (by decide) (by decide) ?_
    intro hm
    simp only [List.mem_cons, List.mem_append] at hm
    rcases hm with e | e | e | e | e | hK2 | e | hV2
    · exact absurd e (by decide)
    · exact absurd e (by decide)
    · exact absurd e (by decide)
    · exact absurd e (by decide)
    · exact absurd e (by decide)
    · exact notMemPlain K hK '&' (by decide) hK2
    · exact absurd e (by decide)
    · exact notMemPlain V hV '&' (by decide) hV2
  have hun : htmlUnescape (mkBase H P ++ '?' :: 'u' :: 't' :: 'm' :: '_' :: (K ++ '=' :: V))
      = mkBase H P ++ '?' :: 'u' :: 't' :: 'm' :: '_' :: (K ++ '=' :: V) :=
    htmlUnescape_id _ hampW
  have hcp := canonC_parts _ H ('/' :: P) ('u' :: 't' :: 'm' :: '_' :: (K ++ '=' :: V)) []
    hne hclean.1 hun hparse
  obtain ⟨hq0, ha0, -, -⟩ := no_qamp_base H P hH hP
  rw [List.append_nil] at hq0 ha0
  rw [hcp, canon_agree_core ⟨mkBase H P⟩ hq0 ha0, canon_base H P hH hP,
    filterMap_utm_none K V hK hV]
  rfl

set_option maxRecDepth 8192 in
/-- C6 counterexample: URLs differing only in a trailing slash need not
canonicalize identically.  `urlparse` splits `;params` off the last path
segment only; a trailing slash empties that segment, so
`http://x.com/a;x` loses its `;x` while `http://x.com/a;x/` keeps it —
under both canonicalizers. -/
theorem canonical_url_trailing_slash_counterexample :
    _canonical_url "http://x.com/a;x/" = "http://x.com/a;x" ∧
    _canonical_url "http://x.com/a;x" = "http://x.com/a" ∧
    canonical_url "http://x.com/a;x/" = "http://x.com/a;x" ∧
    canonical_url "http://x.com/a;x" = "http://x.com/a" ∧
    _canonical_url "http://x.com/a;x/" ≠ _canonical_url "http://x.com/a;x" ∧
    canonical_url "http://x.com/a;x/" ≠ canonical_url "http://x.com/a;x" :=
  ⟨by decide, by decide, by decide, by decide, by decide, by decide⟩

set_option maxRecDepth 8192 in
/-- C6 amended: on the well-formed URL family `https://H/P` (unreserved
lowercase host and path characters, no `;`), appending a trailing slash, a
`#fragment`, or a `?utm_*=value` query parameter changes neither
`core.dedup._canonical_url` nor `crawlers.common.canonical_url` — so any
two such URLs differing only in those dimensions canonicalize identically
under both canonicalizers; in particular the two scenario URLs
`https://x.com/job/1?utm_source=a` and `https://x.com/job/1/` both
canonicalize to `https://x.com/job/1`, and of two postings carrying them
the second is rejected by the dedup engine's URL check (only the first
survives, with the canonical URL). -/
theorem canonical_url_variants_amended (H P F K V : List Char)
    (hH : ∀ c ∈ H, plainCh c = true)
    (hP : ∀ c ∈ P, plainCh c = true ∨ c = '/')
    (hF : ∀ c ∈ F, plainCh c = true ∨ c = '/')
    (hK : ∀ c ∈ K, plainCh c = true)
    (hV : ∀ c ∈ V, plainCh c = true) :
    (_canonical_url ⟨mkBase H P ++ ['/']⟩ = _canonical_url ⟨mkBase H P⟩ ∧
     _canonical_url ⟨mkBase H P ++ '#' :: F⟩ = _canonical_url ⟨mkBase H P⟩ ∧
     _canonical_url ⟨mkBase H P ++ '?' :: 'u' :: 't' :: 'm' :: '_' :: (K ++ '=' :: V)⟩
       = _canonical_url ⟨mkBase H P⟩) ∧
    (canonical_url ⟨mkBase H P ++ ['/']⟩ = canonical_url ⟨mkBase H P⟩ ∧
     canonical_url ⟨mkBase H P ++ '#' :: F⟩ = canonical_url ⟨mkBase H P⟩ ∧
     canonical_url ⟨mkBase H P ++ '?' :: 'u' :: 't' :: 'm' :: '_' :: (K ++ '=' :: V)⟩
       = canonical_url ⟨mkBase H P⟩) ∧
    _canonical_url "https://x.com/job/1?utm_source=a" = "https://x.com/job/1" ∧
    _canonical_url "https://x.com/job/1/" = "https://x.com/job/1" ∧
    canonical_url "https://x.com/job/1?utm_source=a" = "https://x.com/job/1" ∧
    canonical_url "https://x.com/job/1/" = "https://x.com/job/1" ∧
    deduplicate_jobs [utmJob, slashJob] cfgNoSim = [acceptedForm utmJob] ∧
    (acceptedForm utmJob).url = "https://x.com/job/1" :=
  ⟨⟨canon_slash H P hH hP, canon_frag H P F hH hP hF, canon_utm H P K V hH hP hK hV⟩,
    ⟨canonC_slash H P hH hP, canonC_frag H P F hH hP hF, canonC_utm H P K V hH hP hK hV⟩,
    by decide, by decide, by decide, by decide, by decide, by decide⟩

theorem canonical_url_variants_amended_witness :
    (_canonical_url ⟨mkBase "x.com".data "job/1".data ++ ['/']⟩
      = _canonical_url ⟨mkBase "x.com".data "job/1".data⟩) ∧
    (canonical_url ⟨mkBase "x.com".data "job/1".data ++ '#' :: "sec".data⟩
      = canonical_url ⟨mkBase "x.com".data "job/1".data⟩) ∧
    (canonical_url ⟨mkBase "x.com".data "job/1".data ++
        '?' :: 'u' :: 't' :: 'm' :: '_' :: ("source".data ++ '=' :: "a".data)⟩
      = canonical_url ⟨mkBase "x.com".data "job/1".data⟩) := by
  have h := canonical_url_variants_amended "x.com".data "job/1".data "sec".data
    "source".data "a".data (by decide) (by decide) (by decide) (by decide) (by decide)
  exact ⟨h.1.1, h.2.1.2.1, h.2.1.2.2⟩

/-! ### C8: counter reset policies -/

/-- C8 counterexample: the orchestrator's zero-yield counter is NOT reset
when the calendar day changes.  A source with counter 2 recorded on
2025-09-30 runs again (zero yield) on 2025-10-01: its counter becomes 3 —
had the day change reset it, the counter would now be at most 1. -/
theorem health_day_reset_counterexample :
    getConsecutiveZero (run_crawlers true 3 cbCrawlers staleHealth czOracle
        "2025-10-01T12:00:00").health "x" = 3 ∧
    (run_crawlers true 3 cbCrawlers staleHealth czOracle "2025-10-01T12:00:00").health
      = [("x", { consecutive_zero := 3, last_collected := 0,
                 updated_at := "2025-10-01T12:00:00" })] := by
  decide

/-- C8 amended: the day-scoped reset holds only for the linkareer
per-class breaker counters — a state recorded on another day never opens
the circuit, a mark after a day change starts the counters from zero (so
yields 1), and the success-path reset helpers zero their counter
unconditionally; the orchestrator's zero-yield counter, by contrast, is
reset to 0 exactly by a run with nonzero yield. -/
theorem health_counter_reset_amended :
    (∀ (st : BreakerState) (today : String), st.day ≠ some today →
      _is_circuit_open today st = false ∧
      (_mark_504_failure today st).consecutive_504 = 1 ∧
      (_mark_504_failure today st).consecutive_dns = 0 ∧
      (_mark_dns_failure today st).consecutive_dns = 1 ∧
      (_mark_dns_failure today st).consecutive_504 = 0) ∧
    (∀ (st : BreakerState) (today : String),
      (_reset_504_failure today st).consecutive_504 = 0 ∧
      (_reset_dns_failure today st).consecutive_dns = 0) ∧
    (∀ (crawlers : List (String × SourceOpts)) (X : String) (opts : SourceOpts)
        (health : List (String × HealthEntry)) (oracle : String → SourceOutcome)
        (now : String) (jobs : List Job) (zt : Int),
      (X, opts) ∈ crawlers → opts.enabled = true →
      (crawlers.map Prod.fst).count X = 1 →
      getConsecutiveZero health X < zt → oracle X = .collected jobs → jobs ≠ [] →
      getConsecutiveZero (run_crawlers true zt crawlers health oracle now).health X = 0) := by
  refine ⟨?_, ?_, ?_⟩
  · intro st today h
    refine ⟨?_, ?_, ?_, ?_, ?_⟩
    · simp [_is_circuit_open, h]
    · simp [_mark_504_failure, h]
    · simp [_mark_504_failure, h]
    · simp [_mark_dns_failure, h]
    · simp [_mark_dns_failure, h]
  · intro st today
    constructor
    · unfold _reset_504_failure
      split
      · rename_i hc
        exact hc.2
      · rfl
    · unfold _reset_dns_failure
      split
      · rename_i hc
        exact hc.2
      · rfl
  · intro crawlers X opts health oracle now jobs zt hmem hen hcount hlt horc hne
    have h := run_crawlers_transition zt crawlers health oracle now X opts hmem hen hcount hlt
    rw [horc] at h
    simpa [hne] using h.2

/-- C8 amended witness: a breaker state from 2025-10-01 evaluated on
2025-10-02, and a concrete nonzero-yield run resetting the zero counter. -/
theorem health_counter_reset_amended_witness :
    _is_circuit_open "20251002" staleBreaker = false ∧
    (_mark_504_failure "20251002" staleBreaker).consecutive_504 = 1 ∧
    (_reset_dns_failure "20251002" staleBreaker).consecutive_dns = 0 ∧
    getConsecutiveZero (run_crawlers true 3 cbCrawlers staleHealth cgOracle
        "2025-10-01T12:00:00").health "x" = 0 := by
  have h := health_counter_reset_amended
  refine ⟨(h.1 staleBreaker "20251002" (by decide)).1,
    (h.1 staleBreaker "20251002" (by decide)).2.1,
    (h.2.1 staleBreaker "20251002").2, ?_⟩
  exact h.2.2 cbCrawlers "x" { enabled := true } staleHealth cgOracle
    "2025-10-01T12:00:00" [demoJob] 3 (by decide) rfl (by decide) (by decide) rfl (by decide)

/-! ### C4: adapter failures are isolated -/

/-- C4: if a source's adapter raises on every call (so `_run_source` for
`X` raises), the harvest result of `run_crawlers` is exactly the harvest of
the remaining sources — removing `X` from the configuration changes
nothing in the postings; in particular the exception never escapes the
loop and `X` contributes no postings. -/
theorem adapter_raise_isolated (he : Bool) (zt : Int)
    (crawlers : List (String × SourceOpts)) (health0 : List (String × HealthEntry))
    (oracle : String → SourceOutcome) (now : String) (X : String)
    (hX : oracle X = .raised) :
    (run_crawlers he zt crawlers health0 oracle now).results
      = (run_crawlers he zt (crawlers.filter (fun s => s.1 != X)) health0 oracle now).results := by
  unfold run_crawlers
  rw [sortByTier_filter]
  exact (loop_raised_agree he zt oracle now X hX (sortByTier crawlers) _ _ rfl
    (fun _ _ => rfl)).1

/-- C4 witness: with the raising tier-1 source and the healthy tier-2
source, the harvest equals the harvest without the raising source, namely
the healthy source's single posting. -/
theorem adapter_raise_isolated_witness :
    (run_crawlers true 3 demoCrawlers [] demoOracle "2025-10-12T00:00:00").results
      = (run_crawlers true 3 (demoCrawlers.filter (fun s => s.1 != "bad")) []
          demoOracle "2025-10-12T00:00:00").results ∧
    (run_crawlers true 3 demoCrawlers [] demoOracle "2025-10-12T00:00:00").results
      = [demoJob] := by
  refine ⟨adapter_raise_isolated true 3 demoCrawlers [] demoOracle
    "2025-10-12T00:00:00" "bad" (by decide), by decide⟩

/-! ### C7: detail-fetch fan-out isolation -/

/-- C7: with a `fetch_detail` capability, the detail stage emits exactly one
record per selected candidate (`min max_items (length list_items)` in all,
as a permutation of the per-candidate merges); a candidate whose worker
raised, or whose worker returned a non-record value, contributes its
unchanged list record, and a candidate whose worker returned a detail dict
contributes the overlay in which every present detail field wins and every
absent detail field keeps the list value. -/
theorem detail_fanout_isolation (list_items : List RawRec) (max_items : Nat)
    (oracle : RawRec → DetailOutcome) (sched : List RawRec → List RawRec)
    (hperm : (sched (list_items.take max_items)).Perm (list_items.take max_items)) :
    (_fetch_details_parallel true list_items max_items oracle sched).length
        = min max_items list_items.length ∧
    (_fetch_details_parallel true list_items max_items oracle sched).Perm
        ((list_items.take max_items).map (detailMerge oracle)) ∧
    (∀ it, oracle it = .raised → detailMerge oracle it = it) ∧
    (∀ it, oracle it = .nonRec → detailMerge oracle it = it) ∧
    (∀ it d, oracle it = .record d → detailMerge oracle it = dictUpdate it d) ∧
    (∀ f ∈ recStrFields, ∀ b d, f (dictUpdate b d) = (f d).orElse (fun _ => f b)) ∧
    (∀ b d, (dictUpdate b d).is_open = d.is_open.orElse (fun _ => b.is_open)) := by
  have hfd : _fetch_details_parallel true list_items max_items oracle sched
      = (sched (list_items.take max_items)).map (detailMerge oracle) := by
    simp [_fetch_details_parallel]
  refine ⟨?_, ?_, ?_, ?_, ?_, ?_, ?_⟩
  · rw [hfd, List.length_map, hperm.length_eq, List.length_take]
  · rw [hfd]; exact hperm.map _
  · intro it h; simp [detailMerge, h]
  · intro it h
    simp only [detailMerge, h]
    rfl
  · intro it d h; simp [detailMerge, h]
  · intro f hf b d
    simp only [recStrFields, List.mem_cons, List.not_mem_nil, or_false] at hf
    rcases hf with h | h | h | h | h | h | h | h | h | h <;> subst h <;> rfl
  · intro b d; rfl

/-- C7 witness: five candidates with the third worker raising still yield
five records, the third being the unchanged list record. -/
theorem detail_fanout_isolation_witness :
    (_fetch_details_parallel true fanoutItems 30 fanoutOracle id).length = 5 ∧
    detailMerge fanoutOracle { url := some "https://s.com/3", title := some "t3" } =
      { url := some "https://s.com/3", title := some "t3" } ∧
    (detailMerge fanoutOracle { url := some "https://s.com/1", title := some "t1" }).description =
      some "detail text" := by
  have h := detail_fanout_isolation fanoutItems 30 fanoutOracle id (List.Perm.refl _)
  refine ⟨h.1.trans (by decide), h.2.2.1 _ (by decide), ?_⟩
  rw [h.2.2.2.2.1 _ { description := some "detail text", status_text := some "모집중" } (by decide)]
  rfl

end JobBot
